import Mathlib

/-!
# Barnes–Hut quad tree: embedding of `Barnes_Hut/QuadTree.h`

The C++ `double` is modelled twice.  The main embedding reads every `double`
operation as the exact operation on the rationals `ℚ`; the statements proved over
it are statements over exact arithmetic.  The section on binary64 arithmetic
repeats the arithmetic functions with IEEE-754 rounding after every operation
(namespace `F64`); it is used to evaluate the source on concrete inputs where
rounding decides the outcome.  A `Particle *` is an
index into a store of particles (`Store`), the null pointer is `none`.
A node of the tree either has its four children (`north_west_ != nullptr`,
constructor `inner`) or has none (`leaf`): `Split` creates the four children
together and `Merge` deletes them together.

Functions of the source that can recurse without bound (`insert` on coincident
positions) take a `fuel` argument and return `none` when it runs out; `none` is
also the result where the source dereferences a null child pointer.  The function
`QuadTree.insertO` keeps the two apart.

The library function `sqrt` is a parameter of the velocity functions.
-/

namespace BarnesHut

/-! ## Vector, Particle, AABB -/

/-- The `struct Vector` of the source, with exact rational components. -/
structure Vector where
  x : ℚ
  y : ℚ
deriving DecidableEq

namespace Vector

/-- Source: `operator+(Vector p1, Vector p2)`. -/
def add (p1 p2 : Vector) : Vector := ⟨p1.x + p2.x, p1.y + p2.y⟩

/-- Source: `operator-(Vector p1, Vector p2)`. -/
def sub (p1 p2 : Vector) : Vector := ⟨p1.x - p2.x, p1.y - p2.y⟩

/-- Source: `operator*(double s, Vector p)`. -/
def smul (s : ℚ) (p : Vector) : Vector := ⟨s * p.x, s * p.y⟩

/-- Source: `operator*(Vector p, double s)`, which returns `s * p`. -/
def muls (p : Vector) (s : ℚ) : Vector := smul s p

/-- Source: `operator/(Vector p, double s)`, which returns `1.0 / s * p`. -/
def div (p : Vector) (s : ℚ) : Vector := smul (1 / s) p

/-- Source: `MagnitudeSquared`. -/
def MagnitudeSquared (p : Vector) : ℚ := p.x * p.x + p.y * p.y

/-- Source: `Magnitude`; the library `sqrt` is the parameter. -/
def Magnitude (sqrt : ℚ → ℚ) (p : Vector) : ℚ := sqrt p.MagnitudeSquared

/-- Source: `Normalise`, which returns `*this / Magnitude()`. -/
def Normalise (sqrt : ℚ → ℚ) (p : Vector) : Vector := div p (Magnitude sqrt p)

/-- The value-initialised vector `{ 0, 0 }`. -/
def zero : Vector := ⟨0, 0⟩

end Vector

/-- The `struct Particle` of the source. -/
structure Particle where
  pos : Vector
  vel : Vector
  mass : ℚ
deriving DecidableEq

/-- The particle store: what a `Particle *` points into. -/
abbrev Store := Nat → Particle

/-- The `struct AABB` of the source; the fields are declared in the order `l, t, r, b`. -/
structure AABB where
  l : ℚ
  t : ℚ
  r : ℚ
  b : ℚ
deriving DecidableEq

namespace AABB

/-- Source: `width`. -/
def width (R : AABB) : ℚ := R.r - R.l

/-- Source: `height`. -/
def height (R : AABB) : ℚ := R.t - R.b

/-- Source: `AABB::Partition`; index 0 is north-west, 1 north-east, 2 south-west,
3 south-east.  The arithmetic is exact, so that `l + width()` is `r` and
`t - height()` is `b`; `F64.AABB.Partition` rounds as the `double` operations do. -/
def Partition (R : AABB) : Fin 4 → AABB :=
  ![⟨R.l, R.t, R.l + R.width / 2, R.t - R.height / 2⟩,
    ⟨R.l + R.width / 2, R.t, R.l + R.width, R.t - R.height / 2⟩,
    ⟨R.l, R.t - R.height / 2, R.l + R.width / 2, R.t - R.height⟩,
    ⟨R.l + R.width / 2, R.t - R.height / 2, R.l + R.width, R.t - R.height⟩]

/-- Source: `AABB::Contains`, the conjunction of the four comparisons. -/
def Contains (R : AABB) (pos : Vector) : Bool :=
  decide (pos.x ≥ R.l) && decide (pos.x < R.r) && decide (pos.y ≥ R.b) && decide (pos.y < R.t)

end AABB

/-! ## QuadTree -/

/-- The data members of a `QuadTree` node other than the four child pointers.
`count_` is a `size_t`: its increments cannot wrap (the address space does not
hold `2^64` particles), its subtraction in `UpdatePositions` is `subSize`. -/
structure NodeData where
  particle_ : Option Nat
  count_ : Nat
  mass_ : ℚ
  centre_of_mass_ : Vector
  bounds_ : AABB
deriving DecidableEq

/-- A `QuadTree` node: `leaf` when the child pointers are null, `inner` when they
are set (in the order north-west, north-east, south-west, south-east). -/
inductive QuadTree where
  | leaf (d : NodeData)
  | inner (d : NodeData) (north_west_ north_east_ south_west_ south_east_ : QuadTree)
deriving DecidableEq

namespace QuadTree

/-- The data members of a node. -/
def data : QuadTree → NodeData
  | leaf d => d
  | inner d _ _ _ _ => d

/-- Assign the data members of a node, keeping its children. -/
def setData : QuadTree → NodeData → QuadTree
  | leaf _, d => leaf d
  | inner _ nw ne sw se, d => inner d nw ne sw se

/-- Source: the constructor `QuadTree(AABB bounds)`; every other member is
value-initialised. -/
def mk (bounds : AABB) : QuadTree := leaf ⟨none, 0, 0, Vector.zero, bounds⟩

/-- Source: `QuadTree::insert`.  The first two branches need no fuel; the
recursion into the children uses one unit.  `Split` is inlined: each child is
built by `QuadTree(sub_quads[k], particle_)`, the constructor that inserts the
held particle into a fresh node; a null `particle_` is dereferenced there
(`none`).  The arithmetic is exact; `F64.QuadTree.insert` is the same function in
`double` arithmetic, and `insertO` tells the two meanings of `none` apart. -/
def insert (s : Store) (particle : Nat) : Nat → QuadTree → Option QuadTree
  | fuel, t =>
    if !t.data.bounds_.Contains (s particle).pos then some t
    else if t.data.count_ = 0 then
      some (t.setData { t.data with
        mass_ := (s particle).mass
        centre_of_mass_ := (s particle).pos
        particle_ := some particle
        count_ := t.data.count_ + 1 })
    else
      match fuel with
      | 0 => none
      | fuel + 1 => do
        let (d, nw, ne, sw, se) ←
          (match t with
          | inner d nw ne sw se => some (d, nw, ne, sw, se)
          | leaf d =>
            match d.particle_ with
            | none => none
            | some held => do
              let sub_quads := d.bounds_.Partition
              let nw ← insert s held fuel (mk (sub_quads 0))
              let ne ← insert s held fuel (mk (sub_quads 1))
              let sw ← insert s held fuel (mk (sub_quads 2))
              let se ← insert s held fuel (mk (sub_quads 3))
              some ({ d with particle_ := none }, nw, ne, sw, se))
        let nw1 ← insert s particle fuel nw
        let ne1 ← insert s particle fuel ne
        let sw1 ← insert s particle fuel sw
        let se1 ← insert s particle fuel se
        some (inner { d with
          centre_of_mass_ :=
            Vector.div (Vector.add (Vector.muls d.centre_of_mass_ d.mass_)
              (Vector.muls (s particle).pos (s particle).mass))
              (d.mass_ + (s particle).mass)
          mass_ := d.mass_ + (s particle).mass
          count_ := d.count_ + 1 } nw1 ne1 sw1 se1)

/-- Source: `particle->vel += v` (`Vector::operator+=` through the pointer). -/
def addVel (s : Store) (particle : Nat) (v : Vector) : Store :=
  Function.update s particle { s particle with vel := Vector.add (s particle).vel v }

/-- Source: `if (dist_sq < 0.000001) dist_sq = 0.000001;` in `UpdateVelocity`. -/
def clamp (dist_sq : ℚ) : ℚ := if dist_sq < 1 / 1000000 then 1 / 1000000 else dist_sq

/-- Source: `QuadTree::UpdateVelocity`, called on the root for the target
`particle`; it writes the target's `vel` in the store.  A step into null
children is `none`. -/
def UpdateVelocity (sqrt : ℚ → ℚ) (particle : Nat) (delta_time theta : ℚ) :
    QuadTree → Store → Option Store
  | t, s =>
    if some particle = t.data.particle_ ∨ t.data.count_ = 0 then some s
    else
      let dist_sq := clamp (Vector.sub (s particle).pos t.data.centre_of_mass_).MagnitudeSquared
      match t.data.particle_ with
      | some held =>
        some (addVel s particle
          (Vector.div
            (Vector.smul (delta_time * (s held).mass)
              (Vector.Normalise sqrt (Vector.sub (s held).pos (s particle).pos)))
            dist_sq))
      | none =>
        if t.data.bounds_.width * t.data.bounds_.width / dist_sq < theta * theta then
          some (addVel s particle
            (Vector.div
              (Vector.smul (delta_time * t.data.mass_)
                (Vector.Normalise sqrt (Vector.sub t.data.centre_of_mass_ (s particle).pos)))
              dist_sq))
        else
          match t with
          | leaf _ => none
          | inner _ nw ne sw se => do
            let s1 ← UpdateVelocity sqrt particle delta_time theta nw s
            let s2 ← UpdateVelocity sqrt particle delta_time theta ne s1
            let s3 ← UpdateVelocity sqrt particle delta_time theta sw s2
            UpdateVelocity sqrt particle delta_time theta se s3

/-- Source: `QuadTree::UpdateVelocities`.  No member of any node is assigned:
the result is the store alone. -/
def UpdateVelocities (sqrt : ℚ → ℚ) (root : QuadTree) (delta_time theta : ℚ) :
    QuadTree → Store → Option Store
  | inner _ nw ne sw se, s => do
    let s1 ← UpdateVelocities sqrt root delta_time theta nw s
    let s2 ← UpdateVelocities sqrt root delta_time theta ne s1
    let s3 ← UpdateVelocities sqrt root delta_time theta sw s2
    UpdateVelocities sqrt root delta_time theta se s3
  | leaf d, s =>
    match d.particle_ with
    | some held => UpdateVelocity sqrt held delta_time theta root s
    | none => some s

/-- Source: `QuadTree::Merge`, on a node with data `d` and the four children:
the body slot is taken from the first child with a non-zero count, the children
are deleted. -/
def Merge (d : NodeData) (nw ne sw se : QuadTree) : QuadTree :=
  leaf { d with
    particle_ :=
      if nw.data.count_ ≠ 0 then nw.data.particle_
      else if ne.data.count_ ≠ 0 then ne.data.particle_
      else if sw.data.count_ ≠ 0 then sw.data.particle_
      else if se.data.count_ ≠ 0 then se.data.particle_
      else d.particle_ }

/-- Source: the loop of `UpdatePositions` over the escaped particles: one that the
node's region contains is inserted into the four children and erased from the
list, the others stay in the list. -/
def reinsert (s : Store) (fuel : Nat) (bounds : AABB) :
    List Nat → QuadTree × QuadTree × QuadTree × QuadTree →
      Option ((QuadTree × QuadTree × QuadTree × QuadTree) × List Nat)
  | [], c => some (c, [])
  | p :: ps, (nw, ne, sw, se) =>
    if !bounds.Contains (s p).pos then do
      let (c, rest) ← reinsert s fuel bounds ps (nw, ne, sw, se)
      some (c, p :: rest)
    else do
      let nw1 ← nw.insert s p fuel
      let ne1 ← ne.insert s p fuel
      let sw1 ← sw.insert s p fuel
      let se1 ← se.insert s p fuel
      reinsert s fuel bounds ps (nw1, ne1, sw1, se1)

/-- Source: `std::numeric_limits<double>::epsilon()`, which is `2^-52`. -/
def epsilon : ℚ := 1 / 2 ^ 52

/-- Source: `count_ -= particles.size()` on the unsigned 64-bit `size_t`: the
difference wraps around when the vector is longer than the count. -/
def subSize (count size : Nat) : Nat :=
  if size ≤ count then count - size else count + 2 ^ 64 - size

/-- Source: the end of `UpdatePositions` on an inner node, after the loop: the
aggregate is recomputed from the four children, `count_` is decreased by the
number of particles that left the node, the centre of mass of a node of mass
below `epsilon` is the centre of its region, and the node merges when
`count_ <= 1`.  The arithmetic is exact; `F64.QuadTree.recompute` is the same
function in `double` arithmetic. -/
def recompute (d : NodeData) (nw ne sw se : QuadTree) (particles : List Nat) : QuadTree :=
  let com1 := Vector.add ⟨0, 0⟩ (Vector.muls nw.data.centre_of_mass_ nw.data.mass_)
  let mass1 := 0 + nw.data.mass_
  let com2 := Vector.add com1 (Vector.muls ne.data.centre_of_mass_ ne.data.mass_)
  let mass2 := mass1 + ne.data.mass_
  let com3 := Vector.add com2 (Vector.muls sw.data.centre_of_mass_ sw.data.mass_)
  let mass3 := mass2 + sw.data.mass_
  let com4 := Vector.add com3 (Vector.muls se.data.centre_of_mass_ se.data.mass_)
  let mass4 := mass3 + se.data.mass_
  let com5 := Vector.div com4 mass4
  let count := subSize d.count_ particles.length
  let com6 : Vector :=
    if |mass4| < epsilon then
      ⟨d.bounds_.l + d.bounds_.width / 2, d.bounds_.b + d.bounds_.height / 2⟩
    else com5
  let d1 := { d with mass_ := mass4, centre_of_mass_ := com6, count_ := count }
  if count ≤ 1 then Merge d1 nw ne sw se else inner d1 nw ne sw se

/-- Source: `QuadTree::UpdatePositions`.  The result is the node, the store and the
returned vector of escaped particles; `fuel` is for the calls of `insert`. -/
def UpdatePositions (fuel : Nat) (delta_time : ℚ) :
    QuadTree → Store → Option (QuadTree × Store × List Nat)
  | t, s =>
    if t.data.count_ = 0 then some (t, s, [])
    else
      match t.data.particle_ with
      | some held =>
        let s1 := Function.update s held { s held with
          pos := Vector.add (s held).pos (Vector.muls (s held).vel delta_time) }
        let d1 := { t.data with centre_of_mass_ := (s1 held).pos }
        if !d1.bounds_.Contains (s1 held).pos then
          some (t.setData { d1 with
            mass_ := 0
            centre_of_mass_ := ⟨0, 0⟩
            particle_ := none
            count_ := d1.count_ - 1 }, s1, [held])
        else some (t.setData d1, s1, [])
      | none =>
        match t with
        | leaf _ => none
        | inner d nw ne sw se => do
          let (nw1, s1, e1) ← UpdatePositions fuel delta_time nw s
          let (ne1, s2, e2) ← UpdatePositions fuel delta_time ne s1
          let (sw1, s3, e3) ← UpdatePositions fuel delta_time sw s2
          let (se1, s4, e4) ← UpdatePositions fuel delta_time se s3
          let ((nw2, ne2, sw2, se2), particles) ←
            reinsert s4 fuel d.bounds_ (e1 ++ e2 ++ e3 ++ e4) (nw1, ne1, sw1, se1)
          some (recompute d nw2 ne2 sw2 se2 particles, s4, particles)

/-- Source: `QuadTree::ToVector`; a step into null children is `none`. -/
def ToVector (t : QuadTree) : Option (List Nat) :=
  if t.data.count_ = 0 then some []
  else
    match t.data.particle_ with
    | some held => some [held]
    | none =>
      match t with
      | leaf _ => none
      | inner _ nw ne sw se => do
        let v1 ← ToVector nw
        let v2 ← ToVector ne
        let v3 ← ToVector sw
        let v4 ← ToVector se
        some (v1 ++ v2 ++ v3 ++ v4)

/-! ## Specification vocabulary -/

/-- The particles held in the leaves of a subtree, in the order north-west,
north-east, south-west, south-east. -/
def bodies : QuadTree → List Nat
  | leaf d => d.particle_.toList
  | inner _ nw ne sw se => bodies nw ++ bodies ne ++ bodies sw ++ bodies se

/-- Every node of a tree: the node itself and the nodes of its children. -/
def nodes : QuadTree → List QuadTree
  | leaf d => [leaf d]
  | inner d nw ne sw se => inner d nw ne sw se :: (nodes nw ++ nodes ne ++ nodes sw ++ nodes se)

end QuadTree

/-- The sum of the masses of a list of particles. -/
def massSum (s : Store) (l : List Nat) : ℚ := (l.map fun i => (s i).mass).sum

/-- The sum of `mass * pos` over a list of particles. -/
def moment (s : Store) (l : List Nat) : Vector :=
  ⟨(l.map fun i => (s i).mass * (s i).pos.x).sum, (l.map fun i => (s i).mass * (s i).pos.y).sum⟩

namespace QuadTree

/-- Well-formed tree (data model of the specification): an empty leaf has count 0
and mass 0; an occupied leaf has count 1, the mass of its particle, and a region
that contains the particle; an inner node has no particle of its own, a count of
at least 2 that is the number of particles below it, their total mass, children
over the four parts of its region, and well-formed children. -/
def WellFormed (s : Store) : QuadTree → Prop
  | leaf d =>
    match d.particle_ with
    | none => d.count_ = 0 ∧ d.mass_ = 0
    | some p => d.count_ = 1 ∧ d.mass_ = (s p).mass ∧ d.bounds_.Contains (s p).pos = true
  | inner d nw ne sw se =>
    d.particle_ = none ∧ 2 ≤ d.count_ ∧
    d.count_ = (bodies nw ++ bodies ne ++ bodies sw ++ bodies se).length ∧
    d.mass_ = massSum s (bodies nw ++ bodies ne ++ bodies sw ++ bodies se) ∧
    nw.data.bounds_ = d.bounds_.Partition 0 ∧ ne.data.bounds_ = d.bounds_.Partition 1 ∧
    sw.data.bounds_ = d.bounds_.Partition 2 ∧ se.data.bounds_ = d.bounds_.Partition 3 ∧
    WellFormed s nw ∧ WellFormed s ne ∧ WellFormed s sw ∧ WellFormed s se

/-- Well-formedness can be computed. -/
def WellFormed.decide (s : Store) : (t : QuadTree) → Decidable (WellFormed s t)
  | leaf d => by
    unfold WellFormed
    cases d.particle_ <;> exact inferInstance
  | inner d nw ne sw se => by
    have := WellFormed.decide s nw
    have := WellFormed.decide s ne
    have := WellFormed.decide s sw
    have := WellFormed.decide s se
    unfold WellFormed
    exact inferInstance

instance (s : Store) (t : QuadTree) : Decidable (WellFormed s t) := WellFormed.decide s t

/-- The aggregate of every node is the mass-weighted position sum of the
particles below it: `mass_ * centre_of_mass_ = Σ mass * pos`. -/
def ComInv (s : Store) : QuadTree → Prop
  | leaf d => Vector.smul d.mass_ d.centre_of_mass_ = moment s d.particle_.toList
  | inner d nw ne sw se =>
    Vector.smul d.mass_ d.centre_of_mass_ =
      moment s (bodies nw ++ bodies ne ++ bodies sw ++ bodies se) ∧
    ComInv s nw ∧ ComInv s ne ∧ ComInv s sw ∧ ComInv s se

/-- Every occupied leaf has the position of its particle as `centre_of_mass_`. -/
def LeafCom (s : Store) : QuadTree → Prop
  | leaf d => ∀ p, d.particle_ = some p → d.centre_of_mass_ = (s p).pos
  | inner _ nw ne sw se => LeafCom s nw ∧ LeafCom s ne ∧ LeafCom s sw ∧ LeafCom s se

/-- The store after the particles of the list `l` have been moved by one step:
`pos += vel * delta_time`, velocity and mass as before. -/
def advance (delta_time : ℚ) (l : List Nat) (s : Store) : Store := fun i =>
  if i ∈ l then { s i with pos := Vector.add (s i).pos (Vector.muls (s i).vel delta_time) }
  else s i

/-- What a returning `insert` of `p` into a well-formed `t` establishes about its
result `t1`: nothing changes when the region does not contain the particle;
otherwise the result is well-formed over the same region, holds `p` and the old
particles, and keeps the aggregate invariant when all masses are positive. -/
def InsertPost (s : Store) (p : Nat) (t t1 : QuadTree) : Prop :=
  if t.data.bounds_.Contains (s p).pos = true then
    WellFormed s t1 ∧ t1.data.bounds_ = t.data.bounds_ ∧ (bodies t1).Perm (p :: bodies t) ∧
      ((∀ i, 0 < (s i).mass) → ComInv s t → ComInv s t1)
  else t1 = t

/-- The loop of `Init`: the particles of a list are inserted one after the other. -/
def insertAll (s : Store) (fuel : Nat) : List Nat → QuadTree → Option QuadTree
  | [], t => some t
  | p :: ps, t => (t.insert s p fuel).bind (insertAll s fuel ps)

/-- The trees and stores reachable from an empty `QuadTree` over `bounds` by calls
of `insert`, `UpdateVelocities` (on the root) and `UpdatePositions` that return. -/
inductive Reachable (sqrt : ℚ → ℚ) (bounds : AABB) : QuadTree → Store → Prop
  | empty (s : Store) : Reachable sqrt bounds (mk bounds) s
  | insert {t t1 : QuadTree} {s : Store} (particle fuel : Nat) :
      Reachable sqrt bounds t s → t.insert s particle fuel = some t1 →
      Reachable sqrt bounds t1 s
  | velocities {t : QuadTree} {s s1 : Store} (delta_time theta : ℚ) :
      Reachable sqrt bounds t s → UpdateVelocities sqrt t delta_time theta t s = some s1 →
      Reachable sqrt bounds t s1
  | positions {t t1 : QuadTree} {s s1 : Store} {escaped : List Nat} (fuel : Nat)
      (delta_time : ℚ) :
      Reachable sqrt bounds t s → t.UpdatePositions fuel delta_time s = some (t1, s1, escaped) →
      Reachable sqrt bounds t1 s1

end QuadTree

/-- Specification (theta = 0 equivalence): the exact pairwise term of particle `j`
on particle `i`, `dt * m_j * normalise(p_j - p_i) / max(|p_j - p_i|^2, 1e-6)`. -/
def pairwise (sqrt : ℚ → ℚ) (s : Store) (dt : ℚ) (i j : Nat) : Vector :=
  Vector.div
    (Vector.smul (dt * (s j).mass) (Vector.Normalise sqrt (Vector.sub (s j).pos (s i).pos)))
    (max (Vector.sub (s j).pos (s i).pos).MagnitudeSquared (1 / 1000000))

/-- Specification (theta = 0 equivalence): the brute-force sum of the pairwise
terms over every particle of the list other than `i`. -/
def bruteForce (sqrt : ℚ → ℚ) (s : Store) (dt : ℚ) (i : Nat) : List Nat → Vector
  | [] => ⟨0, 0⟩
  | j :: l =>
    if j = i then bruteForce sqrt s dt i l
    else Vector.add (pairwise sqrt s dt i j) (bruteForce sqrt s dt i l)

namespace QuadTree

end QuadTree

/-! ## A concrete scenario: the two heavy bodies of `Init` -/

/-- A rational stand-in for the library `sqrt`, exact on squares of rationals. -/
def ratSqrt (q : ℚ) : ℚ := (Nat.sqrt (q.num.toNat * q.den) : ℚ) / q.den

/-- The root region of `Init`: `{-1.0, 1.0, 1.0, -1.0}`. -/
def worldBounds : AABB := ⟨-1, 1, 1, -1⟩

/-- The last two particles of `Init`: mass 5000 at `(-0.1, 0)` and `(0.1, 0)` with
velocities `(0, 80)` and `(0, -80)`. -/
def twoBodyStore : Store := fun i =>
  if i = 0 then ⟨⟨-1 / 10, 0⟩, ⟨0, 80⟩, 5000⟩ else ⟨⟨1 / 10, 0⟩, ⟨0, -80⟩, 5000⟩

/-- The tree after the first particle has been inserted into the empty root. -/
def oneBodyTree : QuadTree := QuadTree.leaf ⟨some 0, 1, 5000, ⟨-1 / 10, 0⟩, worldBounds⟩

/-- The tree after both particles have been inserted. -/
def twoBodyTree : QuadTree :=
  QuadTree.inner ⟨none, 2, 10000, ⟨0, 0⟩, worldBounds⟩
    (QuadTree.leaf ⟨some 0, 1, 5000, ⟨-1 / 10, 0⟩, ⟨-1, 1, 0, 0⟩⟩)
    (QuadTree.leaf ⟨some 1, 1, 5000, ⟨1 / 10, 0⟩, ⟨0, 1, 1, 0⟩⟩)
    (QuadTree.mk ⟨-1, 0, 0, -1⟩) (QuadTree.mk ⟨0, 0, 1, -1⟩)

/-- The store after `UpdateVelocities(root, 1/1000, 1)` on the two-body tree. -/
def twoBodyVel : Store :=
  (QuadTree.UpdateVelocities ratSqrt twoBodyTree (1 / 1000) 1 twoBodyTree twoBodyStore).getD
    twoBodyStore

/-- The result of `UpdatePositions(1/1000)` after that: both particles change
quadrant and are inserted again. -/
def twoBodyTick : QuadTree × Store × List Nat :=
  (twoBodyTree.UpdatePositions 1 (1 / 1000) twoBodyVel).getD (twoBodyTree, twoBodyVel, [])

/-- A store whose particles sit exactly on the right edge of the root region. -/
def edgeStore : Store := fun _ => ⟨⟨1, 0⟩, ⟨0, 0⟩, 1⟩

/-- Two particles of mass `2^-60`, at rest at `(0.5, 0.5)` and `(0.5, -0.5)`. -/
def tinyStore : Store := fun i =>
  if i = 0 then ⟨⟨1 / 2, 1 / 2⟩, ⟨0, 0⟩, 1 / 2 ^ 60⟩ else ⟨⟨1 / 2, -1 / 2⟩, ⟨0, 0⟩, 1 / 2 ^ 60⟩

/-- The tree after the first tiny particle has been inserted into the empty root. -/
def tinyTree1 : QuadTree := QuadTree.leaf ⟨some 0, 1, 1 / 2 ^ 60, ⟨1 / 2, 1 / 2⟩, worldBounds⟩

/-- The tree after both tiny particles have been inserted. -/
def tinyTree : QuadTree :=
  QuadTree.inner ⟨none, 2, 1 / 2 ^ 59, ⟨1 / 2, 0⟩, worldBounds⟩
    (QuadTree.mk ⟨-1, 1, 0, 0⟩)
    (QuadTree.leaf ⟨some 0, 1, 1 / 2 ^ 60, ⟨1 / 2, 1 / 2⟩, ⟨0, 1, 1, 0⟩⟩)
    (QuadTree.mk ⟨-1, 0, 0, -1⟩)
    (QuadTree.leaf ⟨some 1, 1, 1 / 2 ^ 60, ⟨1 / 2, -1 / 2⟩, ⟨0, 0, 1, -1⟩⟩)

/-- The store after `UpdateVelocities(root, 1/1000, 1)` on the tiny tree. -/
def tinyVel : Store :=
  (QuadTree.UpdateVelocities ratSqrt tinyTree (1 / 1000) 1 tinyTree tinyStore).getD tinyStore

/-- The result of `UpdatePositions(1/1000)` after that. -/
def tinyTick : QuadTree × Store × List Nat :=
  (tinyTree.UpdatePositions 1 (1 / 1000) tinyVel).getD (tinyTree, tinyVel, [])

namespace QuadTree

end QuadTree

namespace QuadTree

end QuadTree

/-! ## The same operations in binary64 arithmetic

The definitions above read every `double` operation as exact.  The definitions of
this section follow the source operation by operation in IEEE-754 binary64: a
finite `double` is the rational it denotes and every `+`, `-`, `*`, `/` of the
source is the exact operation followed by `F64.round`.  Overflow and division by
zero (infinities and NaN in the source) are not modelled.  Comparisons are exact,
so `AABB.Contains`, and the functions without arithmetic (`QuadTree.mk`,
`QuadTree.Merge`, `QuadTree.ToVector`), are shared with the exact embedding. -/

namespace F64

/-- The position of the leading bit of `n` (`0` for `n < 2`); `fuel = n` is enough. -/
def log2 : Nat → Nat → Nat
  | 0, _ => 0
  | fuel + 1, n => if 2 ≤ n then log2 fuel (n / 2) + 1 else 0

/-- The binary64 value nearest to the positive rational `n / d`, ties to even: with
`2^k ≤ n / d < 2^(k+1)`, the last kept bit has exponent `e = max (k - 52) (-1074)`
(53 significant bits, or the fixed exponent of the subnormal numbers), and
`n / d / 2^e` is rounded to the nearest integer, to the even one at a tie. -/
def roundPos (n d : Nat) : ℚ :=
  let k0 : Int := (log2 n n : Int) - (log2 d d : Int)
  let k : Int :=
    if (if 0 ≤ k0 then n < d * 2 ^ k0.toNat else n * 2 ^ (-k0).toNat < d) then k0 - 1 else k0
  let e : Int := max (k - 52) (-1074)
  let num : Nat := if 0 ≤ e then n else n * 2 ^ (-e).toNat
  let den : Nat := if 0 ≤ e then d * 2 ^ e.toNat else d
  let m : Nat := num / den
  let r : Nat := num % den
  let m1 : Nat :=
    if 2 * r < den then m else if den < 2 * r then m + 1 else if m % 2 = 0 then m else m + 1
  if 0 ≤ e then ((m1 * 2 ^ e.toNat : Nat) : ℚ) else (m1 : ℚ) / ((2 ^ (-e).toNat : Nat) : ℚ)

/-- The rounding of a real result to `double` (round to nearest, ties to even), for
results of magnitude below `2^1024`; also the value of a decimal literal. -/
def round (q : ℚ) : ℚ :=
  if q = 0 then 0
  else if q < 0 then -roundPos q.num.natAbs q.den
  else roundPos q.num.natAbs q.den

/-- The `double` operation `a + b`. -/
def add (a b : ℚ) : ℚ := round (a + b)

/-- The `double` operation `a - b`. -/
def sub (a b : ℚ) : ℚ := round (a - b)

/-- The `double` operation `a * b`. -/
def mul (a b : ℚ) : ℚ := round (a * b)

/-- The `double` operation `a / b`, for `b` other than zero. -/
def div (a b : ℚ) : ℚ := round (a / b)

/-- Source: `operator+(Vector, Vector)`. -/
def Vector.add (p1 p2 : Vector) : Vector := ⟨F64.add p1.x p2.x, F64.add p1.y p2.y⟩

/-- Source: `operator-(Vector, Vector)`. -/
def Vector.sub (p1 p2 : Vector) : Vector := ⟨F64.sub p1.x p2.x, F64.sub p1.y p2.y⟩

/-- Source: `operator*(double, Vector)`. -/
def Vector.smul (s : ℚ) (p : Vector) : Vector := ⟨F64.mul s p.x, F64.mul s p.y⟩

/-- Source: `operator*(Vector, double)`, which is `s * p`. -/
def Vector.muls (p : Vector) (s : ℚ) : Vector := Vector.smul s p

/-- Source: `operator/(Vector, double)`, which is `1.0 / s * p`. -/
def Vector.div (p : Vector) (s : ℚ) : Vector := Vector.smul (F64.div 1 s) p

/-- Source: `MagnitudeSquared`, `x * x + y * y`. -/
def Vector.MagnitudeSquared (p : Vector) : ℚ := F64.add (F64.mul p.x p.x) (F64.mul p.y p.y)

/-- Source: `Magnitude`; the library `sqrt` is a parameter. -/
def Vector.Magnitude (sqrt : ℚ → ℚ) (p : Vector) : ℚ := sqrt (Vector.MagnitudeSquared p)

/-- Source: `Normalise`, `*this / Magnitude()`. -/
def Vector.Normalise (sqrt : ℚ → ℚ) (p : Vector) : Vector :=
  Vector.div p (Vector.Magnitude sqrt p)

/-- Source: `AABB::width`, `r - l`. -/
def AABB.width (R : AABB) : ℚ := F64.sub R.r R.l

/-- Source: `AABB::height`, `t - b`. -/
def AABB.height (R : AABB) : ℚ := F64.sub R.t R.b

/-- Source: `AABB::Partition`, with `l + width() / 2`, `l + width()`,
`t - height() / 2` and `t - height()` each computed in `double`. -/
def AABB.Partition (R : AABB) : Fin 4 → AABB :=
  ![⟨R.l, R.t, F64.add R.l (F64.div (AABB.width R) 2),
      F64.sub R.t (F64.div (AABB.height R) 2)⟩,
    ⟨F64.add R.l (F64.div (AABB.width R) 2), R.t, F64.add R.l (AABB.width R),
      F64.sub R.t (F64.div (AABB.height R) 2)⟩,
    ⟨R.l, F64.sub R.t (F64.div (AABB.height R) 2),
      F64.add R.l (F64.div (AABB.width R) 2), F64.sub R.t (AABB.height R)⟩,
    ⟨F64.add R.l (F64.div (AABB.width R) 2), F64.sub R.t (F64.div (AABB.height R) 2),
      F64.add R.l (AABB.width R), F64.sub R.t (AABB.height R)⟩]

/-- Source: `QuadTree::insert` with `Split` inlined, in `double` arithmetic; same
shape as `BarnesHut.QuadTree.insert`. -/
def QuadTree.insert (s : Store) (particle : Nat) : Nat → QuadTree → Option QuadTree
  | fuel, t =>
    if !t.data.bounds_.Contains (s particle).pos then some t
    else if t.data.count_ = 0 then
      some (t.setData { t.data with
        mass_ := (s particle).mass
        centre_of_mass_ := (s particle).pos
        particle_ := some particle
        count_ := t.data.count_ + 1 })
    else
      match fuel with
      | 0 => none
      | fuel + 1 => do
        let (d, nw, ne, sw, se) ←
          (match t with
          | BarnesHut.QuadTree.inner d nw ne sw se => some (d, nw, ne, sw, se)
          | BarnesHut.QuadTree.leaf d =>
            match d.particle_ with
            | none => none
            | some held => do
              let sub_quads := AABB.Partition d.bounds_
              let nw ← QuadTree.insert s held fuel (BarnesHut.QuadTree.mk (sub_quads 0))
              let ne ← QuadTree.insert s held fuel (BarnesHut.QuadTree.mk (sub_quads 1))
              let sw ← QuadTree.insert s held fuel (BarnesHut.QuadTree.mk (sub_quads 2))
              let se ← QuadTree.insert s held fuel (BarnesHut.QuadTree.mk (sub_quads 3))
              some ({ d with particle_ := none }, nw, ne, sw, se))
        let nw1 ← QuadTree.insert s particle fuel nw
        let ne1 ← QuadTree.insert s particle fuel ne
        let sw1 ← QuadTree.insert s particle fuel sw
        let se1 ← QuadTree.insert s particle fuel se
        some (BarnesHut.QuadTree.inner { d with
          centre_of_mass_ :=
            Vector.div (Vector.add (Vector.muls d.centre_of_mass_ d.mass_)
              (Vector.muls (s particle).pos (s particle).mass))
              (F64.add d.mass_ (s particle).mass)
          mass_ := F64.add d.mass_ (s particle).mass
          count_ := d.count_ + 1 } nw1 ne1 sw1 se1)

/-- The loop of `Init`: the particles of a list are inserted one after the other. -/
def QuadTree.insertAll (s : Store) (fuel : Nat) : List Nat → QuadTree → Option QuadTree
  | [], t => some t
  | p :: ps, t => (QuadTree.insert s p fuel t).bind (QuadTree.insertAll s fuel ps)

/-- Source: `if (dist_sq < 0.000001) dist_sq = 0.000001;`, the literal being the
`double` nearest to `10^-6`. -/
def QuadTree.clamp (dist_sq : ℚ) : ℚ :=
  if dist_sq < F64.round (1 / 1000000) then F64.round (1 / 1000000) else dist_sq

/-- Source: `particle->vel += v`, in `double` arithmetic. -/
def QuadTree.addVel (s : Store) (particle : Nat) (v : Vector) : Store :=
  Function.update s particle { s particle with vel := Vector.add (s particle).vel v }

/-- Source: `QuadTree::UpdateVelocity` in `double` arithmetic; same shape as
`BarnesHut.QuadTree.UpdateVelocity`. -/
def QuadTree.UpdateVelocity (sqrt : ℚ → ℚ) (particle : Nat) (delta_time theta : ℚ) :
    QuadTree → Store → Option Store
  | t, s =>
    if some particle = t.data.particle_ ∨ t.data.count_ = 0 then some s
    else
      let dist_sq := QuadTree.clamp
        (Vector.MagnitudeSquared (Vector.sub (s particle).pos t.data.centre_of_mass_))
      match t.data.particle_ with
      | some held =>
        some (QuadTree.addVel s particle
          (Vector.div
            (Vector.smul (F64.mul delta_time (s held).mass)
              (Vector.Normalise sqrt (Vector.sub (s held).pos (s particle).pos)))
            dist_sq))
      | none =>
        if F64.div (F64.mul (AABB.width t.data.bounds_) (AABB.width t.data.bounds_)) dist_sq <
            F64.mul theta theta then
          some (QuadTree.addVel s particle
            (Vector.div
              (Vector.smul (F64.mul delta_time t.data.mass_)
                (Vector.Normalise sqrt (Vector.sub t.data.centre_of_mass_ (s particle).pos)))
              dist_sq))
        else
          match t with
          | BarnesHut.QuadTree.leaf _ => none
          | BarnesHut.QuadTree.inner _ nw ne sw se => do
            let s1 ← QuadTree.UpdateVelocity sqrt particle delta_time theta nw s
            let s2 ← QuadTree.UpdateVelocity sqrt particle delta_time theta ne s1
            let s3 ← QuadTree.UpdateVelocity sqrt particle delta_time theta sw s2
            QuadTree.UpdateVelocity sqrt particle delta_time theta se s3

/-- Source: the loop of `UpdatePositions` over the escaped particles, with the
`double` version of `insert`. -/
def QuadTree.reinsert (s : Store) (fuel : Nat) (bounds : AABB) :
    List Nat → QuadTree × QuadTree × QuadTree × QuadTree →
      Option ((QuadTree × QuadTree × QuadTree × QuadTree) × List Nat)
  | [], c => some (c, [])
  | p :: ps, (nw, ne, sw, se) =>
    if !bounds.Contains (s p).pos then do
      let (c, rest) ← QuadTree.reinsert s fuel bounds ps (nw, ne, sw, se)
      some (c, p :: rest)
    else do
      let nw1 ← QuadTree.insert s p fuel nw
      let ne1 ← QuadTree.insert s p fuel ne
      let sw1 ← QuadTree.insert s p fuel sw
      let se1 ← QuadTree.insert s p fuel se
      QuadTree.reinsert s fuel bounds ps (nw1, ne1, sw1, se1)

/-- Source: the end of `UpdatePositions` on an inner node in `double` arithmetic.
The quotient by a zero `mass_` (NaN in the source) is replaced two statements later
by the centre of the region, because then `abs(mass_) < epsilon`. -/
def QuadTree.recompute (d : NodeData) (nw ne sw se : QuadTree) (particles : List Nat) :
    QuadTree :=
  let com1 := Vector.add ⟨0, 0⟩ (Vector.muls nw.data.centre_of_mass_ nw.data.mass_)
  let mass1 := F64.add 0 nw.data.mass_
  let com2 := Vector.add com1 (Vector.muls ne.data.centre_of_mass_ ne.data.mass_)
  let mass2 := F64.add mass1 ne.data.mass_
  let com3 := Vector.add com2 (Vector.muls sw.data.centre_of_mass_ sw.data.mass_)
  let mass3 := F64.add mass2 sw.data.mass_
  let com4 := Vector.add com3 (Vector.muls se.data.centre_of_mass_ se.data.mass_)
  let mass4 := F64.add mass3 se.data.mass_
  let com5 := Vector.div com4 mass4
  let count := BarnesHut.QuadTree.subSize d.count_ particles.length
  let com6 : Vector :=
    if |mass4| < BarnesHut.QuadTree.epsilon then
      ⟨F64.add d.bounds_.l (F64.div (AABB.width d.bounds_) 2),
        F64.add d.bounds_.b (F64.div (AABB.height d.bounds_) 2)⟩
    else com5
  let d1 := { d with mass_ := mass4, centre_of_mass_ := com6, count_ := count }
  if count ≤ 1 then BarnesHut.QuadTree.Merge d1 nw ne sw se
  else BarnesHut.QuadTree.inner d1 nw ne sw se

/-- Source: `QuadTree::UpdatePositions` in `double` arithmetic; same shape as
`BarnesHut.QuadTree.UpdatePositions`. -/
def QuadTree.UpdatePositions (fuel : Nat) (delta_time : ℚ) :
    QuadTree → Store → Option (QuadTree × Store × List Nat)
  | t, s =>
    if t.data.count_ = 0 then some (t, s, [])
    else
      match t.data.particle_ with
      | some held =>
        let s1 := Function.update s held { s held with
          pos := Vector.add (s held).pos (Vector.muls (s held).vel delta_time) }
        let d1 := { t.data with centre_of_mass_ := (s1 held).pos }
        if !d1.bounds_.Contains (s1 held).pos then
          some (t.setData { d1 with
            mass_ := 0
            centre_of_mass_ := ⟨0, 0⟩
            particle_ := none
            count_ := d1.count_ - 1 }, s1, [held])
        else some (t.setData d1, s1, [])
      | none =>
        match t with
        | BarnesHut.QuadTree.leaf _ => none
        | BarnesHut.QuadTree.inner d nw ne sw se => do
          let (nw1, s1, e1) ← QuadTree.UpdatePositions fuel delta_time nw s
          let (ne1, s2, e2) ← QuadTree.UpdatePositions fuel delta_time ne s1
          let (sw1, s3, e3) ← QuadTree.UpdatePositions fuel delta_time sw s2
          let (se1, s4, e4) ← QuadTree.UpdatePositions fuel delta_time se s3
          let ((nw2, ne2, sw2, se2), particles) ←
            QuadTree.reinsert s4 fuel d.bounds_ (e1 ++ e2 ++ e3 ++ e4) (nw1, ne1, sw1, se1)
          some (QuadTree.recompute d nw2 ne2 sw2 se2 particles, s4, particles)

/-- Well-formed tree in `double` arithmetic: `BarnesHut.QuadTree.WellFormed` with the
children over the four parts that the `double` version of `Partition` computes. -/
def QuadTree.WellFormed (s : Store) : QuadTree → Prop
  | BarnesHut.QuadTree.leaf d =>
    match d.particle_ with
    | none => d.count_ = 0 ∧ d.mass_ = 0
    | some p => d.count_ = 1 ∧ d.mass_ = (s p).mass ∧ d.bounds_.Contains (s p).pos = true
  | BarnesHut.QuadTree.inner d nw ne sw se =>
    d.particle_ = none ∧ 2 ≤ d.count_ ∧
    d.count_ = (nw.bodies ++ ne.bodies ++ sw.bodies ++ se.bodies).length ∧
    d.mass_ = massSum s (nw.bodies ++ ne.bodies ++ sw.bodies ++ se.bodies) ∧
    nw.data.bounds_ = AABB.Partition d.bounds_ 0 ∧
    ne.data.bounds_ = AABB.Partition d.bounds_ 1 ∧
    sw.data.bounds_ = AABB.Partition d.bounds_ 2 ∧
    se.data.bounds_ = AABB.Partition d.bounds_ 3 ∧
    QuadTree.WellFormed s nw ∧ QuadTree.WellFormed s ne ∧
    QuadTree.WellFormed s sw ∧ QuadTree.WellFormed s se

/-- Well-formedness in `double` arithmetic can be computed. -/
def QuadTree.WellFormed.decide (s : Store) :
    (t : QuadTree) → Decidable (QuadTree.WellFormed s t)
  | BarnesHut.QuadTree.leaf d => by
    unfold QuadTree.WellFormed
    cases d.particle_ <;> exact inferInstance
  | BarnesHut.QuadTree.inner d nw ne sw se => by
    have := QuadTree.WellFormed.decide s nw
    have := QuadTree.WellFormed.decide s ne
    have := QuadTree.WellFormed.decide s sw
    have := QuadTree.WellFormed.decide s se
    unfold QuadTree.WellFormed
    exact inferInstance

instance (s : Store) (t : QuadTree) : Decidable (QuadTree.WellFormed s t) :=
  QuadTree.WellFormed.decide s t

end F64

/-! ## Scenarios in binary64 arithmetic -/

/-- A square root region from `-1` to the `double` nearest to `0.7`. -/
def selfBounds : AABB := ⟨-1, F64.round (7 / 10), F64.round (7 / 10), -1⟩

/-- Three particles at rest inside `selfBounds`: mass 1 at the corner `(-1, -1)`,
mass `10^18` at the last `double` position before the opposite corner, and mass 1
at `(0.5, 0.5)`. -/
def selfStore : Store := fun i =>
  if i = 0 then ⟨⟨-1, -1⟩, ⟨0, 0⟩, 1⟩
  else if i = 1 then
    ⟨⟨F64.round (7 / 10) - 1 / 2 ^ 53, F64.round (7 / 10) - 1 / 2 ^ 53⟩, ⟨0, 0⟩, 10 ^ 18⟩
  else ⟨⟨1 / 2, 1 / 2⟩, ⟨0, 0⟩, 1⟩

/-- The `double` nearest to `0.7071067811865475`, whose square is below `1/2`. -/
def selfTheta : ℚ := F64.round (7071067811865475 / 10 ^ 16)

/-- The tree after the particles of `selfStore` have been inserted in the order
1, 2, 0, in `double` arithmetic, into the empty tree over `selfBounds`. -/
def selfTree : QuadTree :=
  (F64.QuadTree.insertAll selfStore 4 [1, 2, 0] (QuadTree.mk selfBounds)).getD
    (QuadTree.mk selfBounds)

/-- Three particles of mass `2^-60`: particle 0 at rest at `(0.25, 0.25)`, particle 1
at `(0.75, 0.75)` with velocity `(-1280, -512)`, particle 2 at rest at
`(-0.5, -0.75)`. -/
def lightStore : Store := fun i =>
  if i = 0 then ⟨⟨1 / 4, 1 / 4⟩, ⟨0, 0⟩, 1 / 2 ^ 60⟩
  else if i = 1 then ⟨⟨3 / 4, 3 / 4⟩, ⟨-1280, -512⟩, 1 / 2 ^ 60⟩
  else ⟨⟨-1 / 2, -3 / 4⟩, ⟨0, 0⟩, 1 / 2 ^ 60⟩

/-- The tree after the three particles of `lightStore` have been inserted into the
empty tree over `worldBounds`. -/
def lightTree : QuadTree :=
  (QuadTree.insertAll lightStore 2 [0, 1, 2] (QuadTree.mk worldBounds)).getD
    (QuadTree.mk worldBounds)

/-- The result of `UpdatePositions(2^-10)` on `lightTree`: particle 1 moves to
`(-0.5, 0.25)` in the north-west quadrant and the north-east quadrant merges around particle 0. -/
def lightTick : QuadTree × Store × List Nat :=
  (lightTree.UpdatePositions 2 (1 / 1024) lightStore).getD (lightTree, lightStore, [])

/-- The store after `UpdateVelocities(root, 1, 0)` on the tree of `lightTick`. -/
def lightVel : Store :=
  (QuadTree.UpdateVelocities ratSqrt lightTick.1 1 0 lightTick.1 lightTick.2.1).getD
    lightTick.2.1

/-! ## Telling a depth bound from a null pointer -/

/-- How a call of a recursive function of the source ends in the embedding: with a
result, at the dereference of a null pointer, or not within the depth bound. -/
inductive Outcome (α : Type) where
  | done (a : α)
  | null
  | depth
deriving DecidableEq

/-- Sequencing: the first call that does not end with a result ends the whole. -/
def Outcome.bind {α β : Type} : Outcome α → (α → Outcome β) → Outcome β
  | Outcome.done a, f => f a
  | Outcome.null, _ => Outcome.null
  | Outcome.depth, _ => Outcome.depth

/-- The result, if there is one. -/
def Outcome.toOption {α : Type} : Outcome α → Option α
  | Outcome.done a => some a
  | Outcome.null => none
  | Outcome.depth => none

namespace QuadTree

/-- Source: `QuadTree::insert`, statement by statement as `insert`, with the two
results that `insert` merges into `none` kept apart: `Outcome.depth` when the
recursion is deeper than `fuel`, `Outcome.null` when `Split` passes a null
`particle_` to the constructor that dereferences it. -/
def insertO (s : Store) (particle : Nat) : Nat → QuadTree → Outcome QuadTree
  | fuel, t =>
    if !t.data.bounds_.Contains (s particle).pos then Outcome.done t
    else if t.data.count_ = 0 then
      Outcome.done (t.setData { t.data with
        mass_ := (s particle).mass
        centre_of_mass_ := (s particle).pos
        particle_ := some particle
        count_ := t.data.count_ + 1 })
    else
      match fuel with
      | 0 => Outcome.depth
      | fuel + 1 =>
        Outcome.bind
          (match t with
          | inner d nw ne sw se => Outcome.done (d, nw, ne, sw, se)
          | leaf d =>
            match d.particle_ with
            | none => Outcome.null
            | some held =>
              Outcome.bind (insertO s held fuel (mk (d.bounds_.Partition 0))) fun nw =>
              Outcome.bind (insertO s held fuel (mk (d.bounds_.Partition 1))) fun ne =>
              Outcome.bind (insertO s held fuel (mk (d.bounds_.Partition 2))) fun sw =>
              Outcome.bind (insertO s held fuel (mk (d.bounds_.Partition 3))) fun se =>
                Outcome.done ({ d with particle_ := none }, nw, ne, sw, se))
          fun c =>
            Outcome.bind (insertO s particle fuel c.2.1) fun nw1 =>
            Outcome.bind (insertO s particle fuel c.2.2.1) fun ne1 =>
            Outcome.bind (insertO s particle fuel c.2.2.2.1) fun sw1 =>
            Outcome.bind (insertO s particle fuel c.2.2.2.2) fun se1 =>
              Outcome.done (inner { c.1 with
                centre_of_mass_ :=
                  Vector.div (Vector.add (Vector.muls c.1.centre_of_mass_ c.1.mass_)
                    (Vector.muls (s particle).pos (s particle).mass))
                    (c.1.mass_ + (s particle).mass)
                mass_ := c.1.mass_ + (s particle).mass
                count_ := c.1.count_ + 1 } nw1 ne1 sw1 se1)

end QuadTree

theorem AABB.Contains_iff (R : AABB) (p : Vector) :
    R.Contains p = true ↔ R.l ≤ p.x ∧ p.x < R.r ∧ R.b ≤ p.y ∧ p.y < R.t := by
  simp [AABB.Contains, and_assoc]

theorem AABB.contains_nw (R : AABB) (p : Vector) :
    (R.Partition 0).Contains p = true ↔
      R.l ≤ p.x ∧ p.x < R.l + (R.r - R.l) / 2 ∧ R.t - (R.t - R.b) / 2 ≤ p.y ∧ p.y < R.t := by
  rw [AABB.Contains_iff]; rfl

theorem AABB.contains_ne (R : AABB) (p : Vector) :
    (R.Partition 1).Contains p = true ↔
      R.l + (R.r - R.l) / 2 ≤ p.x ∧ p.x < R.l + (R.r - R.l) ∧
        R.t - (R.t - R.b) / 2 ≤ p.y ∧ p.y < R.t := by
  rw [AABB.Contains_iff]; rfl

theorem AABB.contains_sw (R : AABB) (p : Vector) :
    (R.Partition 2).Contains p = true ↔
      R.l ≤ p.x ∧ p.x < R.l + (R.r - R.l) / 2 ∧
        R.t - (R.t - R.b) ≤ p.y ∧ p.y < R.t - (R.t - R.b) / 2 := by
  rw [AABB.Contains_iff]; rfl

theorem AABB.contains_se (R : AABB) (p : Vector) :
    (R.Partition 3).Contains p = true ↔
      R.l + (R.r - R.l) / 2 ≤ p.x ∧ p.x < R.l + (R.r - R.l) ∧
        R.t - (R.t - R.b) ≤ p.y ∧ p.y < R.t - (R.t - R.b) / 2 := by
  rw [AABB.Contains_iff]; rfl

theorem AABB.partition_existsUnique (R : AABB) (p : Vector) (h : R.Contains p = true) :
    ∃! k : Fin 4, (R.Partition k).Contains p = true := by
  rw [AABB.Contains_iff] at h
  obtain ⟨h1, h2, h3, h4⟩ := h
  by_cases hx : p.x < R.l + (R.r - R.l) / 2 <;> by_cases hy : R.t - (R.t - R.b) / 2 ≤ p.y
  · refine ⟨0, (R.contains_nw p).2 ⟨h1, hx, hy, h4⟩, ?_⟩
    intro k hk
    fin_cases k
    · rfl
    · exact absurd ((R.contains_ne p).1 hk).1 (not_le.2 hx)
    · exact absurd ((R.contains_sw p).1 hk).2.2.2 (not_lt.2 hy)
    · exact absurd ((R.contains_se p).1 hk).1 (not_le.2 hx)
  · refine ⟨2, (R.contains_sw p).2 ⟨h1, hx, by linarith, not_le.1 hy⟩, ?_⟩
    intro k hk
    fin_cases k
    · exact absurd ((R.contains_nw p).1 hk).2.2.1 hy
    · exact absurd ((R.contains_ne p).1 hk).1 (not_le.2 hx)
    · rfl
    · exact absurd ((R.contains_se p).1 hk).1 (not_le.2 hx)
  · refine ⟨1, (R.contains_ne p).2 ⟨not_lt.1 hx, by linarith, hy, h4⟩, ?_⟩
    intro k hk
    fin_cases k
    · exact absurd ((R.contains_nw p).1 hk).2.1 hx
    · rfl
    · exact absurd ((R.contains_sw p).1 hk).2.1 hx
    · exact absurd ((R.contains_se p).1 hk).2.2.2 (not_lt.2 hy)
  · refine ⟨3, (R.contains_se p).2 ⟨not_lt.1 hx, by linarith, by linarith, not_le.1 hy⟩, ?_⟩
    intro k hk
    fin_cases k
    · exact absurd ((R.contains_nw p).1 hk).2.1 hx
    · exact absurd ((R.contains_ne p).1 hk).2.2.1 hy
    · exact absurd ((R.contains_sw p).1 hk).2.1 hx
    · rfl

theorem AABB.partition_sub (R : AABB) (p : Vector) (k : Fin 4)
    (h : (R.Partition k).Contains p = true) : R.Contains p = true := by
  rw [AABB.Contains_iff]
  fin_cases k
  · have := (R.contains_nw p).1 h
    exact ⟨by linarith, by linarith, by linarith, by linarith⟩
  · have := (R.contains_ne p).1 h
    exact ⟨by linarith, by linarith, by linarith, by linarith⟩
  · have := (R.contains_sw p).1 h
    exact ⟨by linarith, by linarith, by linarith, by linarith⟩
  · have := (R.contains_se p).1 h
    exact ⟨by linarith, by linarith, by linarith, by linarith⟩

theorem AABB.partition_disjoint (R : AABB) (p : Vector) (j k : Fin 4)
    (hj : (R.Partition j).Contains p = true) (hk : (R.Partition k).Contains p = true) :
    j = k := by
  obtain ⟨i, -, hi⟩ := R.partition_existsUnique p (R.partition_sub p j hj)
  rw [hi j hj, hi k hk]

/-- The four ways a contained point can lie in the parts of a region. -/
theorem AABB.partition_cases (R : AABB) (p : Vector) (h : R.Contains p = true) :
    ((R.Partition 0).Contains p = true ∧ (R.Partition 1).Contains p = false ∧
      (R.Partition 2).Contains p = false ∧ (R.Partition 3).Contains p = false) ∨
    ((R.Partition 0).Contains p = false ∧ (R.Partition 1).Contains p = true ∧
      (R.Partition 2).Contains p = false ∧ (R.Partition 3).Contains p = false) ∨
    ((R.Partition 0).Contains p = false ∧ (R.Partition 1).Contains p = false ∧
      (R.Partition 2).Contains p = true ∧ (R.Partition 3).Contains p = false) ∨
    ((R.Partition 0).Contains p = false ∧ (R.Partition 1).Contains p = false ∧
      (R.Partition 2).Contains p = false ∧ (R.Partition 3).Contains p = true) := by
  obtain ⟨i, hi, hu⟩ := R.partition_existsUnique p h
  have key : ∀ k : Fin 4, k ≠ i → (R.Partition k).Contains p = false := by
    intro k hk
    by_contra hc
    exact hk (hu k (by simpa using hc))
  fin_cases i
  · exact Or.inl ⟨hi, key 1 (by decide), key 2 (by decide), key 3 (by decide)⟩
  · exact Or.inr (Or.inl ⟨key 0 (by decide), hi, key 2 (by decide), key 3 (by decide)⟩)
  · exact Or.inr (Or.inr (Or.inl ⟨key 0 (by decide), key 1 (by decide), hi, key 3 (by decide)⟩))
  · exact Or.inr (Or.inr (Or.inr ⟨key 0 (by decide), key 1 (by decide), key 2 (by decide), hi⟩))

theorem AABB.partition_width (R : AABB) (k : Fin 4) : (R.Partition k).width = R.width / 2 := by
  fin_cases k <;> simp [AABB.Partition, AABB.width] <;> ring

theorem AABB.partition_height (R : AABB) (k : Fin 4) :
    (R.Partition k).height = R.height / 2 := by
  fin_cases k <;> simp [AABB.Partition, AABB.height, AABB.width] <;> ring

theorem exists_pow_gt (w d : ℚ) (hd : 0 < d) : ∃ n : ℕ, w < 2 ^ n * d := by
  obtain ⟨n, hn⟩ := exists_nat_gt (w / d)
  refine ⟨n, ?_⟩
  have h2 : (n : ℚ) < 2 ^ n := by exact_mod_cast Nat.lt_two_pow n
  have h3 := lt_trans hn h2
  rwa [div_lt_iff₀ hd] at h3

/-- Two points of a region are closer than its width and its height. -/
theorem AABB.close_of_contains (R : AABB) (a b : Vector) (ha : R.Contains a = true)
    (hb : R.Contains b = true) : |a.x - b.x| < R.width ∧ |a.y - b.y| < R.height := by
  rw [AABB.Contains_iff] at ha hb
  unfold AABB.width AABB.height
  constructor <;> rw [abs_lt] <;> constructor <;> linarith

/-! ### Sums over lists of particles -/

@[simp] theorem massSum_nil (s : Store) : massSum s [] = 0 := rfl

@[simp] theorem massSum_cons (s : Store) (p : Nat) (l : List Nat) :
    massSum s (p :: l) = (s p).mass + massSum s l := by
  simp [massSum]

@[simp] theorem massSum_append (s : Store) (l1 l2 : List Nat) :
    massSum s (l1 ++ l2) = massSum s l1 + massSum s l2 := by
  simp [massSum]

theorem massSum_perm (s : Store) {l1 l2 : List Nat} (h : l1.Perm l2) :
    massSum s l1 = massSum s l2 :=
  (h.map _).sum_eq

theorem massSum_congr {s s1 : Store} {l : List Nat}
    (h : ∀ i ∈ l, (s1 i).mass = (s i).mass) : massSum s1 l = massSum s l := by
  unfold massSum
  congr 1
  exact List.map_congr_left h

@[simp] theorem moment_nil (s : Store) : moment s [] = ⟨0, 0⟩ := rfl

@[simp] theorem moment_cons (s : Store) (p : Nat) (l : List Nat) :
    moment s (p :: l) = Vector.add (Vector.smul (s p).mass (s p).pos) (moment s l) := by
  simp [moment, Vector.add, Vector.smul]

@[simp] theorem moment_append (s : Store) (l1 l2 : List Nat) :
    moment s (l1 ++ l2) = Vector.add (moment s l1) (moment s l2) := by
  simp [moment, Vector.add]

theorem moment_perm (s : Store) {l1 l2 : List Nat} (h : l1.Perm l2) :
    moment s l1 = moment s l2 := by
  unfold moment
  rw [(h.map _).sum_eq, (h.map _).sum_eq]

theorem moment_congr {s s1 : Store} {l : List Nat}
    (h : ∀ i ∈ l, (s1 i).mass = (s i).mass ∧ (s1 i).pos = (s i).pos) :
    moment s1 l = moment s l := by
  unfold moment
  congr 2
  · exact List.map_congr_left fun i hi => by rw [(h i hi).1, (h i hi).2]
  · exact List.map_congr_left fun i hi => by rw [(h i hi).1, (h i hi).2]

namespace QuadTree

/-! ### Consequences of well-formedness -/

@[simp] theorem data_leaf (d : NodeData) : (leaf d).data = d := rfl

@[simp] theorem data_inner (d : NodeData) (nw ne sw se : QuadTree) :
    (inner d nw ne sw se).data = d := rfl

@[simp] theorem setData_leaf (d e : NodeData) : (leaf d).setData e = leaf e := rfl

@[simp] theorem data_setData (t : QuadTree) (e : NodeData) : (t.setData e).data = e := by
  cases t <;> rfl

@[simp] theorem bodies_leaf (d : NodeData) : bodies (leaf d) = d.particle_.toList := rfl

@[simp] theorem bodies_inner (d : NodeData) (nw ne sw se : QuadTree) :
    bodies (inner d nw ne sw se) = bodies nw ++ bodies ne ++ bodies sw ++ bodies se := rfl

theorem wf_count {s : Store} {t : QuadTree} (h : WellFormed s t) :
    t.data.count_ = (bodies t).length := by
  cases t with
  | leaf d =>
    simp only [WellFormed] at h
    cases hp : d.particle_ <;> simp [hp] at h ⊢ <;> simp [h]
  | inner d nw ne sw se =>
    simp only [WellFormed] at h
    simpa using h.2.2.1

theorem wf_mass {s : Store} {t : QuadTree} (h : WellFormed s t) :
    t.data.mass_ = massSum s (bodies t) := by
  cases t with
  | leaf d =>
    simp only [WellFormed] at h
    cases hp : d.particle_ <;> simp [hp] at h ⊢ <;> simp [h]
  | inner d nw ne sw se =>
    simp only [WellFormed] at h
    simpa using h.2.2.2.1

theorem wf_contains {s : Store} {t : QuadTree} (h : WellFormed s t) :
    ∀ p ∈ bodies t, t.data.bounds_.Contains (s p).pos = true := by
  induction t with
  | leaf d =>
    simp only [WellFormed] at h
    cases hp : d.particle_ <;> simp [hp] at h ⊢
    exact h.2.2
  | inner d nw ne sw se ih1 ih2 ih3 ih4 =>
    simp only [WellFormed] at h
    obtain ⟨-, -, -, -, b1, b2, b3, b4, w1, w2, w3, w4⟩ := h
    intro p hp
    simp only [bodies_inner, List.mem_append] at hp
    simp only [data_inner]
    rcases hp with ((hp | hp) | hp) | hp
    · exact d.bounds_.partition_sub _ 0 (b1 ▸ ih1 w1 p hp)
    · exact d.bounds_.partition_sub _ 1 (b2 ▸ ih2 w2 p hp)
    · exact d.bounds_.partition_sub _ 2 (b3 ▸ ih3 w3 p hp)
    · exact d.bounds_.partition_sub _ 3 (b4 ▸ ih4 w4 p hp)

theorem wf_disjoint {s : Store} {R : AABB} {c1 c2 : QuadTree} {j k : Fin 4} (hjk : j ≠ k)
    (b1 : c1.data.bounds_ = R.Partition j) (b2 : c2.data.bounds_ = R.Partition k)
    (w1 : WellFormed s c1) (w2 : WellFormed s c2) : List.Disjoint (bodies c1) (bodies c2) := by
  intro p h1 h2
  exact hjk (R.partition_disjoint (s p).pos j k (b1 ▸ wf_contains w1 p h1)
    (b2 ▸ wf_contains w2 p h2))

theorem wf_nodup {s : Store} {t : QuadTree} (h : WellFormed s t) : (bodies t).Nodup := by
  induction t with
  | leaf d => cases hp : d.particle_ <;> simp [hp]
  | inner d nw ne sw se ih1 ih2 ih3 ih4 =>
    simp only [WellFormed] at h
    obtain ⟨-, -, -, -, b1, b2, b3, b4, w1, w2, w3, w4⟩ := h
    have d12 := wf_disjoint (by decide : (0 : Fin 4) ≠ 1) b1 b2 w1 w2
    have d13 := wf_disjoint (by decide : (0 : Fin 4) ≠ 2) b1 b3 w1 w3
    have d14 := wf_disjoint (by decide : (0 : Fin 4) ≠ 3) b1 b4 w1 w4
    have d23 := wf_disjoint (by decide : (1 : Fin 4) ≠ 2) b2 b3 w2 w3
    have d24 := wf_disjoint (by decide : (1 : Fin 4) ≠ 3) b2 b4 w2 w4
    have d34 := wf_disjoint (by decide : (2 : Fin 4) ≠ 3) b3 b4 w3 w4
    simp only [bodies_inner]
    rw [List.nodup_append, List.nodup_append, List.nodup_append]
    refine ⟨⟨⟨ih1 w1, ih2 w2, d12⟩, ih3 w3, ?_⟩, ih4 w4, ?_⟩
    · exact List.disjoint_append_left.2 ⟨d13, d23⟩
    · exact List.disjoint_append_left.2 ⟨List.disjoint_append_left.2 ⟨d14, d24⟩, d34⟩

/-- Well-formedness reads only the positions and masses of the particles of the tree. -/
theorem wf_congr {s s1 : Store} {t : QuadTree}
    (h : ∀ i ∈ bodies t, (s1 i).mass = (s i).mass ∧ (s1 i).pos = (s i).pos)
    (w : WellFormed s t) : WellFormed s1 t := by
  induction t with
  | leaf d =>
    simp only [WellFormed] at w ⊢
    cases hp : d.particle_ with
    | none => simpa [hp] using w
    | some p =>
      simp only [hp] at w ⊢
      have := h p (by simp [hp])
      rw [this.1, this.2]
      exact w
  | inner d nw ne sw se ih1 ih2 ih3 ih4 =>
    simp only [WellFormed] at w ⊢
    obtain ⟨h1, h2, h3, h4, b1, b2, b3, b4, w1, w2, w3, w4⟩ := w
    simp only [bodies_inner, List.mem_append] at h
    refine ⟨h1, h2, h3, ?_, b1, b2, b3, b4, ih1 ?_ w1, ih2 ?_ w2, ih3 ?_ w3, ih4 ?_ w4⟩
    · rw [h4]
      symm
      apply massSum_congr
      intro i hi
      simp only [List.mem_append] at hi
      exact (h i hi).1
    · exact fun i hi => h i (Or.inl (Or.inl (Or.inl hi)))
    · exact fun i hi => h i (Or.inl (Or.inl (Or.inr hi)))
    · exact fun i hi => h i (Or.inl (Or.inr hi))
    · exact fun i hi => h i (Or.inr hi)

/-- On a well-formed tree `ToVector` returns, and returns the particles of the leaves. -/
theorem wf_toVector {s : Store} {t : QuadTree} (w : WellFormed s t) :
    t.ToVector = some (bodies t) := by
  induction t with
  | leaf d =>
    simp only [WellFormed] at w
    rw [ToVector.eq_1]
    cases hp : d.particle_ <;> simp [hp] at w ⊢ <;> simp [w]
  | inner d nw ne sw se ih1 ih2 ih3 ih4 =>
    simp only [WellFormed] at w
    obtain ⟨h1, h2, h3, h4, b1, b2, b3, b4, w1, w2, w3, w4⟩ := w
    rw [ToVector.eq_2]
    have : d.count_ ≠ 0 := by omega
    simp [h1, this, ih1 w1, ih2 w2, ih3 w3, ih4 w4]

theorem wf_of_mem_nodes {s : Store} {t n : QuadTree} (w : WellFormed s t) (hn : n ∈ nodes t) :
    WellFormed s n := by
  induction t with
  | leaf d =>
    simp only [nodes, List.mem_singleton] at hn
    exact hn ▸ w
  | inner d nw ne sw se ih1 ih2 ih3 ih4 =>
    simp only [nodes, List.mem_cons, List.mem_append] at hn
    have w0 := w
    simp only [WellFormed] at w
    obtain ⟨-, -, -, -, -, -, -, -, w1, w2, w3, w4⟩ := w
    rcases hn with hn | ((hn | hn) | hn) | hn
    · exact hn ▸ w0
    · exact ih1 w1 hn
    · exact ih2 w2 hn
    · exact ih3 w3 hn
    · exact ih4 w4 hn

/-! ### Unfolding `insert` -/

theorem insert_of_not_contains {s : Store} {p fuel : Nat} {t : QuadTree}
    (h : t.data.bounds_.Contains (s p).pos = false) : t.insert s p fuel = some t := by
  unfold insert
  simp [h]

theorem insert_of_count_zero {s : Store} {p fuel : Nat} {t : QuadTree}
    (h : t.data.bounds_.Contains (s p).pos = true) (hc : t.data.count_ = 0) :
    t.insert s p fuel = some (t.setData
      ⟨some p, 1, (s p).mass, (s p).pos, t.data.bounds_⟩) := by
  unfold insert
  simp [h, hc]

theorem insert_mk (s : Store) (p fuel : Nat) (R : AABB) :
    (mk R).insert s p fuel =
      some (if R.Contains (s p).pos = true then leaf ⟨some p, 1, (s p).mass, (s p).pos, R⟩
        else mk R) := by
  by_cases h : R.Contains (s p).pos = true
  · rw [insert_of_count_zero (by simpa [mk] using h) (by simp [mk])]
    simp [h, mk]
  · rw [insert_of_not_contains (by simpa [mk] using h)]
    simp [h]

theorem insert_zero_of_count {s : Store} {p : Nat} {t : QuadTree}
    (h : t.data.bounds_.Contains (s p).pos = true) (hc : t.data.count_ ≠ 0) :
    t.insert s p 0 = none := by
  unfold insert
  simp [h, hc]

theorem insert_succ_inner {s : Store} {p fuel : Nat} {d : NodeData} {nw ne sw se : QuadTree}
    (h : d.bounds_.Contains (s p).pos = true) (hc : d.count_ ≠ 0) :
    (inner d nw ne sw se).insert s p (fuel + 1) =
      (nw.insert s p fuel).bind fun nw1 =>
      (ne.insert s p fuel).bind fun ne1 =>
      (sw.insert s p fuel).bind fun sw1 =>
      (se.insert s p fuel).bind fun se1 =>
        some (inner { d with
          centre_of_mass_ :=
            Vector.div (Vector.add (Vector.muls d.centre_of_mass_ d.mass_)
              (Vector.muls (s p).pos (s p).mass)) (d.mass_ + (s p).mass)
          mass_ := d.mass_ + (s p).mass
          count_ := d.count_ + 1 } nw1 ne1 sw1 se1) := by
  rw [insert]
  simp [h, hc]

theorem insert_succ_leaf {s : Store} {p fuel held : Nat} {d : NodeData}
    (h : d.bounds_.Contains (s p).pos = true) (hc : d.count_ ≠ 0)
    (hp : d.particle_ = some held) :
    (leaf d).insert s p (fuel + 1) =
      (inner { d with particle_ := none }
        (if (d.bounds_.Partition 0).Contains (s held).pos = true then
          leaf ⟨some held, 1, (s held).mass, (s held).pos, d.bounds_.Partition 0⟩
          else mk (d.bounds_.Partition 0))
        (if (d.bounds_.Partition 1).Contains (s held).pos = true then
          leaf ⟨some held, 1, (s held).mass, (s held).pos, d.bounds_.Partition 1⟩
          else mk (d.bounds_.Partition 1))
        (if (d.bounds_.Partition 2).Contains (s held).pos = true then
          leaf ⟨some held, 1, (s held).mass, (s held).pos, d.bounds_.Partition 2⟩
          else mk (d.bounds_.Partition 2))
        (if (d.bounds_.Partition 3).Contains (s held).pos = true then
          leaf ⟨some held, 1, (s held).mass, (s held).pos, d.bounds_.Partition 3⟩
          else mk (d.bounds_.Partition 3))).insert s p (fuel + 1) := by
  rw [insert_succ_inner (by simpa using h) (by simpa using hc)]
  rw [insert]
  simp [h, hc, hp, insert_mk]

theorem insert_succ_leaf_null {s : Store} {p fuel : Nat} {d : NodeData}
    (h : d.bounds_.Contains (s p).pos = true) (hc : d.count_ ≠ 0)
    (hp : d.particle_ = none) : (leaf d).insert s p (fuel + 1) = none := by
  rw [insert]
  simp [h, hc, hp]

/-! ### `insert` keeps the tree well-formed -/

theorem massSum_nonneg {s : Store} (hm : ∀ i, 0 < (s i).mass) (l : List Nat) :
    0 ≤ massSum s l := by
  induction l with
  | nil => simp
  | cons a l ih => rw [massSum_cons]; linarith [hm a]

theorem com_step (M m : ℚ) (com pos : Vector) (h : M + m ≠ 0) :
    Vector.smul (M + m) (Vector.div (Vector.add (Vector.muls com M) (Vector.muls pos m)) (M + m)) =
      Vector.add (Vector.smul m pos) (Vector.smul M com) := by
  simp only [Vector.smul, Vector.div, Vector.add, Vector.muls, Vector.mk.injEq]
  constructor <;> field_simp <;> ring

theorem insertPost_children {s : Store} {p : Nat} {R : AABB}
    {nw ne sw se nw1 ne1 sw1 se1 : QuadTree} (hR : R.Contains (s p).pos = true)
    (b1 : nw.data.bounds_ = R.Partition 0) (b2 : ne.data.bounds_ = R.Partition 1)
    (b3 : sw.data.bounds_ = R.Partition 2) (b4 : se.data.bounds_ = R.Partition 3)
    (w1 : WellFormed s nw) (w2 : WellFormed s ne) (w3 : WellFormed s sw) (w4 : WellFormed s se)
    (q1 : InsertPost s p nw nw1) (q2 : InsertPost s p ne ne1)
    (q3 : InsertPost s p sw sw1) (q4 : InsertPost s p se se1) :
    (nw1.data.bounds_ = R.Partition 0 ∧ ne1.data.bounds_ = R.Partition 1 ∧
      sw1.data.bounds_ = R.Partition 2 ∧ se1.data.bounds_ = R.Partition 3) ∧
    (WellFormed s nw1 ∧ WellFormed s ne1 ∧ WellFormed s sw1 ∧ WellFormed s se1) ∧
    (bodies nw1 ++ bodies ne1 ++ bodies sw1 ++ bodies se1).Perm
      (p :: (bodies nw ++ bodies ne ++ bodies sw ++ bodies se)) ∧
    ((∀ i, 0 < (s i).mass) → ComInv s nw → ComInv s ne → ComInv s sw → ComInv s se →
      ComInv s nw1 ∧ ComInv s ne1 ∧ ComInv s sw1 ∧ ComInv s se1) := by
  unfold InsertPost at q1 q2 q3 q4
  rw [b1] at q1
  rw [b2] at q2
  rw [b3] at q3
  rw [b4] at q4
  rcases R.partition_cases (s p).pos hR with ⟨h1, h2, h3, h4⟩ | ⟨h1, h2, h3, h4⟩ |
    ⟨h1, h2, h3, h4⟩ | ⟨h1, h2, h3, h4⟩ <;>
  simp only [h1, h2, h3, h4, if_true, if_false, Bool.false_eq_true] at q1 q2 q3 q4
  · subst q2 q3 q4
    obtain ⟨v, e, pm, c⟩ := q1
    refine ⟨⟨e, b2, b3, b4⟩, ⟨v, w2, w3, w4⟩, ?_, fun hm c1 c2 c3 c4 => ⟨c hm c1, c2, c3, c4⟩⟩
    rw [List.perm_iff_count]
    intro a
    have := pm.count_eq a
    simp only [List.count_append, List.count_cons] at this ⊢
    omega
  · subst q1 q3 q4
    obtain ⟨v, e, pm, c⟩ := q2
    refine ⟨⟨b1, e, b3, b4⟩, ⟨w1, v, w3, w4⟩, ?_, fun hm c1 c2 c3 c4 => ⟨c1, c hm c2, c3, c4⟩⟩
    rw [List.perm_iff_count]
    intro a
    have := pm.count_eq a
    simp only [List.count_append, List.count_cons] at this ⊢
    omega
  · subst q1 q2 q4
    obtain ⟨v, e, pm, c⟩ := q3
    refine ⟨⟨b1, b2, e, b4⟩, ⟨w1, w2, v, w4⟩, ?_, fun hm c1 c2 c3 c4 => ⟨c1, c2, c hm c3, c4⟩⟩
    rw [List.perm_iff_count]
    intro a
    have := pm.count_eq a
    simp only [List.count_append, List.count_cons] at this ⊢
    omega
  · subst q1 q2 q3
    obtain ⟨v, e, pm, c⟩ := q4
    refine ⟨⟨b1, b2, b3, e⟩, ⟨w1, w2, w3, v⟩, ?_, fun hm c1 c2 c3 c4 => ⟨c1, c2, c3, c hm c4⟩⟩
    rw [List.perm_iff_count]
    intro a
    have := pm.count_eq a
    simp only [List.count_append, List.count_cons] at this ⊢
    omega

theorem insert_inner_post {s : Store} {p fuel : Nat}
    (ih : ∀ t t1, WellFormed s t → t.insert s p fuel = some t1 → InsertPost s p t t1)
    {d : NodeData} {nw ne sw se t1 : QuadTree}
    (hR : d.bounds_.Contains (s p).pos = true) (hp : d.particle_ = none) (hc : d.count_ ≠ 0)
    (hcount : d.count_ = (bodies nw ++ bodies ne ++ bodies sw ++ bodies se).length)
    (hmass : d.mass_ = massSum s (bodies nw ++ bodies ne ++ bodies sw ++ bodies se))
    (b1 : nw.data.bounds_ = d.bounds_.Partition 0) (b2 : ne.data.bounds_ = d.bounds_.Partition 1)
    (b3 : sw.data.bounds_ = d.bounds_.Partition 2) (b4 : se.data.bounds_ = d.bounds_.Partition 3)
    (w1 : WellFormed s nw) (w2 : WellFormed s ne) (w3 : WellFormed s sw) (w4 : WellFormed s se)
    (h : (inner d nw ne sw se).insert s p (fuel + 1) = some t1) :
    WellFormed s t1 ∧ t1.data.bounds_ = d.bounds_ ∧
    (bodies t1).Perm (p :: (bodies nw ++ bodies ne ++ bodies sw ++ bodies se)) ∧
    ((∀ i, 0 < (s i).mass) →
      Vector.smul d.mass_ d.centre_of_mass_ =
        moment s (bodies nw ++ bodies ne ++ bodies sw ++ bodies se) →
      ComInv s nw → ComInv s ne → ComInv s sw → ComInv s se → ComInv s t1) := by
  rw [insert_succ_inner hR hc] at h
  simp only [Option.bind_eq_some] at h
  obtain ⟨nw1, e1, ne1, e2, sw1, e3, se1, e4, h⟩ := h
  simp only [Option.some.injEq] at h
  subst h
  obtain ⟨⟨c1, c2, c3, c4⟩, ⟨v1, v2, v3, v4⟩, pm, cm⟩ :=
    insertPost_children hR b1 b2 b3 b4 w1 w2 w3 w4 (ih _ _ w1 e1) (ih _ _ w2 e2)
      (ih _ _ w3 e3) (ih _ _ w4 e4)
  refine ⟨?_, rfl, pm, ?_⟩
  · simp only [WellFormed]
    refine ⟨hp, by omega, ?_, ?_, c1, c2, c3, c4, v1, v2, v3, v4⟩
    · rw [pm.length_eq, hcount]; rfl
    · rw [massSum_perm s pm, massSum_cons, hmass, add_comm]
  · intro hm hcom k1 k2 k3 k4
    obtain ⟨g1, g2, g3, g4⟩ := cm hm k1 k2 k3 k4
    simp only [ComInv]
    refine ⟨?_, g1, g2, g3, g4⟩
    rw [moment_perm s pm, moment_cons, ← hcom]
    apply com_step
    have := massSum_nonneg hm (bodies nw ++ bodies ne ++ bodies sw ++ bodies se)
    rw [hmass]
    linarith [hm p]

theorem wf_fresh (s : Store) (held : Nat) (R : AABB) :
    WellFormed s (if R.Contains (s held).pos = true then
      leaf ⟨some held, 1, (s held).mass, (s held).pos, R⟩ else mk R) := by
  split
  · simpa [WellFormed]
  · simp [WellFormed, mk]

theorem comInv_fresh (s : Store) (held : Nat) (R : AABB) :
    ComInv s (if R.Contains (s held).pos = true then
      leaf ⟨some held, 1, (s held).mass, (s held).pos, R⟩ else mk R) := by
  split
  · simp [ComInv, Vector.add, Vector.smul]
  · simp [ComInv, mk, Vector.smul, Vector.zero]

theorem bounds_fresh (s : Store) (held : Nat) (R : AABB) :
    (if R.Contains (s held).pos = true then
      leaf ⟨some held, 1, (s held).mass, (s held).pos, R⟩ else mk R).data.bounds_ = R := by
  split <;> simp [mk]

theorem bodies_fresh (s : Store) (held : Nat) (R : AABB) :
    bodies (if R.Contains (s held).pos = true then
      leaf ⟨some held, 1, (s held).mass, (s held).pos, R⟩ else mk R) =
      if R.Contains (s held).pos = true then [held] else [] := by
  split <;> simp [mk]

/-- The four fresh children of `Split` hold exactly the particle that was held. -/
theorem bodies_split (s : Store) (held : Nat) (R : AABB) (h : R.Contains (s held).pos = true) :
    (if (R.Partition 0).Contains (s held).pos = true then [held] else []) ++
      (if (R.Partition 1).Contains (s held).pos = true then [held] else []) ++
      (if (R.Partition 2).Contains (s held).pos = true then [held] else []) ++
      (if (R.Partition 3).Contains (s held).pos = true then [held] else []) = [held] := by
  rcases R.partition_cases (s held).pos h with ⟨h1, h2, h3, h4⟩ | ⟨h1, h2, h3, h4⟩ |
    ⟨h1, h2, h3, h4⟩ | ⟨h1, h2, h3, h4⟩ <;> simp [h1, h2, h3, h4]

/-- A returning `insert` into a well-formed tree establishes `InsertPost`. -/
theorem insert_post (s : Store) (p : Nat) :
    ∀ (fuel : Nat) (t t1 : QuadTree), WellFormed s t → t.insert s p fuel = some t1 →
      InsertPost s p t t1 := by
  intro fuel
  induction fuel with
  | zero =>
    intro t t1 w h
    unfold InsertPost
    split
    · rename_i hR
      by_cases hc : t.data.count_ = 0
      · rw [insert_of_count_zero hR hc] at h
        simp only [Option.some.injEq] at h
        subst h
        cases t with
        | leaf d =>
          simp only [WellFormed] at w
          cases hp : d.particle_ with
          | none =>
            simp only [data_leaf] at hR
            simp [WellFormed, hR, hp, ComInv, Vector.add, Vector.smul]
          | some q =>
            simp only [hp] at w
            simp only [data_leaf] at hc
            omega
        | inner d nw ne sw se =>
          simp only [WellFormed] at w
          simp only [data_inner] at hc
          omega
      · rw [insert_zero_of_count hR hc] at h
        exact absurd h (by simp)
    · rename_i hR
      rw [insert_of_not_contains (by simpa using hR)] at h
      simp only [Option.some.injEq] at h
      exact h.symm
  | succ fuel ih =>
    intro t t1 w h
    unfold InsertPost
    split
    · rename_i hR
      by_cases hc : t.data.count_ = 0
      · rw [insert_of_count_zero hR hc] at h
        simp only [Option.some.injEq] at h
        subst h
        cases t with
        | leaf d =>
          simp only [WellFormed] at w
          cases hp : d.particle_ with
          | none =>
            simp only [data_leaf] at hR
            simp [WellFormed, hR, hp, ComInv, Vector.add, Vector.smul]
          | some q =>
            simp only [hp] at w
            simp only [data_leaf] at hc
            omega
        | inner d nw ne sw se =>
          simp only [WellFormed] at w
          simp only [data_inner] at hc
          omega
      · cases t with
        | leaf d =>
          simp only [data_leaf] at hR hc
          simp only [WellFormed] at w
          cases hp : d.particle_ with
          | none =>
            simp only [hp] at w
            exact absurd w.1 hc
          | some held =>
            simp only [hp] at w
            obtain ⟨wc, wm, wb⟩ := w
            rw [insert_succ_leaf hR hc hp] at h
            have key := insert_inner_post ih (d := { d with particle_ := none }) hR rfl hc
              (by simp only [bodies_fresh, bodies_split s held d.bounds_ wb]; simp [wc])
              (by simp only [bodies_fresh, bodies_split s held d.bounds_ wb]; simp [wm])
              (bounds_fresh s held _) (bounds_fresh s held _) (bounds_fresh s held _)
              (bounds_fresh s held _) (wf_fresh s held _) (wf_fresh s held _)
              (wf_fresh s held _) (wf_fresh s held _) h
            obtain ⟨k1, k2, k3, k4⟩ := key
            simp only [bodies_fresh, bodies_split s held d.bounds_ wb] at k3 k4
            refine ⟨k1, k2, by simpa [hp] using k3, ?_⟩
            intro hm hcom
            apply k4 hm _ (comInv_fresh s held _) (comInv_fresh s held _)
              (comInv_fresh s held _) (comInv_fresh s held _)
            simpa [ComInv, hp] using hcom
        | inner d nw ne sw se =>
          simp only [data_inner] at hR hc
          have w0 := w
          simp only [WellFormed] at w
          obtain ⟨hp, -, hcount, hmass, b1, b2, b3, b4, w1, w2, w3, w4⟩ := w
          obtain ⟨k1, k2, k3, k4⟩ :=
            insert_inner_post ih hR hp hc hcount hmass b1 b2 b3 b4 w1 w2 w3 w4 h
          refine ⟨k1, k2, k3, ?_⟩
          intro hm hcom
          simp only [ComInv] at hcom
          exact k4 hm hcom.1 hcom.2.1 hcom.2.2.1 hcom.2.2.2.1 hcom.2.2.2.2
    · rename_i hR
      rw [insert_of_not_contains (by simpa using hR)] at h
      simp only [Option.some.injEq] at h
      exact h.symm

theorem insert_wf {s : Store} {p fuel : Nat} {t t1 : QuadTree} (w : WellFormed s t)
    (h : t.insert s p fuel = some t1) : WellFormed s t1 := by
  have q := insert_post s p fuel t t1 w h
  unfold InsertPost at q
  split at q
  · exact q.1
  · exact q ▸ w

theorem wf_mk (s : Store) (R : AABB) : WellFormed s (mk R) := by
  simp [WellFormed, mk]

/-! ### `insert` returns when the positions are distinct -/

theorem insert_inner_mono {s : Store} {p fuel : Nat}
    (ih : ∀ t t1 : QuadTree, t.insert s p fuel = some t1 → t.insert s p (fuel + 1) = some t1)
    {d : NodeData} {nw ne sw se t1 : QuadTree}
    (hR : d.bounds_.Contains (s p).pos = true) (hc : d.count_ ≠ 0)
    (h : (inner d nw ne sw se).insert s p (fuel + 1) = some t1) :
    (inner d nw ne sw se).insert s p (fuel + 1 + 1) = some t1 := by
  rw [insert_succ_inner hR hc] at h ⊢
  simp only [Option.bind_eq_some] at h
  obtain ⟨nw1, e1, ne1, e2, sw1, e3, se1, e4, h⟩ := h
  rw [ih _ _ e1, ih _ _ e2, ih _ _ e3, ih _ _ e4]
  exact h

/-- More fuel does not change the result of an `insert` that returned. -/
theorem insert_mono (s : Store) (p : Nat) :
    ∀ (fuel : Nat) (t t1 : QuadTree), t.insert s p fuel = some t1 →
      t.insert s p (fuel + 1) = some t1 := by
  intro fuel
  induction fuel with
  | zero =>
    intro t t1 h
    by_cases hR : t.data.bounds_.Contains (s p).pos = true
    · by_cases hc : t.data.count_ = 0
      · rw [insert_of_count_zero hR hc] at h ⊢
        exact h
      · rw [insert_zero_of_count hR hc] at h
        exact absurd h (by simp)
    · rw [insert_of_not_contains (by simpa using hR)] at h ⊢
      exact h
  | succ fuel ih =>
    intro t t1 h
    by_cases hR : t.data.bounds_.Contains (s p).pos = true
    · by_cases hc : t.data.count_ = 0
      · rw [insert_of_count_zero hR hc] at h ⊢
        exact h
      · cases t with
        | inner d nw ne sw se => exact insert_inner_mono ih hR hc h
        | leaf d =>
          simp only [data_leaf] at hR hc
          cases hp : d.particle_ with
          | none =>
            rw [insert_succ_leaf_null hR hc hp] at h
            exact absurd h (by simp)
          | some held =>
            rw [insert_succ_leaf hR hc hp] at h ⊢
            exact insert_inner_mono ih hR hc h
    · rw [insert_of_not_contains (by simpa using hR)] at h ⊢
      exact h

theorem insert_mono_le {s : Store} {p : Nat} {f g : Nat} (hfg : f ≤ g) {t t1 : QuadTree}
    (h : t.insert s p f = some t1) : t.insert s p g = some t1 := by
  induction g, hfg using Nat.le_induction with
  | base => exact h
  | succ n _ ih => exact insert_mono s p n t t1 ih

/-- An occupied leaf whose particle is separated from the new one after `n` halvings of
the region accepts the new particle with fuel `n`. -/
theorem insert_leaf_terminates (s : Store) (p : Nat) :
    ∀ (n : Nat) (d : NodeData) (q : Nat), d.particle_ = some q →
      d.bounds_.Contains (s q).pos = true →
      (d.bounds_.width < 2 ^ n * |(s q).pos.x - (s p).pos.x| ∨
        d.bounds_.height < 2 ^ n * |(s q).pos.y - (s p).pos.y|) →
      ∃ t1, (leaf d).insert s p n = some t1 := by
  intro n
  induction n with
  | zero =>
    intro d q hq hin hsep
    by_cases hR : d.bounds_.Contains (s p).pos = true
    · have := d.bounds_.close_of_contains _ _ hin hR
      simp only [pow_zero, one_mul] at hsep
      rcases hsep with h | h
      · exact absurd h (not_lt.2 (le_of_lt this.1))
      · exact absurd h (not_lt.2 (le_of_lt this.2))
    · exact ⟨_, insert_of_not_contains (by simpa using hR)⟩
  | succ n ih =>
    intro d q hq hin hsep
    by_cases hR : d.bounds_.Contains (s p).pos = true
    · by_cases hc : d.count_ = 0
      · exact ⟨_, insert_of_count_zero (by simpa using hR) (by simpa using hc)⟩
      · have fresh : ∀ k : Fin 4, ∃ t1,
            (if (d.bounds_.Partition k).Contains (s q).pos = true then
              leaf ⟨some q, 1, (s q).mass, (s q).pos, d.bounds_.Partition k⟩
              else mk (d.bounds_.Partition k)).insert s p n = some t1 := by
          intro k
          split
          · rename_i hk
            refine ih ⟨some q, 1, (s q).mass, (s q).pos, d.bounds_.Partition k⟩ q rfl hk ?_
            simp only [AABB.partition_width, AABB.partition_height]
            rw [pow_succ] at hsep
            rcases hsep with h | h
            · left; linarith
            · right; linarith
          · exact ⟨_, insert_mk s p n (d.bounds_.Partition k)⟩
        obtain ⟨a1, e1⟩ := fresh 0
        obtain ⟨a2, e2⟩ := fresh 1
        obtain ⟨a3, e3⟩ := fresh 2
        obtain ⟨a4, e4⟩ := fresh 3
        rw [insert_succ_leaf hR hc hq,
          @insert_succ_inner s p n { d with particle_ := none } _ _ _ _ hR hc, e1, e2, e3, e4]
        exact ⟨_, rfl⟩
    · exact ⟨_, insert_of_not_contains (by simpa using hR)⟩

/-- An `insert` into a well-formed tree returns, with enough fuel, when no particle
of the tree has the position of the new one. -/
theorem insert_terminates {s : Store} {p : Nat} {t : QuadTree} (w : WellFormed s t)
    (hd : ∀ q ∈ bodies t, (s q).pos ≠ (s p).pos) : ∃ fuel t1, t.insert s p fuel = some t1 := by
  induction t with
  | leaf d =>
    simp only [WellFormed] at w
    cases hq : d.particle_ with
    | none =>
      simp only [hq] at w
      by_cases hR : d.bounds_.Contains (s p).pos = true
      · exact ⟨0, _, insert_of_count_zero (by simpa using hR) (by simpa using w.1)⟩
      · exact ⟨0, _, insert_of_not_contains (by simpa using hR)⟩
    | some q =>
      simp only [hq] at w
      have hne := hd q (by simp [hq])
      have hxy : (s q).pos.x - (s p).pos.x ≠ 0 ∨ (s q).pos.y - (s p).pos.y ≠ 0 := by
        by_contra hc
        simp only [not_or, not_not, sub_eq_zero] at hc
        apply hne
        cases hsq : (s q).pos
        cases hsp : (s p).pos
        simp only [hsq, hsp] at hc
        simp [hc.1, hc.2]
      rcases hxy with h | h
      · obtain ⟨n, hn⟩ := exists_pow_gt d.bounds_.width _ (abs_pos.2 h)
        exact ⟨n, insert_leaf_terminates s p n d q hq w.2.2 (Or.inl hn)⟩
      · obtain ⟨n, hn⟩ := exists_pow_gt d.bounds_.height _ (abs_pos.2 h)
        exact ⟨n, insert_leaf_terminates s p n d q hq w.2.2 (Or.inr hn)⟩
  | inner d nw ne sw se ih1 ih2 ih3 ih4 =>
    simp only [WellFormed] at w
    obtain ⟨-, h2, -, -, -, -, -, -, w1, w2, w3, w4⟩ := w
    simp only [bodies_inner, List.mem_append] at hd
    by_cases hR : d.bounds_.Contains (s p).pos = true
    · obtain ⟨f1, a1, e1⟩ := ih1 w1 (fun q hq => hd q (Or.inl (Or.inl (Or.inl hq))))
      obtain ⟨f2, a2, e2⟩ := ih2 w2 (fun q hq => hd q (Or.inl (Or.inl (Or.inr hq))))
      obtain ⟨f3, a3, e3⟩ := ih3 w3 (fun q hq => hd q (Or.inl (Or.inr hq)))
      obtain ⟨f4, a4, e4⟩ := ih4 w4 (fun q hq => hd q (Or.inr hq))
      refine ⟨max (max f1 f2) (max f3 f4) + 1, ?_⟩
      rw [insert_succ_inner hR (by omega),
        insert_mono_le (le_trans (le_max_left f1 f2) (le_max_left _ _)) e1,
        insert_mono_le (le_trans (le_max_right f1 f2) (le_max_left _ _)) e2,
        insert_mono_le (le_trans (le_max_left f3 f4) (le_max_right _ _)) e3,
        insert_mono_le (le_trans (le_max_right f3 f4) (le_max_right _ _)) e4]
      exact ⟨_, rfl⟩
    · exact ⟨0, _, insert_of_not_contains (by simpa using hR)⟩

/-! ### Inserting a list of particles -/

theorem insert_bounds {s : Store} {p fuel : Nat} {t t1 : QuadTree} (w : WellFormed s t)
    (h : t.insert s p fuel = some t1) : t1.data.bounds_ = t.data.bounds_ := by
  have q := insert_post s p fuel t t1 w h
  unfold InsertPost at q
  split at q
  · exact q.2.1
  · rw [q]

theorem updateVelocity_skip {sqrt : ℚ → ℚ} {p : Nat} {dt theta : ℚ} {t : QuadTree} {s : Store}
    (h : some p = t.data.particle_ ∨ t.data.count_ = 0) :
    UpdateVelocity sqrt p dt theta t s = some s := by
  cases t <;> rw [UpdateVelocity] <;> simp only [h, if_true]

theorem updateVelocity_held {sqrt : ℚ → ℚ} {p held : Nat} {dt theta : ℚ} {t : QuadTree}
    {s : Store} (h : ¬(some p = t.data.particle_ ∨ t.data.count_ = 0))
    (hp : t.data.particle_ = some held) :
    UpdateVelocity sqrt p dt theta t s = some (addVel s p
      (Vector.div
        (Vector.smul (dt * (s held).mass)
          (Vector.Normalise sqrt (Vector.sub (s held).pos (s p).pos)))
        (clamp (Vector.sub (s p).pos t.data.centre_of_mass_).MagnitudeSquared))) := by
  cases t <;> rw [UpdateVelocity] <;> simp only [h, if_false] <;> simp only [hp]

theorem updateVelocity_far {sqrt : ℚ → ℚ} {p : Nat} {dt theta : ℚ} {t : QuadTree}
    {s : Store} (h : ¬(some p = t.data.particle_ ∨ t.data.count_ = 0))
    (hp : t.data.particle_ = none)
    (ha : t.data.bounds_.width * t.data.bounds_.width /
      clamp (Vector.sub (s p).pos t.data.centre_of_mass_).MagnitudeSquared < theta * theta) :
    UpdateVelocity sqrt p dt theta t s = some (addVel s p
      (Vector.div
        (Vector.smul (dt * t.data.mass_)
          (Vector.Normalise sqrt (Vector.sub t.data.centre_of_mass_ (s p).pos)))
        (clamp (Vector.sub (s p).pos t.data.centre_of_mass_).MagnitudeSquared))) := by
  cases t <;> rw [UpdateVelocity] <;> simp only [h, if_false] <;> simp only [hp] <;>
    simp only [ha, if_true]

theorem updateVelocity_near {sqrt : ℚ → ℚ} {p : Nat} {dt theta : ℚ} {d : NodeData}
    {nw ne sw se : QuadTree} {s : Store} (h : ¬(some p = d.particle_ ∨ d.count_ = 0))
    (hp : d.particle_ = none)
    (ha : ¬ d.bounds_.width * d.bounds_.width /
      clamp (Vector.sub (s p).pos d.centre_of_mass_).MagnitudeSquared < theta * theta) :
    UpdateVelocity sqrt p dt theta (inner d nw ne sw se) s =
      (UpdateVelocity sqrt p dt theta nw s).bind fun s1 =>
      (UpdateVelocity sqrt p dt theta ne s1).bind fun s2 =>
      (UpdateVelocity sqrt p dt theta sw s2).bind fun s3 =>
        UpdateVelocity sqrt p dt theta se s3 := by
  rw [UpdateVelocity]
  simp only [data_inner, h, if_false]
  simp only [hp]
  simp only [ha, if_false]
  rfl

theorem updateVelocity_null {sqrt : ℚ → ℚ} {p : Nat} {dt theta : ℚ} {d : NodeData}
    {s : Store} (h : ¬(some p = d.particle_ ∨ d.count_ = 0))
    (hp : d.particle_ = none)
    (ha : ¬ d.bounds_.width * d.bounds_.width /
      clamp (Vector.sub (s p).pos d.centre_of_mass_).MagnitudeSquared < theta * theta) :
    UpdateVelocity sqrt p dt theta (leaf d) s = none := by
  rw [UpdateVelocity]
  simp only [data_leaf, h, if_false]
  simp only [hp]
  simp only [ha, if_false]

theorem addVel_frame (s : Store) (p : Nat) (v : Vector) (i : Nat) :
    ((addVel s p v) i).pos = (s i).pos ∧ ((addVel s p v) i).mass = (s i).mass ∧
      (i ≠ p → (addVel s p v) i = s i) := by
  unfold addVel
  by_cases hi : i = p
  · subst hi; simp
  · simp [Function.update_noteq hi]

theorem updateVelocity_frame {sqrt : ℚ → ℚ} {p : Nat} {dt theta : ℚ} {t : QuadTree} :
    ∀ {s s1 : Store}, UpdateVelocity sqrt p dt theta t s = some s1 →
      ∀ i, (s1 i).pos = (s i).pos ∧ (s1 i).mass = (s i).mass ∧ (i ≠ p → s1 i = s i) := by
  induction t with
  | leaf d =>
    intro s s1 h i
    by_cases h0 : some p = d.particle_ ∨ d.count_ = 0
    · rw [updateVelocity_skip (by simpa using h0)] at h
      simp only [Option.some.injEq] at h
      subst h
      simp
    · cases hp : d.particle_ with
      | some held =>
        rw [updateVelocity_held (by simpa using h0) (by simpa using hp)] at h
        simp only [Option.some.injEq] at h
        subst h
        exact addVel_frame _ _ _ _
      | none =>
        by_cases ha : d.bounds_.width * d.bounds_.width /
            clamp (Vector.sub (s p).pos d.centre_of_mass_).MagnitudeSquared < theta * theta
        · rw [updateVelocity_far (by simpa using h0) (by simpa using hp) (by simpa using ha)] at h
          simp only [Option.some.injEq] at h
          subst h
          exact addVel_frame _ _ _ _
        · rw [updateVelocity_null h0 hp ha] at h
          exact absurd h (by simp)
  | inner d nw ne sw se ih1 ih2 ih3 ih4 =>
    intro s s1 h i
    by_cases h0 : some p = d.particle_ ∨ d.count_ = 0
    · rw [updateVelocity_skip (by simpa using h0)] at h
      simp only [Option.some.injEq] at h
      subst h
      simp
    · cases hp : d.particle_ with
      | some held =>
        rw [updateVelocity_held (by simpa using h0) (by simpa using hp)] at h
        simp only [Option.some.injEq] at h
        subst h
        exact addVel_frame _ _ _ _
      | none =>
        by_cases ha : d.bounds_.width * d.bounds_.width /
            clamp (Vector.sub (s p).pos d.centre_of_mass_).MagnitudeSquared < theta * theta
        · rw [updateVelocity_far (by simpa using h0) (by simpa using hp) (by simpa using ha)] at h
          simp only [Option.some.injEq] at h
          subst h
          exact addVel_frame _ _ _ _
        · rw [updateVelocity_near h0 hp ha] at h
          simp only [Option.bind_eq_some] at h
          obtain ⟨sa, ha, sb, hb, sc, hc, hd⟩ := h
          have a := ih1 ha i
          have b := ih2 hb i
          have c := ih3 hc i
          have e := ih4 hd i
          refine ⟨by rw [e.1, c.1, b.1, a.1], by rw [e.2.1, c.2.1, b.2.1, a.2.1], fun hi => ?_⟩
          rw [e.2.2 hi, c.2.2 hi, b.2.2 hi, a.2.2 hi]

theorem updateVelocities_frame {sqrt : ℚ → ℚ} {root : QuadTree} {dt theta : ℚ} {t : QuadTree} :
    ∀ {s s1 : Store}, UpdateVelocities sqrt root dt theta t s = some s1 →
      ∀ i, (s1 i).pos = (s i).pos ∧ (s1 i).mass = (s i).mass ∧ (i ∉ bodies t → s1 i = s i) := by
  induction t with
  | leaf d =>
    intro s s1 h i
    rw [UpdateVelocities] at h
    split at h
    · rename_i held hp
      have := updateVelocity_frame h i
      refine ⟨this.1, this.2.1, fun hi => this.2.2 ?_⟩
      simpa [hp] using hi
    · simp only [Option.some.injEq] at h
      subst h
      simp
  | inner d nw ne sw se ih1 ih2 ih3 ih4 =>
    intro s s1 h i
    rw [UpdateVelocities] at h
    simp only [Option.bind_eq_bind, Option.bind_eq_some] at h
    obtain ⟨sa, ha, sb, hb, sc, hc, hd⟩ := h
    have a := ih1 ha i
    have b := ih2 hb i
    have c := ih3 hc i
    have e := ih4 hd i
    refine ⟨by rw [e.1, c.1, b.1, a.1], by rw [e.2.1, c.2.1, b.2.1, a.2.1], fun hi => ?_⟩
    simp only [bodies_inner, List.mem_append, not_or] at hi
    rw [e.2.2 hi.2, c.2.2 hi.1.2, b.2.2 hi.1.1.2, a.2.2 hi.1.1.1]

theorem wf_updateVelocities {sqrt : ℚ → ℚ} {root : QuadTree} {dt theta : ℚ} {t u : QuadTree}
    {s s1 : Store} (h : UpdateVelocities sqrt root dt theta t s = some s1)
    (w : WellFormed s u) : WellFormed s1 u :=
  wf_congr (fun i _ => ⟨(updateVelocities_frame h i).2.1, (updateVelocities_frame h i).1⟩) w

/-! ### `UpdateVelocities` returns on a well-formed tree -/

theorem updateVelocity_total {sqrt : ℚ → ℚ} {p : Nat} {dt theta : ℚ} {t : QuadTree} :
    ∀ {s : Store}, WellFormed s t → ∃ s1, UpdateVelocity sqrt p dt theta t s = some s1 := by
  induction t with
  | leaf d =>
    intro s w
    simp only [WellFormed] at w
    cases hp : d.particle_ with
    | none =>
      simp only [hp] at w
      exact ⟨s, updateVelocity_skip (Or.inr (by simpa using w.1))⟩
    | some held =>
      by_cases h0 : some p = d.particle_ ∨ d.count_ = 0
      · exact ⟨s, updateVelocity_skip (by simpa using h0)⟩
      · exact ⟨_, updateVelocity_held (by simpa using h0) (by simpa using hp)⟩
  | inner d nw ne sw se ih1 ih2 ih3 ih4 =>
    intro s w
    simp only [WellFormed] at w
    obtain ⟨hp, -, -, -, -, -, -, -, w1, w2, w3, w4⟩ := w
    by_cases h0 : some p = d.particle_ ∨ d.count_ = 0
    · exact ⟨s, updateVelocity_skip (by simpa using h0)⟩
    · by_cases ha : d.bounds_.width * d.bounds_.width /
          clamp (Vector.sub (s p).pos d.centre_of_mass_).MagnitudeSquared < theta * theta
      · exact ⟨_, updateVelocity_far (by simpa using h0) (by simpa using hp) (by simpa using ha)⟩
      · rw [updateVelocity_near h0 hp ha]
        obtain ⟨sa, ea⟩ := ih1 w1
        have fa := updateVelocity_frame ea
        obtain ⟨sb, eb⟩ := ih2 (wf_congr (fun i _ => ⟨(fa i).2.1, (fa i).1⟩) w2)
        have fb := updateVelocity_frame eb
        obtain ⟨sc, ec⟩ := ih3 (wf_congr (fun i _ =>
          ⟨(fb i).2.1.trans (fa i).2.1, (fb i).1.trans (fa i).1⟩) w3)
        have fc := updateVelocity_frame ec
        obtain ⟨sd, ed⟩ := ih4 (wf_congr (fun i _ =>
          ⟨(fc i).2.1.trans ((fb i).2.1.trans (fa i).2.1),
            (fc i).1.trans ((fb i).1.trans (fa i).1)⟩) w4)
        exact ⟨sd, by simp [ea, eb, ec, ed]⟩

theorem updateVelocities_total {sqrt : ℚ → ℚ} {root : QuadTree} {dt theta : ℚ}
    (t : QuadTree) : ∀ {s : Store}, WellFormed s root →
      ∃ s1, UpdateVelocities sqrt root dt theta t s = some s1 := by
  induction t with
  | leaf d =>
    intro s w
    rw [UpdateVelocities]
    cases hp : d.particle_ with
    | none => exact ⟨s, rfl⟩
    | some held => exact updateVelocity_total w
  | inner d nw ne sw se ih1 ih2 ih3 ih4 =>
    intro s w
    rw [UpdateVelocities]
    obtain ⟨sa, ea⟩ := ih1 w
    have wa := wf_updateVelocities ea w
    obtain ⟨sb, eb⟩ := ih2 wa
    have wb := wf_updateVelocities eb wa
    obtain ⟨sc, ec⟩ := ih3 wb
    have wc := wf_updateVelocities ec wb
    obtain ⟨sd, ed⟩ := ih4 wc
    exact ⟨sd, by simp [ea, eb, ec, ed]⟩

/-! ### theta = 0: the traversal is the brute-force sum -/

theorem vector_add_zero_left (v : Vector) : Vector.add ⟨0, 0⟩ v = v := by
  simp [Vector.add]

theorem vector_add_zero_right (v : Vector) : Vector.add v ⟨0, 0⟩ = v := by
  simp [Vector.add]

theorem vector_add_assoc (a b c : Vector) :
    Vector.add (Vector.add a b) c = Vector.add a (Vector.add b c) := by
  simp [Vector.add, add_assoc]

theorem addVel_zero (s : Store) (p : Nat) : addVel s p ⟨0, 0⟩ = s := by
  unfold addVel
  rw [vector_add_zero_right]
  exact Function.update_eq_self p s

theorem addVel_addVel (s : Store) (p : Nat) (a b : Vector) :
    addVel (addVel s p a) p b = addVel s p (Vector.add a b) := by
  unfold addVel
  simp [vector_add_assoc]

theorem addVel_vel (s : Store) (p : Nat) (v : Vector) :
    (addVel s p v p).vel = Vector.add (s p).vel v := by
  simp [addVel]

theorem pairwise_congr {sqrt : ℚ → ℚ} {s s1 : Store} {dt : ℚ}
    (h : ∀ i, (s1 i).pos = (s i).pos ∧ (s1 i).mass = (s i).mass) (i j : Nat) :
    pairwise sqrt s1 dt i j = pairwise sqrt s dt i j := by
  unfold pairwise
  rw [(h i).1, (h j).1, (h j).2]

theorem bruteForce_congr {sqrt : ℚ → ℚ} {s s1 : Store} {dt : ℚ}
    (h : ∀ i, (s1 i).pos = (s i).pos ∧ (s1 i).mass = (s i).mass) (i : Nat) (l : List Nat) :
    bruteForce sqrt s1 dt i l = bruteForce sqrt s dt i l := by
  induction l with
  | nil => rfl
  | cons j l ih => simp only [bruteForce, ih, pairwise_congr h]

theorem bruteForce_append (sqrt : ℚ → ℚ) (s : Store) (dt : ℚ) (i : Nat) (l1 l2 : List Nat) :
    bruteForce sqrt s dt i (l1 ++ l2) =
      Vector.add (bruteForce sqrt s dt i l1) (bruteForce sqrt s dt i l2) := by
  induction l1 with
  | nil => simp [bruteForce, vector_add_zero_left]
  | cons j l ih =>
    rw [List.cons_append]
    simp only [bruteForce]
    split
    · exact ih
    · rw [ih, vector_add_assoc]

theorem clamp_eq_max (x : ℚ) : clamp x = max x (1 / 1000000) := by
  unfold clamp
  split
  · rename_i h; exact (max_eq_right (le_of_lt h)).symm
  · rename_i h; exact (max_eq_left (not_lt.1 h)).symm

theorem clamp_pos (x : ℚ) : 0 < clamp x := by
  rw [clamp_eq_max]
  exact lt_of_lt_of_le (by norm_num) (le_max_right _ _)

/-- With theta = 0 the admissibility test `width² / dist_sq < theta²` is false. -/
theorem not_admissible_zero (w x : ℚ) : ¬ w * w / clamp x < 0 * 0 := by
  rw [zero_mul, not_lt]
  exact div_nonneg (mul_self_nonneg w) (le_of_lt (clamp_pos x))

theorem magnitudeSquared_sub_comm (a b : Vector) :
    (Vector.sub a b).MagnitudeSquared = (Vector.sub b a).MagnitudeSquared := by
  simp only [Vector.sub, Vector.MagnitudeSquared]
  ring

theorem leafCom_congr {s s1 : Store} {t : QuadTree} (h : ∀ i, (s1 i).pos = (s i).pos)
    (c : LeafCom s t) : LeafCom s1 t := by
  induction t with
  | leaf d =>
    simp only [LeafCom] at c ⊢
    intro p hp
    rw [h p]
    exact c p hp
  | inner d nw ne sw se ih1 ih2 ih3 ih4 =>
    simp only [LeafCom] at c ⊢
    exact ⟨ih1 c.1, ih2 c.2.1, ih3 c.2.2.1, ih4 c.2.2.2⟩

/-- With theta = 0, `UpdateVelocity` on a well-formed tree adds to the target's
velocity the brute-force sum over the particles of the tree. -/
theorem updateVelocity_theta_zero {sqrt : ℚ → ℚ} {p : Nat} {dt : ℚ} {t : QuadTree} :
    ∀ {s : Store}, WellFormed s t → LeafCom s t →
      UpdateVelocity sqrt p dt 0 t s =
        some (addVel s p (bruteForce sqrt s dt p (bodies t))) := by
  induction t with
  | leaf d =>
    intro s w c
    simp only [WellFormed] at w
    simp only [LeafCom] at c
    cases hp : d.particle_ with
    | none =>
      simp only [hp] at w
      rw [updateVelocity_skip (Or.inr (by simpa using w.1))]
      simp [hp, bruteForce, addVel_zero]
    | some held =>
      simp only [hp] at w
      by_cases hq : held = p
      · rw [updateVelocity_skip (Or.inl (by simp [hp, hq]))]
        simp [hp, hq, bruteForce, addVel_zero]
      · rw [updateVelocity_held (by simp [hp, w.1, Ne.symm hq]) (by simpa using hp)]
        simp only [data_leaf, bodies_leaf, hp, Option.toList_some, bruteForce, hq, if_false,
          vector_add_zero_right, pairwise, c held hp, clamp_eq_max]
        rw [magnitudeSquared_sub_comm]
  | inner d nw ne sw se ih1 ih2 ih3 ih4 =>
    intro s w c
    simp only [WellFormed] at w
    simp only [LeafCom] at c
    obtain ⟨hp, h2, -, -, -, -, -, -, w1, w2, w3, w4⟩ := w
    obtain ⟨c1, c2, c3, c4⟩ := c
    rw [updateVelocity_near (by simp [hp]; omega) hp (not_admissible_zero _ _)]
    have fa := addVel_frame s p (bruteForce sqrt s dt p (bodies nw))
    have ga : ∀ i, ((addVel s p (bruteForce sqrt s dt p (bodies nw))) i).pos = (s i).pos ∧
        ((addVel s p (bruteForce sqrt s dt p (bodies nw))) i).mass = (s i).mass :=
      fun i => ⟨(fa i).1, (fa i).2.1⟩
    rw [ih1 w1 c1]
    simp only [Option.some_bind]
    rw [ih2 (wf_congr (fun i _ => ⟨(ga i).2, (ga i).1⟩) w2) (leafCom_congr (fun i => (ga i).1) c2),
      bruteForce_congr ga, addVel_addVel]
    simp only [Option.some_bind]
    have fb := addVel_frame s p (Vector.add (bruteForce sqrt s dt p (bodies nw))
      (bruteForce sqrt s dt p (bodies ne)))
    have gb : ∀ i, ((addVel s p (Vector.add (bruteForce sqrt s dt p (bodies nw))
        (bruteForce sqrt s dt p (bodies ne)))) i).pos = (s i).pos ∧
        ((addVel s p (Vector.add (bruteForce sqrt s dt p (bodies nw))
        (bruteForce sqrt s dt p (bodies ne)))) i).mass = (s i).mass :=
      fun i => ⟨(fb i).1, (fb i).2.1⟩
    rw [ih3 (wf_congr (fun i _ => ⟨(gb i).2, (gb i).1⟩) w3) (leafCom_congr (fun i => (gb i).1) c3),
      bruteForce_congr gb, addVel_addVel]
    simp only [Option.some_bind]
    have fc := addVel_frame s p (Vector.add (Vector.add (bruteForce sqrt s dt p (bodies nw))
      (bruteForce sqrt s dt p (bodies ne))) (bruteForce sqrt s dt p (bodies sw)))
    have gc : ∀ i, ((addVel s p (Vector.add (Vector.add (bruteForce sqrt s dt p (bodies nw))
        (bruteForce sqrt s dt p (bodies ne))) (bruteForce sqrt s dt p (bodies sw)))) i).pos =
          (s i).pos ∧
        ((addVel s p (Vector.add (Vector.add (bruteForce sqrt s dt p (bodies nw))
        (bruteForce sqrt s dt p (bodies ne))) (bruteForce sqrt s dt p (bodies sw)))) i).mass =
          (s i).mass :=
      fun i => ⟨(fc i).1, (fc i).2.1⟩
    rw [ih4 (wf_congr (fun i _ => ⟨(gc i).2, (gc i).1⟩) w4) (leafCom_congr (fun i => (gc i).1) c4),
      bruteForce_congr gc, addVel_addVel]
    simp only [bodies_inner, bruteForce_append]

/-- With theta = 0, `UpdateVelocities` adds to the velocity of every particle of the
traversed subtree the brute-force sum over the particles of the root. -/
theorem updateVelocities_theta_zero {sqrt : ℚ → ℚ} {root : QuadTree} {dt : ℚ} {s0 : Store}
    (w : WellFormed s0 root) (c : LeafCom s0 root) (t : QuadTree) :
    ∀ {s : Store}, (∀ i, (s i).pos = (s0 i).pos ∧ (s i).mass = (s0 i).mass) →
      (bodies t).Nodup →
      ∃ s1, UpdateVelocities sqrt root dt 0 t s = some s1 ∧
        ∀ i ∈ bodies t,
          (s1 i).vel = Vector.add (s i).vel (bruteForce sqrt s0 dt i (bodies root)) := by
  induction t with
  | leaf d =>
    intro s hs _
    rw [UpdateVelocities]
    cases hp : d.particle_ with
    | none => exact ⟨s, rfl, by simp [hp]⟩
    | some held =>
      refine ⟨_, updateVelocity_theta_zero (wf_congr (fun i _ => ⟨(hs i).2, (hs i).1⟩) w)
        (leafCom_congr (fun i => (hs i).1) c), ?_⟩
      intro i hi
      simp only [bodies_leaf, hp, Option.toList_some, List.mem_singleton] at hi
      subst hi
      rw [addVel_vel, bruteForce_congr hs]
  | inner d nw ne sw se ih1 ih2 ih3 ih4 =>
    intro s hs nd
    rw [UpdateVelocities]
    simp only [bodies_inner] at nd
    rw [List.nodup_append, List.nodup_append, List.nodup_append] at nd
    obtain ⟨⟨⟨n1, n2, d12⟩, n3, d123⟩, n4, d1234⟩ := nd
    obtain ⟨sa, ea, va⟩ := ih1 hs n1
    have fa := updateVelocities_frame ea
    have ha : ∀ i, (sa i).pos = (s0 i).pos ∧ (sa i).mass = (s0 i).mass :=
      fun i => ⟨(fa i).1.trans (hs i).1, (fa i).2.1.trans (hs i).2⟩
    obtain ⟨sb, eb, vb⟩ := ih2 ha n2
    have fb := updateVelocities_frame eb
    have hb : ∀ i, (sb i).pos = (s0 i).pos ∧ (sb i).mass = (s0 i).mass :=
      fun i => ⟨(fb i).1.trans (ha i).1, (fb i).2.1.trans (ha i).2⟩
    obtain ⟨sc, ec, vc⟩ := ih3 hb n3
    have fc := updateVelocities_frame ec
    have hc : ∀ i, (sc i).pos = (s0 i).pos ∧ (sc i).mass = (s0 i).mass :=
      fun i => ⟨(fc i).1.trans (hb i).1, (fc i).2.1.trans (hb i).2⟩
    obtain ⟨sd, ed, vd⟩ := ih4 hc n4
    have fd := updateVelocities_frame ed
    refine ⟨sd, by simp [ea, eb, ec, ed], ?_⟩
    intro i hi
    simp only [bodies_inner, List.mem_append] at hi
    rcases hi with ((hi | hi) | hi) | hi
    · have x2 : i ∉ bodies ne := fun h => d12 hi h
      have x3 : i ∉ bodies sw := fun h => d123 (List.mem_append_left _ hi) h
      have x4 : i ∉ bodies se :=
        fun h => d1234 (List.mem_append_left _ (List.mem_append_left _ hi)) h
      rw [(fd i).2.2 x4, (fc i).2.2 x3, (fb i).2.2 x2]
      exact va i hi
    · have x1 : i ∉ bodies nw := fun h => d12 h hi
      have x3 : i ∉ bodies sw := fun h => d123 (List.mem_append_right _ hi) h
      have x4 : i ∉ bodies se :=
        fun h => d1234 (List.mem_append_left _ (List.mem_append_right _ hi)) h
      rw [(fd i).2.2 x4, (fc i).2.2 x3, vb i hi, (fa i).2.2 x1]
    · have x1 : i ∉ bodies nw := fun h => d123 (List.mem_append_left _ h) hi
      have x2 : i ∉ bodies ne := fun h => d123 (List.mem_append_right _ h) hi
      have x4 : i ∉ bodies se := fun h => d1234 (List.mem_append_right _ hi) h
      rw [(fd i).2.2 x4, vc i hi, (fb i).2.2 x2, (fa i).2.2 x1]
    · have x1 : i ∉ bodies nw :=
        fun h => d1234 (List.mem_append_left _ (List.mem_append_left _ h)) hi
      have x2 : i ∉ bodies ne :=
        fun h => d1234 (List.mem_append_left _ (List.mem_append_right _ h)) hi
      have x3 : i ∉ bodies sw := fun h => d1234 (List.mem_append_right _ h) hi
      rw [vd i hi, (fc i).2.2 x3, (fb i).2.2 x2, (fa i).2.2 x1]

/-! ### Unfolding `UpdatePositions` -/

theorem updatePositions_empty {fuel : Nat} {dt : ℚ} {t : QuadTree} {s : Store}
    (h : t.data.count_ = 0) : t.UpdatePositions fuel dt s = some (t, s, []) := by
  cases t <;> rw [UpdatePositions] <;> simp only [h, if_true]

theorem updatePositions_held {fuel : Nat} {dt : ℚ} {t : QuadTree} {s : Store} {held : Nat}
    (h : t.data.count_ ≠ 0) (hp : t.data.particle_ = some held) :
    t.UpdatePositions fuel dt s =
      if t.data.bounds_.Contains (advance dt [held] s held).pos = true then
        some (t.setData { t.data with centre_of_mass_ := (advance dt [held] s held).pos },
          advance dt [held] s, [])
      else
        some (t.setData ⟨none, t.data.count_ - 1, 0, ⟨0, 0⟩, t.data.bounds_⟩,
          advance dt [held] s, [held]) := by
  have e : Function.update s held { s held with
      pos := Vector.add (s held).pos (Vector.muls (s held).vel dt) } = advance dt [held] s := by
    funext i
    by_cases hi : i = held
    · subst hi; simp [advance]
    · simp [advance, hi, Function.update_noteq hi]
  cases t <;> rw [UpdatePositions] <;> simp only [h, if_false] <;> simp only [hp] <;>
    simp only [e] <;> split <;> simp_all

theorem updatePositions_inner {fuel : Nat} {dt : ℚ} {d : NodeData} {nw ne sw se : QuadTree}
    {s : Store} (h : d.count_ ≠ 0) (hp : d.particle_ = none) :
    (inner d nw ne sw se).UpdatePositions fuel dt s =
      (nw.UpdatePositions fuel dt s).bind fun r1 =>
      (ne.UpdatePositions fuel dt r1.2.1).bind fun r2 =>
      (sw.UpdatePositions fuel dt r2.2.1).bind fun r3 =>
      (se.UpdatePositions fuel dt r3.2.1).bind fun r4 =>
      (reinsert r4.2.1 fuel d.bounds_ (r1.2.2 ++ r2.2.2 ++ r3.2.2 ++ r4.2.2)
        (r1.1, r2.1, r3.1, r4.1)).bind fun c =>
        some (recompute d c.1.1 c.1.2.1 c.1.2.2.1 c.1.2.2.2 c.2, r4.2.1, c.2) := by
  rw [UpdatePositions]
  simp only [data_inner, h, if_false]
  simp only [hp]
  rfl

theorem updatePositions_null {fuel : Nat} {dt : ℚ} {d : NodeData} {s : Store}
    (h : d.count_ ≠ 0) (hp : d.particle_ = none) :
    (leaf d).UpdatePositions fuel dt s = none := by
  rw [UpdatePositions]
  simp only [data_leaf, h, if_false]
  simp only [hp]

/-! ### The end of `UpdatePositions`: aggregate, count and merge -/

theorem epsilon_pos : 0 < epsilon := by
  unfold epsilon
  positivity

theorem massSum_ge_epsilon {s : Store} (hm : ∀ i, epsilon ≤ (s i).mass) {l : List Nat}
    (hl : l ≠ []) : epsilon ≤ massSum s l := by
  cases l with
  | nil => exact absurd rfl hl
  | cons a l =>
    rw [massSum_cons]
    have := massSum_nonneg (fun i => lt_of_lt_of_le epsilon_pos (hm i)) l
    linarith [hm a]

theorem wf_small {s : Store} {t : QuadTree} (w : WellFormed s t) (h : (bodies t).length ≤ 1) :
    t.data.particle_.toList = bodies t := by
  cases t with
  | leaf d => rfl
  | inner d nw ne sw se =>
    have := wf_count w
    simp only [WellFormed] at w
    simp only [data_inner] at this
    omega

theorem wf_leaf_of_list {s : Store} {d : NodeData} {l : List Nat}
    (hl : d.particle_.toList = l) (hc : d.count_ = l.length) (hm : d.mass_ = massSum s l)
    (hb : ∀ p ∈ l, d.bounds_.Contains (s p).pos = true) : WellFormed s (leaf d) := by
  subst hl
  simp only [WellFormed]
  cases hp : d.particle_ with
  | none => simpa [hp] using And.intro hc hm
  | some p =>
    simp only [hp, Option.toList_some, List.length_singleton, massSum_cons, massSum_nil,
      add_zero, List.mem_singleton, forall_eq] at hc hm hb
    exact ⟨hc, hm, hb⟩

theorem comInv_top {s : Store} {t : QuadTree} (c : ComInv s t) :
    Vector.smul t.data.mass_ t.data.centre_of_mass_ = moment s (bodies t) := by
  cases t with
  | leaf d => exact c
  | inner d nw ne sw se => exact c.1

theorem subSize_add (n k : Nat) : subSize (n + k) k = n := by
  unfold subSize
  simp

theorem smul_div_cancel (M : ℚ) (v : Vector) (h : M ≠ 0) :
    Vector.smul M (Vector.div v M) = v := by
  cases v
  simp only [Vector.smul, Vector.div, Vector.mk.injEq]
  constructor <;> field_simp

theorem recompute_post {s : Store} {d : NodeData} {nw ne sw se : QuadTree}
    {particles : List Nat} (hp : d.particle_ = none)
    (hcount : d.count_ =
      (bodies nw ++ bodies ne ++ bodies sw ++ bodies se).length + particles.length)
    (b1 : nw.data.bounds_ = d.bounds_.Partition 0) (b2 : ne.data.bounds_ = d.bounds_.Partition 1)
    (b3 : sw.data.bounds_ = d.bounds_.Partition 2) (b4 : se.data.bounds_ = d.bounds_.Partition 3)
    (w1 : WellFormed s nw) (w2 : WellFormed s ne) (w3 : WellFormed s sw)
    (w4 : WellFormed s se) :
    WellFormed s (recompute d nw ne sw se particles) ∧
    (recompute d nw ne sw se particles).data.bounds_ = d.bounds_ ∧
    bodies (recompute d nw ne sw se particles) =
      bodies nw ++ bodies ne ++ bodies sw ++ bodies se ∧
    ((∀ i, epsilon ≤ (s i).mass) → ComInv s nw → ComInv s ne → ComInv s sw → ComInv s se →
      ComInv s (recompute d nw ne sw se particles)) := by
  have hmass : 0 + nw.data.mass_ + ne.data.mass_ + sw.data.mass_ + se.data.mass_ =
      massSum s (bodies nw ++ bodies ne ++ bodies sw ++ bodies se) := by
    simp only [massSum_append, wf_mass w1, wf_mass w2, wf_mass w3, wf_mass w4]
    ring
  have hcont : ∀ p ∈ bodies nw ++ bodies ne ++ bodies sw ++ bodies se,
      d.bounds_.Contains (s p).pos = true := by
    intro p hp
    simp only [List.mem_append] at hp
    rcases hp with ((hp | hp) | hp) | hp
    · exact d.bounds_.partition_sub _ 0 (b1 ▸ wf_contains w1 p hp)
    · exact d.bounds_.partition_sub _ 1 (b2 ▸ wf_contains w2 p hp)
    · exact d.bounds_.partition_sub _ 2 (b3 ▸ wf_contains w3 p hp)
    · exact d.bounds_.partition_sub _ 3 (b4 ▸ wf_contains w4 p hp)
  have hcom : (∀ i, epsilon ≤ (s i).mass) → ComInv s nw → ComInv s ne → ComInv s sw →
      ComInv s se →
      Vector.smul (0 + nw.data.mass_ + ne.data.mass_ + sw.data.mass_ + se.data.mass_)
        (if |0 + nw.data.mass_ + ne.data.mass_ + sw.data.mass_ + se.data.mass_| < epsilon then
          (⟨d.bounds_.l + d.bounds_.width / 2, d.bounds_.b + d.bounds_.height / 2⟩ : Vector)
        else Vector.div (Vector.add (Vector.add (Vector.add (Vector.add ⟨0, 0⟩
          (Vector.muls nw.data.centre_of_mass_ nw.data.mass_))
          (Vector.muls ne.data.centre_of_mass_ ne.data.mass_))
          (Vector.muls sw.data.centre_of_mass_ sw.data.mass_))
          (Vector.muls se.data.centre_of_mass_ se.data.mass_))
          (0 + nw.data.mass_ + ne.data.mass_ + sw.data.mass_ + se.data.mass_)) =
      moment s (bodies nw ++ bodies ne ++ bodies sw ++ bodies se) := by
    intro hm c1 c2 c3 c4
    rw [hmass]
    by_cases hl : bodies nw ++ bodies ne ++ bodies sw ++ bodies se = []
    · rw [hl]
      simp [Vector.smul]
    · have hge := massSum_ge_epsilon hm hl
      have hpos := epsilon_pos
      rw [if_neg (by rw [abs_of_nonneg (by linarith)]; linarith)]
      rw [smul_div_cancel _ _ (by linarith)]
      simp only [moment_append, ← comInv_top c1, ← comInv_top c2, ← comInv_top c3,
        ← comInv_top c4, Vector.muls, vector_add_zero_left]
  unfold recompute
  simp only [hcount, subSize_add]
  split
  · rename_i hle
    have e1 := wf_count w1
    have e2 := wf_count w2
    have e3 := wf_count w3
    have e4 := wf_count w4
    simp only [List.length_append] at hle
    have hb : (Merge { d with
        mass_ := 0 + nw.data.mass_ + ne.data.mass_ + sw.data.mass_ + se.data.mass_,
        centre_of_mass_ :=
          if |0 + nw.data.mass_ + ne.data.mass_ + sw.data.mass_ + se.data.mass_| < epsilon then
            (⟨d.bounds_.l + d.bounds_.width / 2, d.bounds_.b + d.bounds_.height / 2⟩ : Vector)
          else Vector.div (Vector.add (Vector.add (Vector.add (Vector.add ⟨0, 0⟩
            (Vector.muls nw.data.centre_of_mass_ nw.data.mass_))
            (Vector.muls ne.data.centre_of_mass_ ne.data.mass_))
            (Vector.muls sw.data.centre_of_mass_ sw.data.mass_))
            (Vector.muls se.data.centre_of_mass_ se.data.mass_))
            (0 + nw.data.mass_ + ne.data.mass_ + sw.data.mass_ + se.data.mass_),
        count_ := (bodies nw ++ bodies ne ++ bodies sw ++ bodies se).length }
        nw ne sw se).data.particle_.toList =
        bodies nw ++ bodies ne ++ bodies sw ++ bodies se := by
      simp only [Merge, data_leaf, e1, e2, e3, e4]
      split_ifs with g1 g2 g3 g4
      · rw [wf_small w1 (by omega), List.eq_nil_of_length_eq_zero (by omega : (bodies ne).length = 0),
          List.eq_nil_of_length_eq_zero (by omega : (bodies sw).length = 0),
          List.eq_nil_of_length_eq_zero (by omega : (bodies se).length = 0)]
        simp
      · rw [wf_small w2 (by omega), List.eq_nil_of_length_eq_zero (by omega : (bodies nw).length = 0),
          List.eq_nil_of_length_eq_zero (by omega : (bodies sw).length = 0),
          List.eq_nil_of_length_eq_zero (by omega : (bodies se).length = 0)]
        simp
      · rw [wf_small w3 (by omega), List.eq_nil_of_length_eq_zero (by omega : (bodies nw).length = 0),
          List.eq_nil_of_length_eq_zero (by omega : (bodies ne).length = 0),
          List.eq_nil_of_length_eq_zero (by omega : (bodies se).length = 0)]
        simp
      · rw [wf_small w4 (by omega), List.eq_nil_of_length_eq_zero (by omega : (bodies nw).length = 0),
          List.eq_nil_of_length_eq_zero (by omega : (bodies ne).length = 0),
          List.eq_nil_of_length_eq_zero (by omega : (bodies sw).length = 0)]
        simp
      · rw [hp, List.eq_nil_of_length_eq_zero (by omega : (bodies nw).length = 0),
          List.eq_nil_of_length_eq_zero (by omega : (bodies ne).length = 0),
          List.eq_nil_of_length_eq_zero (by omega : (bodies sw).length = 0),
          List.eq_nil_of_length_eq_zero (by omega : (bodies se).length = 0)]
        simp
    refine ⟨wf_leaf_of_list hb rfl hmass hcont, rfl, hb, ?_⟩
    intro hm c1 c2 c3 c4
    have := hcom hm c1 c2 c3 c4
    unfold Merge at hb ⊢
    simp only [data_leaf] at hb
    simp only [ComInv, hb]
    exact this
  · rename_i hgt
    refine ⟨?_, rfl, rfl, ?_⟩
    · simp only [WellFormed]
      exact ⟨hp, by omega, trivial, hmass, b1, b2, b3, b4, w1, w2, w3, w4⟩
    · intro hm c1 c2 c3 c4
      simp only [ComInv]
      exact ⟨hcom hm c1 c2 c3 c4, c1, c2, c3, c4⟩

/-! ### The loop of `UpdatePositions` over the escaped particles -/

theorem reinsert_post {s : Store} {fuel : Nat} {R : AABB} :
    ∀ (l : List Nat) {nw ne sw se nw2 ne2 sw2 se2 : QuadTree} {rest : List Nat},
      nw.data.bounds_ = R.Partition 0 → ne.data.bounds_ = R.Partition 1 →
      sw.data.bounds_ = R.Partition 2 → se.data.bounds_ = R.Partition 3 →
      WellFormed s nw → WellFormed s ne → WellFormed s sw → WellFormed s se →
      reinsert s fuel R l (nw, ne, sw, se) = some ((nw2, ne2, sw2, se2), rest) →
      (nw2.data.bounds_ = R.Partition 0 ∧ ne2.data.bounds_ = R.Partition 1 ∧
        sw2.data.bounds_ = R.Partition 2 ∧ se2.data.bounds_ = R.Partition 3) ∧
      (WellFormed s nw2 ∧ WellFormed s ne2 ∧ WellFormed s sw2 ∧ WellFormed s se2) ∧
      ((bodies nw2 ++ bodies ne2 ++ bodies sw2 ++ bodies se2) ++ rest).Perm
        ((bodies nw ++ bodies ne ++ bodies sw ++ bodies se) ++ l) ∧
      (∀ p ∈ rest, R.Contains (s p).pos = false) ∧
      ((∀ i, 0 < (s i).mass) → ComInv s nw → ComInv s ne → ComInv s sw → ComInv s se →
        ComInv s nw2 ∧ ComInv s ne2 ∧ ComInv s sw2 ∧ ComInv s se2) := by
  intro l
  induction l with
  | nil =>
    intro nw ne sw se nw2 ne2 sw2 se2 rest b1 b2 b3 b4 w1 w2 w3 w4 h
    rw [reinsert] at h
    simp only [Option.some.injEq, Prod.mk.injEq] at h
    obtain ⟨⟨rfl, rfl, rfl, rfl⟩, rfl⟩ := h
    exact ⟨⟨b1, b2, b3, b4⟩, ⟨w1, w2, w3, w4⟩, List.Perm.refl _, by simp,
      fun _ c1 c2 c3 c4 => ⟨c1, c2, c3, c4⟩⟩
  | cons p ps ih =>
    intro nw ne sw se nw2 ne2 sw2 se2 rest b1 b2 b3 b4 w1 w2 w3 w4 h
    rw [reinsert] at h
    by_cases hR : R.Contains (s p).pos = true
    · simp only [hR, Bool.not_true, Bool.false_eq_true, if_false, Option.bind_eq_bind,
        Option.bind_eq_some] at h
      obtain ⟨nw1, e1, ne1, e2, sw1, e3, se1, e4, h⟩ := h
      obtain ⟨⟨c1, c2, c3, c4⟩, ⟨v1, v2, v3, v4⟩, pm, cm⟩ :=
        insertPost_children hR b1 b2 b3 b4 w1 w2 w3 w4 (insert_post s p _ _ _ w1 e1)
          (insert_post s p _ _ _ w2 e2) (insert_post s p _ _ _ w3 e3)
          (insert_post s p _ _ _ w4 e4)
      obtain ⟨k1, k2, k3, k4, k5⟩ := ih c1 c2 c3 c4 v1 v2 v3 v4 h
      refine ⟨k1, k2, ?_, k4, ?_⟩
      · rw [List.perm_iff_count]
        intro a
        have x := k3.count_eq a
        have y := pm.count_eq a
        simp only [List.count_append, List.count_cons] at x y ⊢
        omega
      · intro hm g1 g2 g3 g4
        obtain ⟨f1, f2, f3, f4⟩ := cm hm g1 g2 g3 g4
        exact k5 hm f1 f2 f3 f4
    · simp only [hR, Bool.not_false, if_true, Option.bind_eq_bind, Option.bind_eq_some,
        Bool.not_eq_true] at h
      obtain ⟨⟨⟨na, nb, nc, nd⟩, rest1⟩, h1, h⟩ := h
      simp only [Option.some.injEq, Prod.mk.injEq] at h
      obtain ⟨⟨rfl, rfl, rfl, rfl⟩, rfl⟩ := h
      obtain ⟨k1, k2, k3, k4, k5⟩ := ih b1 b2 b3 b4 w1 w2 w3 w4 h1
      refine ⟨k1, k2, ?_, ?_, k5⟩
      · rw [List.perm_iff_count]
        intro a
        have x := k3.count_eq a
        simp only [List.count_append, List.count_cons] at x ⊢
        omega
      · intro q hq
        simp only [List.mem_cons] at hq
        rcases hq with rfl | hq
        · simpa using hR
        · exact k4 q hq

/-! ### `advance` -/

theorem advance_agree {dt : ℚ} {l : List Nat} {s : Store} {i : Nat} (h : i ∉ l) :
    advance dt l s i = s i := by
  simp [advance, h]

theorem advance_mass (dt : ℚ) (l : List Nat) (s : Store) (i : Nat) :
    (advance dt l s i).mass = (s i).mass := by
  unfold advance
  split <;> rfl

theorem advance_vel (dt : ℚ) (l : List Nat) (s : Store) (i : Nat) :
    (advance dt l s i).vel = (s i).vel := by
  unfold advance
  split <;> rfl

theorem advance_nil (dt : ℚ) (s : Store) : advance dt [] s = s := by
  funext i
  simp [advance]

theorem advance_append {dt : ℚ} {l1 l2 : List Nat} (s : Store) (h : List.Disjoint l1 l2) :
    advance dt l2 (advance dt l1 s) = advance dt (l1 ++ l2) s := by
  funext i
  by_cases h1 : i ∈ l1
  · have h2 : i ∉ l2 := fun h2 => h h1 h2
    simp [advance, h1, h2]
  · by_cases h2 : i ∈ l2 <;> simp [advance, h1, h2]

theorem comInv_congr {s s1 : Store} {t : QuadTree}
    (h : ∀ i ∈ bodies t, (s1 i).mass = (s i).mass ∧ (s1 i).pos = (s i).pos)
    (c : ComInv s t) : ComInv s1 t := by
  induction t with
  | leaf d =>
    simp only [ComInv] at c ⊢
    rw [c]
    exact (moment_congr h).symm
  | inner d nw ne sw se ih1 ih2 ih3 ih4 =>
    simp only [ComInv] at c ⊢
    obtain ⟨c0, c1, c2, c3, c4⟩ := c
    simp only [bodies_inner, List.mem_append] at h
    refine ⟨?_, ih1 ?_ c1, ih2 ?_ c2, ih3 ?_ c3, ih4 ?_ c4⟩
    · rw [c0]
      symm
      apply moment_congr
      intro i hi
      simp only [List.mem_append] at hi
      exact h i hi
    · exact fun i hi => h i (Or.inl (Or.inl (Or.inl hi)))
    · exact fun i hi => h i (Or.inl (Or.inl (Or.inr hi)))
    · exact fun i hi => h i (Or.inl (Or.inr hi))
    · exact fun i hi => h i (Or.inr hi)

/-! ### `UpdatePositions` keeps the tree well-formed -/

/-- What a returning `UpdatePositions` establishes on a well-formed tree: every
particle of the tree has been moved once, the result is well-formed over the same
region, the particles are split between the result and the returned vector, the
returned ones lie outside the region, and (masses at least `epsilon`) the
aggregates are the mass-weighted sums. -/
theorem updatePositions_post {fuel : Nat} {dt : ℚ} :
    ∀ (t : QuadTree) {s s1 : Store} {t1 : QuadTree} {esc : List Nat},
      WellFormed s t → t.UpdatePositions fuel dt s = some (t1, s1, esc) →
      s1 = advance dt (bodies t) s ∧ WellFormed s1 t1 ∧ t1.data.bounds_ = t.data.bounds_ ∧
      (bodies t1 ++ esc).Perm (bodies t) ∧
      (∀ p ∈ esc, t.data.bounds_.Contains (s1 p).pos = false) ∧
      ((∀ i, epsilon ≤ (s i).mass) → ComInv s1 t1) := by
  intro t
  induction t with
  | leaf d =>
    intro s s1 t1 esc w h
    simp only [WellFormed] at w
    cases hp : d.particle_ with
    | none =>
      simp only [hp] at w
      rw [updatePositions_empty (by simpa using w.1)] at h
      simp only [Option.some.injEq, Prod.mk.injEq] at h
      obtain ⟨rfl, rfl, rfl⟩ := h
      simp only [bodies_leaf, hp, Option.toList_none, advance_nil, List.append_nil,
        List.not_mem_nil, false_implies, implies_true, true_and, WellFormed, ComInv,
        moment_nil, w.2, Vector.smul, zero_mul, and_true]
      exact ⟨w.1, List.Perm.refl _⟩
    | some held =>
      simp only [hp] at w
      obtain ⟨wc, wm, wb⟩ := w
      rw [updatePositions_held (by simp [wc]) (by simpa using hp)] at h
      simp only [data_leaf, setData_leaf] at h
      split at h
      · rename_i hin
        simp only [Option.some.injEq, Prod.mk.injEq] at h
        obtain ⟨rfl, rfl, rfl⟩ := h
        simp only [bodies_leaf, hp, Option.toList_some, List.append_nil, List.not_mem_nil,
          false_implies, implies_true, true_and, WellFormed, ComInv, data_leaf, advance_mass,
          moment_cons, moment_nil, and_true]
        refine ⟨⟨wc, wm, hin⟩, List.Perm.refl _, fun _ => ?_⟩
        simp [Vector.add, Vector.smul, wm]
      · rename_i hout
        simp only [Option.some.injEq, Prod.mk.injEq] at h
        obtain ⟨rfl, rfl, rfl⟩ := h
        simp only [bodies_leaf, hp, Option.toList_some, Option.toList_none, List.nil_append,
          List.mem_singleton, forall_eq, true_and, WellFormed, ComInv, data_leaf, moment_nil,
          Vector.smul, zero_mul, wc, implies_true, and_true]
        exact ⟨List.Perm.refl _, by simpa using hout⟩
  | inner d nw ne sw se ih1 ih2 ih3 ih4 =>
    intro s s1 t1 esc w h
    have w0 := w
    simp only [WellFormed] at w
    obtain ⟨hp, h2, hcount, hmass, b1, b2, b3, b4, w1, w2, w3, w4⟩ := w
    have d12 := wf_disjoint (by decide : (0 : Fin 4) ≠ 1) b1 b2 w1 w2
    have d13 := wf_disjoint (by decide : (0 : Fin 4) ≠ 2) b1 b3 w1 w3
    have d14 := wf_disjoint (by decide : (0 : Fin 4) ≠ 3) b1 b4 w1 w4
    have d23 := wf_disjoint (by decide : (1 : Fin 4) ≠ 2) b2 b3 w2 w3
    have d24 := wf_disjoint (by decide : (1 : Fin 4) ≠ 3) b2 b4 w2 w4
    have d34 := wf_disjoint (by decide : (2 : Fin 4) ≠ 3) b3 b4 w3 w4
    rw [updatePositions_inner (by omega) hp] at h
    simp only [Option.bind_eq_some] at h
    obtain ⟨⟨nw1, sA, e1⟩, r1, ⟨ne1, sB, e2⟩, r2, ⟨sw1, sC, e3⟩, r3, ⟨se1, sD, e4⟩, r4,
      ⟨⟨nw2, ne2, sw2, se2⟩, rest⟩, r5, h⟩ := h
    simp only [Option.some.injEq, Prod.mk.injEq] at h
    obtain ⟨rfl, rfl, rfl⟩ := h
    simp only at r2 r3 r4 r5
    -- north-west
    obtain ⟨sa, va, ba, pa, oa, ca⟩ := ih1 w1 r1
    -- north-east, whose particles the first step did not touch
    have agA : ∀ i, i ∉ bodies nw → sA i = s i := fun i hi => by rw [sa, advance_agree hi]
    have w2A : WellFormed sA ne := wf_congr (fun i hi => by
      rw [agA i (fun h1 => d12 h1 hi)]; exact ⟨rfl, rfl⟩) w2
    obtain ⟨sb, vb, bb, pb, ob, cb⟩ := ih2 w2A r2
    have agB : ∀ i, i ∉ bodies ne → sB i = sA i := fun i hi => by rw [sb, advance_agree hi]
    -- south-west
    have w3B : WellFormed sB sw := wf_congr (fun i hi => by
      rw [agB i (fun h1 => d23 h1 hi), agA i (fun h1 => d13 h1 hi)]; exact ⟨rfl, rfl⟩) w3
    obtain ⟨sc, vc, bc, pc, oc, cc⟩ := ih3 w3B r3
    have agC : ∀ i, i ∉ bodies sw → sC i = sB i := fun i hi => by rw [sc, advance_agree hi]
    -- south-east
    have w4C : WellFormed sC se := wf_congr (fun i hi => by
      rw [agC i (fun h1 => d34 h1 hi), agB i (fun h1 => d24 h1 hi),
        agA i (fun h1 => d14 h1 hi)]; exact ⟨rfl, rfl⟩) w4
    obtain ⟨sd, vd, bd, pd, od, cd⟩ := ih4 w4C r4
    have agD : ∀ i, i ∉ bodies se → sD i = sC i := fun i hi => by rw [sd, advance_agree hi]
    -- where the particles of each child and each escaped vector come from
    have m1 : ∀ i, i ∈ bodies nw1 ++ e1 → i ∈ bodies nw := fun i hi => pa.subset hi
    have m2 : ∀ i, i ∈ bodies ne1 ++ e2 → i ∈ bodies ne := fun i hi => pb.subset hi
    have m3 : ∀ i, i ∈ bodies sw1 ++ e3 → i ∈ bodies sw := fun i hi => pc.subset hi
    have m4 : ∀ i, i ∈ bodies se1 ++ e4 → i ∈ bodies se := fun i hi => pd.subset hi
    -- the final store on the particles of each child
    have f1 : ∀ i, i ∈ bodies nw → sD i = sA i := fun i hi => by
      rw [agD i (fun h1 => d14 hi h1), agC i (fun h1 => d13 hi h1), agB i (fun h1 => d12 hi h1)]
    have f2 : ∀ i, i ∈ bodies ne → sD i = sB i := fun i hi => by
      rw [agD i (fun h1 => d24 hi h1), agC i (fun h1 => d23 hi h1)]
    have f3 : ∀ i, i ∈ bodies sw → sD i = sC i := fun i hi => by
      rw [agD i (fun h1 => d34 hi h1)]
    have v1 : WellFormed sD nw1 := wf_congr (fun i hi => by
      rw [f1 i (m1 i (List.mem_append_left _ hi))]; exact ⟨rfl, rfl⟩) va
    have v2 : WellFormed sD ne1 := wf_congr (fun i hi => by
      rw [f2 i (m2 i (List.mem_append_left _ hi))]; exact ⟨rfl, rfl⟩) vb
    have v3 : WellFormed sD sw1 := wf_congr (fun i hi => by
      rw [f3 i (m3 i (List.mem_append_left _ hi))]; exact ⟨rfl, rfl⟩) vc
    -- the loop over the escaped particles
    obtain ⟨⟨g1, g2, g3, g4⟩, ⟨x1, x2, x3, x4⟩, pr, orest, cr⟩ :=
      reinsert_post (e1 ++ e2 ++ e3 ++ e4) (ba.trans b1) (bb.trans b2) (bc.trans b3)
        (bd.trans b4) v1 v2 v3 vd r5
    have pall : ((bodies nw2 ++ bodies ne2 ++ bodies sw2 ++ bodies se2) ++ rest).Perm
        (bodies nw ++ bodies ne ++ bodies sw ++ bodies se) := by
      rw [List.perm_iff_count]
      intro a
      have y := pr.count_eq a
      have y1 := pa.count_eq a
      have y2 := pb.count_eq a
      have y3 := pc.count_eq a
      have y4 := pd.count_eq a
      simp only [List.count_append] at y y1 y2 y3 y4 ⊢
      omega
    obtain ⟨z1, z2, z3, z4⟩ := @recompute_post sD d nw2 ne2 sw2 se2 rest hp
      (by rw [hcount, ← pall.length_eq, List.length_append]) g1 g2 g3 g4 x1 x2 x3 x4
    have hs : sD = advance dt (bodies nw ++ bodies ne ++ bodies sw ++ bodies se) s := by
      rw [sd, sc, sb, sa, advance_append _ d12,
        advance_append _ (List.disjoint_append_left.2 ⟨d13, d23⟩),
        advance_append _ (List.disjoint_append_left.2 ⟨List.disjoint_append_left.2 ⟨d14, d24⟩, d34⟩)]
    refine ⟨hs, z1, z2, by rw [z3]; exact pall, orest, ?_⟩
    intro hm
    have hmA : ∀ i, epsilon ≤ (sA i).mass := fun i => by rw [sa, advance_mass]; exact hm i
    have hmB : ∀ i, epsilon ≤ (sB i).mass := fun i => by rw [sb, advance_mass]; exact hmA i
    have hmC : ∀ i, epsilon ≤ (sC i).mass := fun i => by rw [sc, advance_mass]; exact hmB i
    have hmD : ∀ i, epsilon ≤ (sD i).mass := fun i => by rw [sd, advance_mass]; exact hmC i
    have k1 : ComInv sD nw1 := comInv_congr (fun i hi => by
      rw [f1 i (m1 i (List.mem_append_left _ hi))]; exact ⟨rfl, rfl⟩) (ca hm)
    have k2 : ComInv sD ne1 := comInv_congr (fun i hi => by
      rw [f2 i (m2 i (List.mem_append_left _ hi))]; exact ⟨rfl, rfl⟩) (cb hmA)
    have k3 : ComInv sD sw1 := comInv_congr (fun i hi => by
      rw [f3 i (m3 i (List.mem_append_left _ hi))]; exact ⟨rfl, rfl⟩) (cc hmB)
    obtain ⟨q1, q2, q3, q4⟩ :=
      cr (fun i => lt_of_lt_of_le epsilon_pos (hmD i)) k1 k2 k3 (cd hmC)
    exact z4 hmD q1 q2 q3 q4

/-! ### `UpdatePositions` returns when the updated positions are distinct -/

theorem reinsert_mono_le {s : Store} {f g : Nat} (hfg : f ≤ g) {R : AABB} :
    ∀ (l : List Nat) {c : QuadTree × QuadTree × QuadTree × QuadTree}
      {r : (QuadTree × QuadTree × QuadTree × QuadTree) × List Nat},
      reinsert s f R l c = some r → reinsert s g R l c = some r := by
  intro l
  induction l with
  | nil =>
    intro c r h
    rw [reinsert] at h ⊢
    exact h
  | cons p ps ih =>
    intro c r h
    obtain ⟨nw, ne, sw, se⟩ := c
    rw [reinsert] at h ⊢
    by_cases hR : R.Contains (s p).pos = true
    · simp only [hR, Bool.not_true, Bool.false_eq_true, if_false, Option.bind_eq_bind,
        Option.bind_eq_some] at h ⊢
      obtain ⟨nw1, e1, ne1, e2, sw1, e3, se1, e4, h⟩ := h
      exact ⟨nw1, insert_mono_le hfg e1, ne1, insert_mono_le hfg e2, sw1,
        insert_mono_le hfg e3, se1, insert_mono_le hfg e4, ih h⟩
    · simp only [hR, Bool.not_false, if_true, Option.bind_eq_bind, Option.bind_eq_some,
        Bool.not_eq_true] at h ⊢
      obtain ⟨r1, h1, h⟩ := h
      exact ⟨r1, ih h1, h⟩

theorem updatePositions_mono_le {f g : Nat} (hfg : f ≤ g) {dt : ℚ} (t : QuadTree) :
    ∀ {s : Store} {r : QuadTree × Store × List Nat},
      t.UpdatePositions f dt s = some r → t.UpdatePositions g dt s = some r := by
  induction t with
  | leaf d =>
    intro s r h
    rw [UpdatePositions] at h ⊢
    exact h
  | inner d nw ne sw se ih1 ih2 ih3 ih4 =>
    intro s r h
    by_cases hc : d.count_ = 0
    · rw [updatePositions_empty (by simpa using hc)] at h ⊢
      exact h
    · cases hp : d.particle_ with
      | some held =>
        rw [updatePositions_held (by simpa using hc) (by simpa using hp)] at h ⊢
        exact h
      | none =>
        rw [updatePositions_inner hc hp] at h ⊢
        simp only [Option.bind_eq_some] at h ⊢
        obtain ⟨r1, e1, r2, e2, r3, e3, r4, e4, c, e5, h⟩ := h
        exact ⟨r1, ih1 e1, r2, ih2 e2, r3, ih3 e3, r4, ih4 e4, c, reinsert_mono_le hfg _ e5, h⟩

theorem reinsert_terminates {s : Store} {R : AABB} :
    ∀ (l : List Nat) {nw ne sw se : QuadTree},
      nw.data.bounds_ = R.Partition 0 → ne.data.bounds_ = R.Partition 1 →
      sw.data.bounds_ = R.Partition 2 → se.data.bounds_ = R.Partition 3 →
      WellFormed s nw → WellFormed s ne → WellFormed s sw → WellFormed s se →
      l.Pairwise (fun i j => (s i).pos ≠ (s j).pos) →
      (∀ p ∈ l, ∀ q ∈ bodies nw ++ bodies ne ++ bodies sw ++ bodies se,
        (s q).pos ≠ (s p).pos) →
      ∃ fuel r, reinsert s fuel R l (nw, ne, sw, se) = some r := by
  intro l
  induction l with
  | nil =>
    intro nw ne sw se _ _ _ _ _ _ _ _ _ _
    exact ⟨0, _, by rw [reinsert]⟩
  | cons p ps ih =>
    intro nw ne sw se b1 b2 b3 b4 w1 w2 w3 w4 hp hd
    rw [List.pairwise_cons] at hp
    by_cases hR : R.Contains (s p).pos = true
    · have hdp := hd p (List.mem_cons_self _ _)
      simp only [List.mem_append] at hdp
      obtain ⟨f1, nw1, e1⟩ := insert_terminates w1 (fun q hq => hdp q (Or.inl (Or.inl (Or.inl hq))))
      obtain ⟨f2, ne1, e2⟩ := insert_terminates w2 (fun q hq => hdp q (Or.inl (Or.inl (Or.inr hq))))
      obtain ⟨f3, sw1, e3⟩ := insert_terminates w3 (fun q hq => hdp q (Or.inl (Or.inr hq)))
      obtain ⟨f4, se1, e4⟩ := insert_terminates w4 (fun q hq => hdp q (Or.inr hq))
      obtain ⟨-, -, pm, -⟩ :=
        insertPost_children hR b1 b2 b3 b4 w1 w2 w3 w4 (insert_post s p _ _ _ w1 e1)
          (insert_post s p _ _ _ w2 e2) (insert_post s p _ _ _ w3 e3)
          (insert_post s p _ _ _ w4 e4)
      obtain ⟨f5, r, e5⟩ := ih ((insert_bounds w1 e1).trans b1) ((insert_bounds w2 e2).trans b2)
        ((insert_bounds w3 e3).trans b3) ((insert_bounds w4 e4).trans b4)
        (insert_wf w1 e1) (insert_wf w2 e2) (insert_wf w3 e3) (insert_wf w4 e4) hp.2 (by
          intro r hr q hq
          have hq2 := pm.subset hq
          simp only [List.mem_cons] at hq2
          rcases hq2 with hq2 | hq2
          · subst hq2
            exact hp.1 r hr
          · exact hd r (List.mem_cons_of_mem _ hr) q hq2)
      refine ⟨max (max (max f1 f2) (max f3 f4)) f5, r, ?_⟩
      rw [reinsert]
      simp only [hR, Bool.not_true, Bool.false_eq_true, if_false, Option.bind_eq_bind,
        Option.bind_eq_some]
      have g1 : f1 ≤ max (max (max f1 f2) (max f3 f4)) f5 := by
        simp only [le_max_iff, le_refl, true_or]
      have g2 : f2 ≤ max (max (max f1 f2) (max f3 f4)) f5 := by
        simp only [le_max_iff, le_refl, true_or, or_true]
      have g3 : f3 ≤ max (max (max f1 f2) (max f3 f4)) f5 := by
        simp only [le_max_iff, le_refl, true_or, or_true]
      have g4 : f4 ≤ max (max (max f1 f2) (max f3 f4)) f5 := by
        simp only [le_max_iff, le_refl, true_or, or_true]
      exact ⟨nw1, insert_mono_le g1 e1, ne1, insert_mono_le g2 e2, sw1, insert_mono_le g3 e3,
        se1, insert_mono_le g4 e4, reinsert_mono_le (le_max_right _ _) _ e5⟩
    · obtain ⟨f, r, e⟩ := ih b1 b2 b3 b4 w1 w2 w3 w4 hp.2
        (fun r hr q hq => hd r (List.mem_cons_of_mem _ hr) q hq)
      refine ⟨f, (r.1, p :: r.2), ?_⟩
      rw [reinsert]
      simp only [hR, Bool.not_false, if_true, Option.bind_eq_bind, Option.bind_eq_some,
        Bool.not_eq_true]
      exact ⟨r, e, rfl⟩

theorem advance_pos {dt : ℚ} {l : List Nat} {s : Store} {i : Nat} (h : i ∈ l) :
    (advance dt l s i).pos = Vector.add (s i).pos (Vector.muls (s i).vel dt) := by
  simp [advance, h]

/-- `UpdatePositions` on a well-formed tree returns, with enough fuel, when the
updated positions of its particles are pairwise distinct. -/
theorem updatePositions_terminates {dt : ℚ} (t : QuadTree) :
    ∀ {s : Store}, WellFormed s t →
      (bodies t).Pairwise (fun i j =>
        Vector.add (s i).pos (Vector.muls (s i).vel dt) ≠
          Vector.add (s j).pos (Vector.muls (s j).vel dt)) →
      ∃ fuel r, t.UpdatePositions fuel dt s = some r := by
  induction t with
  | leaf d =>
    intro s w _
    simp only [WellFormed] at w
    cases hp : d.particle_ with
    | none =>
      simp only [hp] at w
      exact ⟨0, _, updatePositions_empty (by simpa using w.1)⟩
    | some held =>
      simp only [hp] at w
      refine ⟨0, ?_⟩
      rw [updatePositions_held (by simp [w.1]) (by simpa using hp)]
      split <;> exact ⟨_, rfl⟩
  | inner d nw ne sw se ih1 ih2 ih3 ih4 =>
    intro s w hd
    simp only [WellFormed] at w
    obtain ⟨hp, h2, hcount, hmass, b1, b2, b3, b4, w1, w2, w3, w4⟩ := w
    have d12 := wf_disjoint (by decide : (0 : Fin 4) ≠ 1) b1 b2 w1 w2
    have d13 := wf_disjoint (by decide : (0 : Fin 4) ≠ 2) b1 b3 w1 w3
    have d14 := wf_disjoint (by decide : (0 : Fin 4) ≠ 3) b1 b4 w1 w4
    have d23 := wf_disjoint (by decide : (1 : Fin 4) ≠ 2) b2 b3 w2 w3
    have d24 := wf_disjoint (by decide : (1 : Fin 4) ≠ 3) b2 b4 w2 w4
    have d34 := wf_disjoint (by decide : (2 : Fin 4) ≠ 3) b3 b4 w3 w4
    have hd0 := hd
    simp only [bodies_inner] at hd
    rw [List.pairwise_append, List.pairwise_append, List.pairwise_append] at hd
    obtain ⟨⟨⟨q1, q2, -⟩, q3, -⟩, q4, -⟩ := hd
    -- north-west
    obtain ⟨f1, ⟨nw1, sA, e1⟩, r1⟩ := ih1 w1 q1
    obtain ⟨sa, va, ba, pa, -, -⟩ := updatePositions_post nw w1 r1
    have agA : ∀ i, i ∉ bodies nw → sA i = s i := fun i hi => by rw [sa, advance_agree hi]
    -- north-east
    have w2A : WellFormed sA ne := wf_congr (fun i hi => by
      rw [agA i (fun h1 => d12 h1 hi)]; exact ⟨rfl, rfl⟩) w2
    obtain ⟨f2, ⟨ne1, sB, e2⟩, r2⟩ := ih2 w2A (q2.imp_of_mem (fun ha hb h => by
      rw [agA _ (fun h1 => d12 h1 ha), agA _ (fun h1 => d12 h1 hb)]; exact h))
    obtain ⟨sb, vb, bb, pb, -, -⟩ := updatePositions_post ne w2A r2
    have agB : ∀ i, i ∉ bodies ne → sB i = sA i := fun i hi => by rw [sb, advance_agree hi]
    -- south-west
    have w3B : WellFormed sB sw := wf_congr (fun i hi => by
      rw [agB i (fun h1 => d23 h1 hi), agA i (fun h1 => d13 h1 hi)]; exact ⟨rfl, rfl⟩) w3
    obtain ⟨f3, ⟨sw1, sC, e3⟩, r3⟩ := ih3 w3B (q3.imp_of_mem (fun ha hb h => by
      rw [agB _ (fun h1 => d23 h1 ha), agA _ (fun h1 => d13 h1 ha),
        agB _ (fun h1 => d23 h1 hb), agA _ (fun h1 => d13 h1 hb)]; exact h))
    obtain ⟨sc, vc, bc, pc, -, -⟩ := updatePositions_post sw w3B r3
    have agC : ∀ i, i ∉ bodies sw → sC i = sB i := fun i hi => by rw [sc, advance_agree hi]
    -- south-east
    have w4C : WellFormed sC se := wf_congr (fun i hi => by
      rw [agC i (fun h1 => d34 h1 hi), agB i (fun h1 => d24 h1 hi),
        agA i (fun h1 => d14 h1 hi)]; exact ⟨rfl, rfl⟩) w4
    obtain ⟨f4, ⟨se1, sD, e4⟩, r4⟩ := ih4 w4C (q4.imp_of_mem (fun ha hb h => by
      rw [agC _ (fun h1 => d34 h1 ha), agB _ (fun h1 => d24 h1 ha),
        agA _ (fun h1 => d14 h1 ha), agC _ (fun h1 => d34 h1 hb),
        agB _ (fun h1 => d24 h1 hb), agA _ (fun h1 => d14 h1 hb)]; exact h))
    obtain ⟨sd, vd, bd, pd, -, -⟩ := updatePositions_post se w4C r4
    have agD : ∀ i, i ∉ bodies se → sD i = sC i := fun i hi => by rw [sd, advance_agree hi]
    have m1 : ∀ i, i ∈ bodies nw1 ++ e1 → i ∈ bodies nw := fun i hi => pa.subset hi
    have m2 : ∀ i, i ∈ bodies ne1 ++ e2 → i ∈ bodies ne := fun i hi => pb.subset hi
    have m3 : ∀ i, i ∈ bodies sw1 ++ e3 → i ∈ bodies sw := fun i hi => pc.subset hi
    have f1' : ∀ i, i ∈ bodies nw → sD i = sA i := fun i hi => by
      rw [agD i (fun h1 => d14 hi h1), agC i (fun h1 => d13 hi h1), agB i (fun h1 => d12 hi h1)]
    have f2' : ∀ i, i ∈ bodies ne → sD i = sB i := fun i hi => by
      rw [agD i (fun h1 => d24 hi h1), agC i (fun h1 => d23 hi h1)]
    have f3' : ∀ i, i ∈ bodies sw → sD i = sC i := fun i hi => by
      rw [agD i (fun h1 => d34 hi h1)]
    have v1 : WellFormed sD nw1 := wf_congr (fun i hi => by
      rw [f1' i (m1 i (List.mem_append_left _ hi))]; exact ⟨rfl, rfl⟩) va
    have v2 : WellFormed sD ne1 := wf_congr (fun i hi => by
      rw [f2' i (m2 i (List.mem_append_left _ hi))]; exact ⟨rfl, rfl⟩) vb
    have v3 : WellFormed sD sw1 := wf_congr (fun i hi => by
      rw [f3' i (m3 i (List.mem_append_left _ hi))]; exact ⟨rfl, rfl⟩) vc
    have hs : sD = advance dt (bodies nw ++ bodies ne ++ bodies sw ++ bodies se) s := by
      rw [sd, sc, sb, sa, advance_append _ d12,
        advance_append _ (List.disjoint_append_left.2 ⟨d13, d23⟩),
        advance_append _ (List.disjoint_append_left.2 ⟨List.disjoint_append_left.2 ⟨d14, d24⟩, d34⟩)]
    -- the particles after the four recursive calls, with their updated positions
    have pall : ((bodies nw1 ++ bodies ne1 ++ bodies sw1 ++ bodies se1) ++
        (e1 ++ e2 ++ e3 ++ e4)).Perm (bodies nw ++ bodies ne ++ bodies sw ++ bodies se) := by
      rw [List.perm_iff_count]
      intro a
      have y1 := pa.count_eq a
      have y2 := pb.count_eq a
      have y3 := pc.count_eq a
      have y4 := pd.count_eq a
      simp only [List.count_append] at y1 y2 y3 y4 ⊢
      omega
    have hpw : ((bodies nw1 ++ bodies ne1 ++ bodies sw1 ++ bodies se1) ++
        (e1 ++ e2 ++ e3 ++ e4)).Pairwise (fun i j => (sD i).pos ≠ (sD j).pos) := by
      have := (pall.pairwise_iff (fun h => Ne.symm h)).2 hd0
      refine this.imp_of_mem (fun ha hb h => ?_)
      rw [hs, advance_pos (pall.subset ha), advance_pos (pall.subset hb)]
      exact h
    rw [List.pairwise_append] at hpw
    obtain ⟨f5, c, e5⟩ := reinsert_terminates (e1 ++ e2 ++ e3 ++ e4) (ba.trans b1) (bb.trans b2)
      (bc.trans b3) (bd.trans b4) v1 v2 v3 vd hpw.2.1 (fun p hp q hq => hpw.2.2 q hq p hp)
    refine ⟨max (max (max f1 f2) (max f3 f4)) f5, ?_⟩
    have g1 : f1 ≤ max (max (max f1 f2) (max f3 f4)) f5 := by
      simp only [le_max_iff, le_refl, true_or]
    have g2 : f2 ≤ max (max (max f1 f2) (max f3 f4)) f5 := by
      simp only [le_max_iff, le_refl, true_or, or_true]
    have g3 : f3 ≤ max (max (max f1 f2) (max f3 f4)) f5 := by
      simp only [le_max_iff, le_refl, true_or, or_true]
    have g4 : f4 ≤ max (max (max f1 f2) (max f3 f4)) f5 := by
      simp only [le_max_iff, le_refl, true_or, or_true]
    rw [updatePositions_inner (by omega) hp, updatePositions_mono_le g1 _ r1]
    simp only [Option.some_bind]
    rw [updatePositions_mono_le g2 _ r2]
    simp only [Option.some_bind]
    rw [updatePositions_mono_le g3 _ r3]
    simp only [Option.some_bind]
    rw [updatePositions_mono_le g4 _ r4]
    simp only [Option.some_bind]
    rw [reinsert_mono_le (le_max_right _ _) _ e5]
    exact ⟨_, rfl⟩

theorem reach_wf {sqrt : ℚ → ℚ} {bounds : AABB} {t : QuadTree} {s : Store}
    (h : Reachable sqrt bounds t s) : WellFormed s t := by
  induction h with
  | empty s => exact wf_mk s bounds
  | insert p fuel _ e ih => exact insert_wf ih e
  | velocities dt theta _ e ih => exact wf_updateVelocities e ih
  | positions fuel dt _ e ih => exact (updatePositions_post _ ih e).2.1

theorem wf_node_mass {s : Store} {t : QuadTree} (w : WellFormed s t) :
    ∀ n ∈ nodes t, ∃ l, n.ToVector = some l ∧ n.data.mass_ = massSum s l := fun n hn =>
  ⟨bodies n, wf_toVector (wf_of_mem_nodes w hn), wf_mass (wf_of_mem_nodes w hn)⟩

theorem comInv_mk (s : Store) (R : AABB) : ComInv s (mk R) := by
  simp [ComInv, mk, Vector.smul, Vector.zero]

theorem insert_comInv {s : Store} {p fuel : Nat} {t t1 : QuadTree} (hm : ∀ i, 0 < (s i).mass)
    (w : WellFormed s t) (c : ComInv s t) (h : t.insert s p fuel = some t1) : ComInv s t1 := by
  have q := insert_post s p fuel t t1 w h
  unfold InsertPost at q
  split at q
  · exact q.2.2.2 hm c
  · exact q ▸ c

theorem insertAll_comInv {s : Store} {fuel : Nat} (hm : ∀ i, 0 < (s i).mass) :
    ∀ (l : List Nat) {t t1 : QuadTree}, WellFormed s t → ComInv s t →
      insertAll s fuel l t = some t1 → WellFormed s t1 ∧ ComInv s t1 := by
  intro l
  induction l with
  | nil =>
    intro t t1 w c h
    simp only [insertAll, Option.some.injEq] at h
    exact h ▸ ⟨w, c⟩
  | cons p ps ih =>
    intro t t1 w c h
    simp only [insertAll, Option.bind_eq_some] at h
    obtain ⟨t2, e, h⟩ := h
    exact ih (insert_wf w e) (insert_comInv hm w c e) h

theorem reach_comInv {sqrt : ℚ → ℚ} {bounds : AABB} {t : QuadTree} {s : Store}
    (h : Reachable sqrt bounds t s) : (∀ i, epsilon ≤ (s i).mass) → ComInv s t := by
  induction h with
  | empty s => exact fun _ => comInv_mk s bounds
  | insert p fuel r e ih =>
    intro hm
    exact insert_comInv (fun i => lt_of_lt_of_le epsilon_pos (hm i)) (reach_wf r) (ih hm) e
  | velocities dt theta _ e ih =>
    intro hm
    have f := updateVelocities_frame e
    exact comInv_congr (fun i _ => ⟨(f i).2.1, (f i).1⟩)
      (ih (fun i => (f i).2.1 ▸ hm i))
  | positions fuel dt r e ih =>
    intro hm
    obtain ⟨hs, -, -, -, -, c⟩ := updatePositions_post _ (reach_wf r) e
    exact c (fun i => by have := hm i; rwa [hs, advance_mass] at this)

theorem comInv_of_mem_nodes {s : Store} {t n : QuadTree} (c : ComInv s t) (hn : n ∈ nodes t) :
    ComInv s n := by
  induction t with
  | leaf d =>
    simp only [nodes, List.mem_singleton] at hn
    exact hn ▸ c
  | inner d nw ne sw se ih1 ih2 ih3 ih4 =>
    simp only [nodes, List.mem_cons, List.mem_append] at hn
    have c0 := c
    simp only [ComInv] at c
    obtain ⟨-, c1, c2, c3, c4⟩ := c
    rcases hn with hn | ((hn | hn) | hn) | hn
    · exact hn ▸ c0
    · exact ih1 c1 hn
    · exact ih2 c2 hn
    · exact ih3 c3 hn
    · exact ih4 c4 hn

theorem massSum_pos {s : Store} (hm : ∀ i, 0 < (s i).mass) {l : List Nat} (hl : l ≠ []) :
    0 < massSum s l := by
  cases l with
  | nil => exact absurd rfl hl
  | cons a l =>
    rw [massSum_cons]
    have := massSum_nonneg hm l
    linarith [hm a]

/-- In a well-formed tree with the aggregate invariant and positive masses, the
centre of mass of a node that holds a particle is `Σ mass * pos / Σ mass`. -/
theorem com_of_comInv {s : Store} {t : QuadTree} (hm : ∀ i, 0 < (s i).mass)
    (w : WellFormed s t) (c : ComInv s t) :
    ∀ n ∈ nodes t, ∀ l, n.ToVector = some l → l ≠ [] →
      n.data.centre_of_mass_ = Vector.div (moment s l) (massSum s l) := by
  intro n hn l hl hne
  have wn := wf_of_mem_nodes w hn
  have cn := comInv_of_mem_nodes c hn
  rw [wf_toVector wn] at hl
  simp only [Option.some.injEq] at hl
  subst hl
  have hM := massSum_pos hm hne
  rw [← comInv_top cn, wf_mass wn]
  simp only [Vector.div, Vector.smul]
  have h0 : massSum s (bodies n) ≠ 0 := ne_of_gt hM
  cases hcom : n.data.centre_of_mass_
  simp only [Vector.mk.injEq]
  constructor <;> field_simp

/-! ### The concrete scenario -/

theorem some_getD {α : Type} {o : Option α} (d : α) (h : o.isSome = true) :
    o = some (o.getD d) := by
  cases o with
  | none => simp at h
  | some a => rfl

theorem twoBodyTree_reachable : Reachable ratSqrt worldBounds twoBodyTree twoBodyStore :=
  Reachable.insert 1 1
    (Reachable.insert 0 0 (Reachable.empty twoBodyStore)
      (by decide! : (mk worldBounds).insert twoBodyStore 0 0 = some oneBodyTree))
    (by decide! : oneBodyTree.insert twoBodyStore 1 1 = some twoBodyTree)

theorem twoBodyVel_eq :
    UpdateVelocities ratSqrt twoBodyTree (1 / 1000) 1 twoBodyTree twoBodyStore =
      some twoBodyVel :=
  some_getD _ (by decide!)

theorem twoBodyTick_eq :
    twoBodyTree.UpdatePositions 1 (1 / 1000) twoBodyVel =
      some (twoBodyTick.1, twoBodyTick.2.1, twoBodyTick.2.2) :=
  some_getD _ (by decide!)

theorem twoBodyTick_reachable :
    Reachable ratSqrt worldBounds twoBodyTick.1 twoBodyTick.2.1 :=
  Reachable.positions 1 (1 / 1000)
    (Reachable.velocities (1 / 1000) 1 twoBodyTree_reachable twoBodyVel_eq) twoBodyTick_eq

theorem twoBodyTree_leafCom : LeafCom twoBodyStore twoBodyTree := by
  simp [LeafCom, twoBodyTree, twoBodyStore, mk]

theorem twoBodyTick_mass (i : Nat) : (twoBodyTick.2.1 i).mass = 5000 := by
  have h1 := (updatePositions_post _
    (wf_updateVelocities twoBodyVel_eq (reach_wf twoBodyTree_reachable)) twoBodyTick_eq).1
  rw [h1, advance_mass, (updateVelocities_frame twoBodyVel_eq i).2.1]
  unfold twoBodyStore
  split <;> rfl

theorem tinyStore_mass (i : Nat) : (tinyStore i).mass = 1 / 2 ^ 60 := by
  unfold tinyStore
  split <;> rfl

theorem tinyTree_reachable : Reachable ratSqrt worldBounds tinyTree tinyStore :=
  Reachable.insert 1 1
    (Reachable.insert 0 0 (Reachable.empty tinyStore)
      (by decide! : (mk worldBounds).insert tinyStore 0 0 = some tinyTree1))
    (by decide! : tinyTree1.insert tinyStore 1 1 = some tinyTree)

theorem tinyVel_eq :
    UpdateVelocities ratSqrt tinyTree (1 / 1000) 1 tinyTree tinyStore = some tinyVel :=
  some_getD _ (by decide!)

theorem tinyTick_eq :
    tinyTree.UpdatePositions 1 (1 / 1000) tinyVel =
      some (tinyTick.1, tinyTick.2.1, tinyTick.2.2) :=
  some_getD _ (by decide!)

theorem tinyTick_reachable : Reachable ratSqrt worldBounds tinyTick.1 tinyTick.2.1 :=
  Reachable.positions 1 (1 / 1000)
    (Reachable.velocities (1 / 1000) 1 tinyTree_reachable tinyVel_eq) tinyTick_eq

theorem tinyTick_mass (i : Nat) : (tinyTick.2.1 i).mass = 1 / 2 ^ 60 := by
  have h1 := (updatePositions_post _ (wf_updateVelocities tinyVel_eq (reach_wf tinyTree_reachable))
    tinyTick_eq).1
  rw [h1, advance_mass, (updateVelocities_frame tinyVel_eq i).2.1]
  unfold tinyStore
  split <;> rfl

/-! ### The aggregate written by the end of `UpdatePositions` -/

theorem recompute_data (d : NodeData) (nw ne sw se : QuadTree) (particles : List Nat) :
    (recompute d nw ne sw se particles).data.mass_ =
      0 + nw.data.mass_ + ne.data.mass_ + sw.data.mass_ + se.data.mass_ ∧
    (recompute d nw ne sw se particles).data.bounds_ = d.bounds_ ∧
    (|0 + nw.data.mass_ + ne.data.mass_ + sw.data.mass_ + se.data.mass_| < epsilon →
      (recompute d nw ne sw se particles).data.centre_of_mass_ =
        ⟨d.bounds_.l + d.bounds_.width / 2, d.bounds_.b + d.bounds_.height / 2⟩) := by
  unfold recompute
  simp only
  split
  · refine ⟨rfl, rfl, fun h => ?_⟩
    simp only [Merge, data_leaf, h, if_true]
  · refine ⟨rfl, rfl, fun h => ?_⟩
    simp only [data_inner, h, if_true]

/-! ### Coincident positions -/

theorem weighted_ge {s : Store} (hm : ∀ i, 0 < (s i).mass) (f : Nat → ℚ) (a : ℚ) :
    ∀ l : List Nat, (∀ i ∈ l, a ≤ f i) →
      a * massSum s l ≤ (l.map fun i => (s i).mass * f i).sum := by
  intro l
  induction l with
  | nil => intro _; simp
  | cons j l ih =>
    intro h
    rw [massSum_cons, List.map_cons, List.sum_cons]
    have h1 := ih (fun i hi => h i (List.mem_cons_of_mem _ hi))
    have h2 := mul_le_mul_of_nonneg_left (h j (List.mem_cons_self _ _)) (le_of_lt (hm j))
    nlinarith

theorem weighted_lt {s : Store} (hm : ∀ i, 0 < (s i).mass) (f : Nat → ℚ) (b : ℚ) :
    ∀ l : List Nat, l ≠ [] → (∀ i ∈ l, f i < b) →
      (l.map fun i => (s i).mass * f i).sum < b * massSum s l := by
  intro l
  induction l with
  | nil => intro h; exact absurd rfl h
  | cons j l ih =>
    intro _ h
    rw [massSum_cons, List.map_cons, List.sum_cons]
    have h2 := mul_lt_mul_of_pos_left (h j (List.mem_cons_self _ _)) (hm j)
    by_cases hl : l = []
    · subst hl
      simp only [List.map_nil, List.sum_nil, massSum_nil]
      nlinarith
    · have h1 := ih hl (fun i hi => h i (List.mem_cons_of_mem _ hi))
      nlinarith

/-- With positive masses the centre of mass of a non-empty well-formed node with the
aggregate invariant lies in the node's region. -/
theorem com_inside {s : Store} {t : QuadTree} (hm : ∀ i, 0 < (s i).mass)
    (w : WellFormed s t) (c : ComInv s t) (hne : bodies t ≠ []) :
    t.data.bounds_.Contains t.data.centre_of_mass_ = true := by
  have hM := massSum_pos hm hne
  have hc := wf_contains w
  have ht := comInv_top c
  rw [wf_mass w] at ht
  simp only [Vector.smul, moment, Vector.mk.injEq] at ht
  obtain ⟨hx, hy⟩ := ht
  have cx : ∀ i ∈ bodies t, t.data.bounds_.l ≤ (s i).pos.x ∧ (s i).pos.x < t.data.bounds_.r ∧
      t.data.bounds_.b ≤ (s i).pos.y ∧ (s i).pos.y < t.data.bounds_.t :=
    fun i hi => (AABB.Contains_iff _ _).1 (hc i hi)
  have x1 := weighted_ge hm (fun i => (s i).pos.x) t.data.bounds_.l (bodies t)
    (fun i hi => (cx i hi).1)
  have x2 := weighted_lt hm (fun i => (s i).pos.x) t.data.bounds_.r (bodies t) hne
    (fun i hi => (cx i hi).2.1)
  have y1 := weighted_ge hm (fun i => (s i).pos.y) t.data.bounds_.b (bodies t)
    (fun i hi => (cx i hi).2.2.1)
  have y2 := weighted_lt hm (fun i => (s i).pos.y) t.data.bounds_.t (bodies t) hne
    (fun i hi => (cx i hi).2.2.2)
  rw [← hx] at x1 x2
  rw [← hy] at y1 y2
  rw [AABB.Contains_iff]
  refine ⟨?_, ?_, ?_, ?_⟩
  · exact le_of_mul_le_mul_left (by linarith) hM
  · exact lt_of_mul_lt_mul_left (by linarith) (le_of_lt hM)
  · exact le_of_mul_le_mul_left (by linarith) hM
  · exact lt_of_mul_lt_mul_left (by linarith) (le_of_lt hM)

theorem wf_square {s : Store} {t : QuadTree} (w : WellFormed s t)
    (h : t.data.bounds_.width = t.data.bounds_.height) :
    ∀ n ∈ nodes t, n.data.bounds_.width = n.data.bounds_.height := by
  induction t with
  | leaf d =>
    intro n hn
    simp only [nodes, List.mem_singleton] at hn
    exact hn ▸ h
  | inner d nw ne sw se ih1 ih2 ih3 ih4 =>
    intro n hn
    simp only [nodes, List.mem_cons, List.mem_append] at hn
    simp only [WellFormed] at w
    obtain ⟨-, -, -, -, b1, b2, b3, b4, w1, w2, w3, w4⟩ := w
    simp only [data_inner] at h
    have hk : ∀ k : Fin 4, (d.bounds_.Partition k).width = (d.bounds_.Partition k).height :=
      fun k => by rw [AABB.partition_width, AABB.partition_height, h]
    rcases hn with hn | ((hn | hn) | hn) | hn
    · exact hn ▸ h
    · exact ih1 w1 (b1 ▸ hk 0) n hn
    · exact ih2 w2 (b2 ▸ hk 1) n hn
    · exact ih3 w3 (b3 ▸ hk 2) n hn
    · exact ih4 w4 (b4 ▸ hk 3) n hn

/-- In a square region, two points of the region are at a squared distance below
twice the squared width: the admissibility ratio is above one half. -/
theorem ratio_gt_half (R : AABB) (a b : Vector) (hsq : R.width = R.height)
    (ha : R.Contains a = true) (hb : R.Contains b = true)
    (hpos : 0 < (Vector.sub a b).MagnitudeSquared) :
    1 / 2 < R.width * R.width / (Vector.sub a b).MagnitudeSquared := by
  obtain ⟨hx, hy⟩ := R.close_of_contains a b ha hb
  rw [← hsq] at hy
  rw [abs_lt] at hx hy
  rw [lt_div_iff₀ hpos]
  simp only [Vector.sub, Vector.MagnitudeSquared] at hpos ⊢
  nlinarith [hx.1, hx.2, hy.1, hy.2]

theorem insertAll_bounds {s : Store} {fuel : Nat} :
    ∀ (l : List Nat) {t t1 : QuadTree}, WellFormed s t → insertAll s fuel l t = some t1 →
      t1.data.bounds_ = t.data.bounds_ := by
  intro l
  induction l with
  | nil =>
    intro t t1 _ h
    simp only [insertAll, Option.some.injEq] at h
    rw [h]
  | cons p ps ih =>
    intro t t1 w h
    simp only [insertAll, Option.bind_eq_some] at h
    obtain ⟨t2, e, h⟩ := h
    exact (ih (insert_wf w e) h).trans (insert_bounds w e)

theorem clamp_of_le {x : ℚ} (h : 1 / 1000000 ≤ x) : clamp x = x := by
  unfold clamp
  exact if_neg (not_lt.2 h)

/-- In a well-formed tree over a square region, with the aggregate invariant and
positive masses, an inner node whose region contains the target and whose centre
of mass is at an unclamped distance is not admissible when `theta² ≤ 1/2`. -/
theorem not_admissible_small_theta {s : Store} {t : QuadTree} (hm : ∀ i, 0 < (s i).mass)
    (w : WellFormed s t) (c : ComInv s t)
    (hsq : t.data.bounds_.width = t.data.bounds_.height) {theta : ℚ}
    (ht : theta * theta ≤ 1 / 2) {target : Nat} {d : NodeData} {nw ne sw se : QuadTree}
    (hn : inner d nw ne sw se ∈ nodes t)
    (hin : d.bounds_.Contains (s target).pos = true)
    (hd : 1 / 1000000 ≤ (Vector.sub (s target).pos d.centre_of_mass_).MagnitudeSquared) :
    theta * theta <
      d.bounds_.width * d.bounds_.width /
        (Vector.sub (s target).pos d.centre_of_mass_).MagnitudeSquared := by
  have wn := wf_of_mem_nodes w hn
  have cn := comInv_of_mem_nodes c hn
  have hne : bodies (inner d nw ne sw se) ≠ [] := by
    intro h0
    have := wf_count wn
    simp only [WellFormed] at wn
    rw [h0] at this
    simp only [data_inner, List.length_nil] at this
    omega
  have hcom := com_inside hm wn cn hne
  have hsqn := wf_square w hsq _ hn
  simp only [data_inner] at hcom hsqn
  exact lt_of_le_of_lt ht
    (ratio_gt_half d.bounds_ _ _ hsqn hin hcom (lt_of_lt_of_le (by norm_num) hd))

theorem twoBodyStore_mass_pos (i : Nat) : 0 < (twoBodyStore i).mass := by
  unfold twoBodyStore
  split <;> norm_num

/-! ### A well-formed tree is determined by its region and its particles -/

theorem smul_cancel {m : ℚ} (hm : m ≠ 0) {a b : Vector}
    (h : Vector.smul m a = Vector.smul m b) : a = b := by
  cases a
  cases b
  simp only [Vector.smul, Vector.mk.injEq] at h
  obtain ⟨h1, h2⟩ := h
  rw [Vector.mk.injEq]
  exact ⟨mul_left_cancel₀ hm h1, mul_left_cancel₀ hm h2⟩

theorem selfTree_eq :
    F64.QuadTree.insertAll selfStore 4 [1, 2, 0] (mk selfBounds) = some selfTree :=
  some_getD _ (by decide!)

theorem f64_updateVelocity_far {sqrt : ℚ → ℚ} {p : Nat} {dt theta : ℚ} {t : QuadTree}
    {s : Store} (h : ¬(some p = t.data.particle_ ∨ t.data.count_ = 0))
    (hp : t.data.particle_ = none)
    (ha : F64.div (F64.mul (F64.AABB.width t.data.bounds_) (F64.AABB.width t.data.bounds_))
      (F64.QuadTree.clamp
        (F64.Vector.MagnitudeSquared (F64.Vector.sub (s p).pos t.data.centre_of_mass_))) <
        F64.mul theta theta) :
    F64.QuadTree.UpdateVelocity sqrt p dt theta t s = some (F64.QuadTree.addVel s p
      (F64.Vector.div
        (F64.Vector.smul (F64.mul dt t.data.mass_)
          (F64.Vector.Normalise sqrt (F64.Vector.sub t.data.centre_of_mass_ (s p).pos)))
        (F64.QuadTree.clamp
          (F64.Vector.MagnitudeSquared
            (F64.Vector.sub (s p).pos t.data.centre_of_mass_))))) := by
  cases t <;> rw [F64.QuadTree.UpdateVelocity] <;> simp only [h, if_false] <;>
    simp only [hp] <;> simp only [ha, if_true]

theorem selfStore_mass (i : Nat) : 0 < (selfStore i).mass := by
  unfold selfStore
  split
  · norm_num
  · split <;> norm_num

theorem lightTree_eq :
    insertAll lightStore 2 [0, 1, 2] (mk worldBounds) = some lightTree :=
  some_getD _ (by decide!)

theorem lightTick_eq :
    lightTree.UpdatePositions 2 (1 / 1024) lightStore =
      some (lightTick.1, lightTick.2.1, lightTick.2.2) :=
  some_getD _ (by decide!)

theorem lightVel_eq :
    UpdateVelocities ratSqrt lightTick.1 1 0 lightTick.1 lightTick.2.1 = some lightVel :=
  some_getD _ (by decide!)

/-- With positive masses, the aggregate invariant of a well-formed tree makes the
centre of mass of every occupied leaf the position of its particle. -/
theorem leafCom_of_comInv {s : Store} (hm : ∀ i, 0 < (s i).mass) {t : QuadTree}
    (w : WellFormed s t) (c : ComInv s t) : LeafCom s t := by
  induction t with
  | leaf d =>
    intro p hp
    simp only [WellFormed, hp] at w
    simp only [ComInv, hp, Option.toList_some, moment_cons, moment_nil,
      vector_add_zero_right, w.2.1] at c
    exact smul_cancel (ne_of_gt (hm p)) c
  | inner d nw ne sw se ih1 ih2 ih3 ih4 =>
    simp only [WellFormed] at w
    simp only [ComInv] at c
    exact ⟨ih1 w.2.2.2.2.2.2.2.2.1 c.2.1, ih2 w.2.2.2.2.2.2.2.2.2.1 c.2.2.1,
      ih3 w.2.2.2.2.2.2.2.2.2.2.1 c.2.2.2.1, ih4 w.2.2.2.2.2.2.2.2.2.2.2 c.2.2.2.2⟩

theorem reach_leafCom {sqrt : ℚ → ℚ} {bounds : AABB} {t : QuadTree} {s : Store}
    (h : Reachable sqrt bounds t s) (hm : ∀ i, epsilon ≤ (s i).mass) : LeafCom s t :=
  leafCom_of_comInv (fun i => lt_of_lt_of_le epsilon_pos (hm i)) (reach_wf h)
    (reach_comInv h hm)

/-! ### `insert` with the two failures kept apart -/

theorem toOption_bind {α β : Type} (o : Outcome α) (f : α → Outcome β) :
    (Outcome.bind o f).toOption = o.toOption.bind fun a => (f a).toOption := by
  cases o <;> rfl

theorem done_bind {α β : Type} (a : α) (f : α → Outcome β) :
    Outcome.bind (Outcome.done a) f = f a := rfl

theorem insertO_of_not_contains {s : Store} {p fuel : Nat} {t : QuadTree}
    (h : t.data.bounds_.Contains (s p).pos = false) :
    t.insertO s p fuel = Outcome.done t := by
  rw [insertO.eq_def]
  simp [h]

theorem insertO_of_count_zero {s : Store} {p fuel : Nat} {t : QuadTree}
    (h : t.data.bounds_.Contains (s p).pos = true) (hc : t.data.count_ = 0) :
    t.insertO s p fuel = Outcome.done (t.setData
      ⟨some p, 1, (s p).mass, (s p).pos, t.data.bounds_⟩) := by
  rw [insertO.eq_def]
  simp [h, hc]

theorem insertO_mk (s : Store) (p fuel : Nat) (R : AABB) :
    (mk R).insertO s p fuel =
      Outcome.done (if R.Contains (s p).pos = true then
        leaf ⟨some p, 1, (s p).mass, (s p).pos, R⟩ else mk R) := by
  by_cases h : R.Contains (s p).pos = true
  · rw [insertO_of_count_zero (by simpa [mk] using h) (by simp [mk])]
    simp [h, mk]
  · rw [insertO_of_not_contains (by simpa [mk] using h)]
    simp [h]

theorem insertO_zero_of_count {s : Store} {p : Nat} {t : QuadTree}
    (h : t.data.bounds_.Contains (s p).pos = true) (hc : t.data.count_ ≠ 0) :
    t.insertO s p 0 = Outcome.depth := by
  rw [insertO.eq_def]
  simp [h, hc]

theorem insertO_succ_inner {s : Store} {p fuel : Nat} {d : NodeData}
    {nw ne sw se : QuadTree} (h : d.bounds_.Contains (s p).pos = true) (hc : d.count_ ≠ 0) :
    (inner d nw ne sw se).insertO s p (fuel + 1) =
      Outcome.bind (nw.insertO s p fuel) fun nw1 =>
      Outcome.bind (ne.insertO s p fuel) fun ne1 =>
      Outcome.bind (sw.insertO s p fuel) fun sw1 =>
      Outcome.bind (se.insertO s p fuel) fun se1 =>
        Outcome.done (inner { d with
          centre_of_mass_ :=
            Vector.div (Vector.add (Vector.muls d.centre_of_mass_ d.mass_)
              (Vector.muls (s p).pos (s p).mass)) (d.mass_ + (s p).mass)
          mass_ := d.mass_ + (s p).mass
          count_ := d.count_ + 1 } nw1 ne1 sw1 se1) := by
  rw [insertO.eq_def]
  simp [h, hc, done_bind]

theorem insertO_succ_leaf {s : Store} {p fuel held : Nat} {d : NodeData}
    (h : d.bounds_.Contains (s p).pos = true) (hc : d.count_ ≠ 0)
    (hp : d.particle_ = some held) :
    (leaf d).insertO s p (fuel + 1) =
      (inner { d with particle_ := none }
        (if (d.bounds_.Partition 0).Contains (s held).pos = true then
          leaf ⟨some held, 1, (s held).mass, (s held).pos, d.bounds_.Partition 0⟩
          else mk (d.bounds_.Partition 0))
        (if (d.bounds_.Partition 1).Contains (s held).pos = true then
          leaf ⟨some held, 1, (s held).mass, (s held).pos, d.bounds_.Partition 1⟩
          else mk (d.bounds_.Partition 1))
        (if (d.bounds_.Partition 2).Contains (s held).pos = true then
          leaf ⟨some held, 1, (s held).mass, (s held).pos, d.bounds_.Partition 2⟩
          else mk (d.bounds_.Partition 2))
        (if (d.bounds_.Partition 3).Contains (s held).pos = true then
          leaf ⟨some held, 1, (s held).mass, (s held).pos, d.bounds_.Partition 3⟩
          else mk (d.bounds_.Partition 3))).insertO s p (fuel + 1) := by
  rw [insertO_succ_inner (by simpa using h) (by simpa using hc)]
  rw [insertO.eq_def]
  simp [h, hc, hp, insertO_mk, done_bind]

theorem insertO_succ_leaf_null {s : Store} {p fuel : Nat} {d : NodeData}
    (h : d.bounds_.Contains (s p).pos = true) (hc : d.count_ ≠ 0)
    (hp : d.particle_ = none) : (leaf d).insertO s p (fuel + 1) = Outcome.null := by
  rw [insertO.eq_def]
  simp [h, hc, hp]
  rfl

/-- The function `insertO` has the results of `insert`. -/
theorem insertO_toOption (s : Store) (p : Nat) :
    ∀ (fuel : Nat) (t : QuadTree), (insertO s p fuel t).toOption = insert s p fuel t := by
  have base : ∀ (fuel : Nat) (t : QuadTree),
      ¬(t.data.bounds_.Contains (s p).pos = true ∧ t.data.count_ ≠ 0) →
      (insertO s p fuel t).toOption = insert s p fuel t := by
    intro fuel t h
    by_cases hR : t.data.bounds_.Contains (s p).pos = true
    · have hc : t.data.count_ = 0 := by
        by_contra hc
        exact h ⟨hR, hc⟩
      rw [insertO_of_count_zero hR hc, insert_of_count_zero hR hc]
      rfl
    · rw [insertO_of_not_contains (by simpa using hR),
        insert_of_not_contains (by simpa using hR)]
      rfl
  intro fuel
  induction fuel with
  | zero =>
    intro t
    by_cases h : t.data.bounds_.Contains (s p).pos = true ∧ t.data.count_ ≠ 0
    · rw [insertO_zero_of_count h.1 h.2, insert_zero_of_count h.1 h.2]
      rfl
    · exact base 0 t h
  | succ fuel ih =>
    have inner_case : ∀ (d : NodeData) (nw ne sw se : QuadTree),
        d.bounds_.Contains (s p).pos = true → d.count_ ≠ 0 →
        (insertO s p (fuel + 1) (inner d nw ne sw se)).toOption =
          insert s p (fuel + 1) (inner d nw ne sw se) := by
      intro d nw ne sw se hR hc
      rw [insertO_succ_inner hR hc, insert_succ_inner hR hc]
      simp only [toOption_bind, ih]
      rfl
    intro t
    by_cases h : t.data.bounds_.Contains (s p).pos = true ∧ t.data.count_ ≠ 0
    · cases t with
      | inner d nw ne sw se => exact inner_case d nw ne sw se h.1 h.2
      | leaf d =>
        simp only [data_leaf] at h
        cases hp : d.particle_ with
        | none =>
          rw [insertO_succ_leaf_null h.1 h.2 hp, insert_succ_leaf_null h.1 h.2 hp]
          rfl
        | some held =>
          rw [insertO_succ_leaf h.1 h.2 hp, insert_succ_leaf h.1 h.2 hp]
          exact inner_case _ _ _ _ _ h.1 h.2
    · exact base (fuel + 1) t h

/-- The `double` nearest to `0.1` is `3602879701896397 / 2^55`; `0.1 + 0.2` in `double`
is `0.30000000000000004`, one unit in the last place above the `double` nearest to
`0.3`; a tie goes to the even neighbour; below `2^-1022` the spacing is `2^-1074`. -/
theorem f64_round_values :
    F64.round (1 / 10) = 3602879701896397 / 2 ^ 55 ∧
    F64.add (F64.round (1 / 10)) (F64.round (2 / 10)) = F64.round (3 / 10) + 1 / 2 ^ 54 ∧
    F64.round (1 + 1 / 2 ^ 53) = 1 ∧ F64.round (1 + 3 / 2 ^ 53) = 1 + 1 / 2 ^ 51 ∧
    F64.round (-(1 + 3 / 2 ^ 53)) = -(1 + 1 / 2 ^ 51) ∧
    F64.round (3 / 2 ^ 1075) = 1 / 2 ^ 1073 ∧ F64.round (1 / 2 ^ 1075) = 0 ∧
    F64.round ((2 ^ 53 - 1) * 2 ^ 971) = (2 ^ 53 - 1) * 2 ^ 971 :=
  ⟨by decide!, by decide!, by decide!, by decide!, by decide!, by decide!, by decide!,
    by decide!⟩

end QuadTree

/-! ## The claims -/

/-- C4. For every region `R` and every point `p` with `R.Contains p`, exactly one of
the four regions returned by `R.Partition` contains `p`. -/
theorem partition_exactly_one (R : AABB) (p : Vector) (h : R.Contains p = true) :
    ∃! k : Fin 4, (R.Partition k).Contains p = true :=
  R.partition_existsUnique p h

/-- Witness of C4: the point `(0.1, 0)` of the root region of `Init`. -/
theorem partition_exactly_one_witness :
    worldBounds.Contains ⟨1 / 10, 0⟩ = true ∧
    ∃! k : Fin 4, (worldBounds.Partition k).Contains ⟨1 / 10, 0⟩ = true :=
  ⟨by decide!, partition_exactly_one worldBounds ⟨1 / 10, 0⟩ (by decide!)⟩

/-- C9. An insert of a particle whose position the node's region does not contain
returns the node unchanged (whole subtree, every data member), whatever the fuel. -/
theorem insert_outside_noop (s : Store) (particle fuel : Nat) (t : QuadTree)
    (h : t.data.bounds_.Contains (s particle).pos = false) :
    t.insert s particle fuel = some t :=
  QuadTree.insert_of_not_contains h

/-- Witness of C9: a particle exactly on the right edge of the root region. -/
theorem insert_outside_noop_witness :
    twoBodyTree.data.bounds_.Contains (edgeStore 0).pos = false ∧
    twoBodyTree.insert edgeStore 0 3 = some twoBodyTree :=
  ⟨by decide!, insert_outside_noop edgeStore 0 3 twoBodyTree (by decide!)⟩

/-- C1. Mass conservation: in every tree reachable from an empty `QuadTree` by
inserts and ticks, at every node `mass_` is the sum of the masses of the particles
that the node's `ToVector` returns (0 for an empty node). -/
theorem mass_conservation (sqrt : ℚ → ℚ) (bounds : AABB) (t : QuadTree) (s : Store)
    (h : QuadTree.Reachable sqrt bounds t s) :
    ∀ n ∈ QuadTree.nodes t, ∃ l, n.ToVector = some l ∧ n.data.mass_ = massSum s l :=
  QuadTree.wf_node_mass (QuadTree.reach_wf h)

/-- Witness of C1: the two heavy bodies of `Init` after one tick. -/
theorem mass_conservation_witness :
    QuadTree.Reachable ratSqrt worldBounds twoBodyTick.1 twoBodyTick.2.1 ∧
    ∀ n ∈ QuadTree.nodes twoBodyTick.1,
      ∃ l, n.ToVector = some l ∧ n.data.mass_ = massSum twoBodyTick.2.1 l :=
  ⟨QuadTree.twoBodyTick_reachable,
    mass_conservation ratSqrt worldBounds _ _ QuadTree.twoBodyTick_reachable⟩

/-- C10. `UpdateVelocities` changes only velocities: on a well-formed tree it
returns; the tree is not an output of the function (no member of any node is
assigned), it is still well-formed over the new store, every particle has its old
position and mass, and a particle that `ToVector` does not return is unchanged. -/
theorem updateVelocities_only_velocities (sqrt : ℚ → ℚ) (delta_time theta : ℚ) (s : Store)
    (t : QuadTree) (w : QuadTree.WellFormed s t) :
    ∃ s1 l, QuadTree.UpdateVelocities sqrt t delta_time theta t s = some s1 ∧
      t.ToVector = some l ∧ QuadTree.WellFormed s1 t ∧
      (∀ i, (s1 i).pos = (s i).pos ∧ (s1 i).mass = (s i).mass) ∧
      (∀ i, i ∉ l → s1 i = s i) := by
  obtain ⟨s1, e⟩ := @QuadTree.updateVelocities_total sqrt t delta_time theta t s w
  have f := QuadTree.updateVelocities_frame e
  exact ⟨s1, QuadTree.bodies t, e, QuadTree.wf_toVector w, QuadTree.wf_updateVelocities e w,
    fun i => ⟨(f i).1, (f i).2.1⟩, fun i hi => (f i).2.2 hi⟩

/-- Witness of C10: the two-body tree of `Init` with theta = 1. -/
theorem updateVelocities_only_velocities_witness :
    QuadTree.WellFormed twoBodyStore twoBodyTree ∧
    ∃ s1 l, QuadTree.UpdateVelocities ratSqrt twoBodyTree (1 / 1000) 1 twoBodyTree
        twoBodyStore = some s1 ∧
      twoBodyTree.ToVector = some l ∧ QuadTree.WellFormed s1 twoBodyTree ∧
      (∀ i, (s1 i).pos = (twoBodyStore i).pos ∧ (s1 i).mass = (twoBodyStore i).mass) ∧
      (∀ i, i ∉ l → s1 i = twoBodyStore i) :=
  ⟨by decide!,
    updateVelocities_only_velocities ratSqrt (1 / 1000) 1 twoBodyStore twoBodyTree (by decide!)⟩

/-- C5 (amended). theta = 0 equivalence, over exact arithmetic: on a well-formed tree
whose occupied leaves have the position of their particle as centre of mass,
`UpdateVelocities(root, dt, 0)` returns and leaves every particle `i` of the tree
with its old velocity plus the brute-force sum, over every other particle `j` of
the tree, of `dt * m_j * normalise(p_j - p_i) / max(|p_j - p_i|², 1e-6)`; every
other particle of the store is unchanged, and the admissibility test is false at
every node.  The occupied leaves have that centre of mass in every tree reachable
from an empty `QuadTree` by `insert`, `UpdateVelocities` and `UpdatePositions` when
all masses are at least `epsilon = 2^-52`. -/
theorem theta_zero_equivalence (sqrt : ℚ → ℚ) (delta_time : ℚ) (s : Store) (t : QuadTree) :
    (QuadTree.WellFormed s t → QuadTree.LeafCom s t →
      ∃ s1 l, QuadTree.UpdateVelocities sqrt t delta_time 0 t s = some s1 ∧
        t.ToVector = some l ∧
        (∀ i ∈ l, (s1 i).vel = Vector.add (s i).vel (bruteForce sqrt s delta_time i l)) ∧
        (∀ i, i ∉ l → s1 i = s i) ∧
        (∀ n ∈ QuadTree.nodes t, ∀ i,
          ¬ n.data.bounds_.width * n.data.bounds_.width /
            QuadTree.clamp (Vector.sub (s i).pos n.data.centre_of_mass_).MagnitudeSquared <
              0 * 0)) ∧
    (∀ bounds, QuadTree.Reachable sqrt bounds t s → (∀ i, QuadTree.epsilon ≤ (s i).mass) →
      QuadTree.WellFormed s t ∧ QuadTree.LeafCom s t) := by
  refine ⟨fun w c => ?_, fun bounds h hm => ⟨QuadTree.reach_wf h, QuadTree.reach_leafCom h hm⟩⟩
  obtain ⟨s1, e, v⟩ := @QuadTree.updateVelocities_theta_zero sqrt t delta_time s w c t s
    (fun _ => ⟨rfl, rfl⟩) (QuadTree.wf_nodup w)
  exact ⟨s1, QuadTree.bodies t, e, QuadTree.wf_toVector w, v,
    fun i hi => (QuadTree.updateVelocities_frame e i).2.2 hi,
    fun _ _ _ => QuadTree.not_admissible_zero _ _⟩

/-- Witness of C5 (amended): the two-body tree of `Init`. -/
theorem theta_zero_equivalence_witness :
    QuadTree.WellFormed twoBodyStore twoBodyTree ∧ QuadTree.LeafCom twoBodyStore twoBodyTree ∧
    ∃ s1 l, QuadTree.UpdateVelocities ratSqrt twoBodyTree (1 / 1000) 0 twoBodyTree
        twoBodyStore = some s1 ∧
      twoBodyTree.ToVector = some l ∧
      (∀ i ∈ l, (s1 i).vel =
        Vector.add (twoBodyStore i).vel (bruteForce ratSqrt twoBodyStore (1 / 1000) i l)) ∧
      (∀ i, i ∉ l → s1 i = twoBodyStore i) ∧
      (∀ n ∈ QuadTree.nodes twoBodyTree, ∀ i,
        ¬ n.data.bounds_.width * n.data.bounds_.width /
          QuadTree.clamp
            (Vector.sub (twoBodyStore i).pos n.data.centre_of_mass_).MagnitudeSquared <
            0 * 0) :=
  ⟨by decide!, QuadTree.twoBodyTree_leafCom,
    (theta_zero_equivalence ratSqrt (1 / 1000) twoBodyStore twoBodyTree).1 (by decide!)
      QuadTree.twoBodyTree_leafCom⟩

/-- Counterexample to C2 as stated: two particles of mass `2^-60` at `(0.5, 0.5)` and
`(0.5, -0.5)` are inserted and one tick is run; the masses are positive, the root
holds both particles, and its centre of mass is the centre of the region `(0, 0)`,
not the mass-weighted mean. -/
theorem centre_of_mass_counterexample :
    QuadTree.Reachable ratSqrt worldBounds tinyTick.1 tinyTick.2.1 ∧
    (∀ i, 0 < (tinyTick.2.1 i).mass) ∧
    tinyTick.1 ∈ QuadTree.nodes tinyTick.1 ∧ tinyTick.1.ToVector = some [0, 1] ∧
    tinyTick.1.data.centre_of_mass_ = ⟨0, 0⟩ ∧
    tinyTick.1.data.centre_of_mass_ ≠
      Vector.div (moment tinyTick.2.1 [0, 1]) (massSum tinyTick.2.1 [0, 1]) :=
  ⟨QuadTree.tinyTick_reachable,
    fun i => by rw [QuadTree.tinyTick_mass]; positivity,
    by decide!, by decide!, by decide!, by decide!⟩

/-- C2 (amended). Centre of mass: at every node that holds at least one particle,
`centre_of_mass_` is `Σ mass * pos / Σ mass` over the particles that the node's
`ToVector` returns, (a) in every tree built from an empty `QuadTree` by inserts
alone when all masses are strictly positive, and (b) in every tree reachable by
inserts and ticks when all masses are at least `epsilon = 2^-52`. -/
theorem centre_of_mass_correct (sqrt : ℚ → ℚ) (bounds : AABB) (s : Store) :
    (∀ (l : List Nat) (fuel : Nat) (t : QuadTree), (∀ i, 0 < (s i).mass) →
      QuadTree.insertAll s fuel l (QuadTree.mk bounds) = some t →
      ∀ n ∈ QuadTree.nodes t, ∀ v, n.ToVector = some v → v ≠ [] →
        n.data.centre_of_mass_ = Vector.div (moment s v) (massSum s v)) ∧
    (∀ t : QuadTree, (∀ i, QuadTree.epsilon ≤ (s i).mass) →
      QuadTree.Reachable sqrt bounds t s →
      ∀ n ∈ QuadTree.nodes t, ∀ v, n.ToVector = some v → v ≠ [] →
        n.data.centre_of_mass_ = Vector.div (moment s v) (massSum s v)) := by
  constructor
  · intro l fuel t hm h
    obtain ⟨w, c⟩ := QuadTree.insertAll_comInv hm l (QuadTree.wf_mk s bounds)
      (QuadTree.comInv_mk s bounds) h
    exact QuadTree.com_of_comInv hm w c
  · intro t hm h
    exact QuadTree.com_of_comInv (fun i => lt_of_lt_of_le QuadTree.epsilon_pos (hm i))
      (QuadTree.reach_wf h) (QuadTree.reach_comInv h hm)

/-- Witness of C2 (amended): the two tiny particles after the inserts alone, and the
two heavy bodies of `Init` after one tick. -/
theorem centre_of_mass_correct_witness :
    ((∀ i, 0 < (tinyStore i).mass) ∧
      QuadTree.insertAll tinyStore 1 [0, 1] (QuadTree.mk worldBounds) = some tinyTree ∧
      ∀ n ∈ QuadTree.nodes tinyTree, ∀ v, n.ToVector = some v → v ≠ [] →
        n.data.centre_of_mass_ = Vector.div (moment tinyStore v) (massSum tinyStore v)) ∧
    ((∀ i, QuadTree.epsilon ≤ (twoBodyTick.2.1 i).mass) ∧
      QuadTree.Reachable ratSqrt worldBounds twoBodyTick.1 twoBodyTick.2.1 ∧
      ∀ n ∈ QuadTree.nodes twoBodyTick.1, ∀ v, n.ToVector = some v → v ≠ [] →
        n.data.centre_of_mass_ =
          Vector.div (moment twoBodyTick.2.1 v) (massSum twoBodyTick.2.1 v)) :=
  ⟨⟨fun i => by rw [QuadTree.tinyStore_mass]; positivity, by decide!,
      (centre_of_mass_correct ratSqrt worldBounds tinyStore).1 [0, 1] 1 tinyTree
        (fun i => by rw [QuadTree.tinyStore_mass]; positivity) (by decide!)⟩,
    ⟨fun i => by rw [QuadTree.twoBodyTick_mass]; unfold QuadTree.epsilon; norm_num,
      QuadTree.twoBodyTick_reachable,
      (centre_of_mass_correct ratSqrt worldBounds twoBodyTick.2.1).2 twoBodyTick.1
        (fun i => by rw [QuadTree.twoBodyTick_mass]; unfold QuadTree.epsilon; norm_num)
        QuadTree.twoBodyTick_reachable⟩⟩

/-- C11. `UpdatePositions` integrates every body exactly once: on a well-formed
tree whose updated positions are pairwise distinct the call returns (with enough
fuel, and more fuel gives the same result), and afterwards every particle that
`ToVector` returned before the call, whether it stayed in its leaf, was inserted
into another leaf or was returned as escaped, has position
`old pos + old vel * delta_time` with its velocity and mass unchanged; every other
particle of the store is unchanged. -/
theorem integrates_once (delta_time : ℚ) (s : Store) (t : QuadTree)
    (w : QuadTree.WellFormed s t)
    (hd : (QuadTree.bodies t).Pairwise (fun i j =>
      Vector.add (s i).pos (Vector.muls (s i).vel delta_time) ≠
        Vector.add (s j).pos (Vector.muls (s j).vel delta_time))) :
    ∃ fuel t1 s1 escaped v0,
      (∀ g, fuel ≤ g → t.UpdatePositions g delta_time s = some (t1, s1, escaped)) ∧
      t.ToVector = some v0 ∧
      (∀ i ∈ v0, (s1 i).pos = Vector.add (s i).pos (Vector.muls (s i).vel delta_time) ∧
        (s1 i).vel = (s i).vel ∧ (s1 i).mass = (s i).mass) ∧
      (∀ i, i ∉ v0 → s1 i = s i) := by
  obtain ⟨fuel, ⟨t1, s1, esc⟩, e⟩ := QuadTree.updatePositions_terminates t w hd
  have hs := (QuadTree.updatePositions_post t w e).1
  refine ⟨fuel, t1, s1, esc, QuadTree.bodies t,
    fun g hg => QuadTree.updatePositions_mono_le hg t e, QuadTree.wf_toVector w, ?_, ?_⟩
  · intro i hi
    rw [hs]
    exact ⟨QuadTree.advance_pos hi, QuadTree.advance_vel _ _ _ _, QuadTree.advance_mass _ _ _ _⟩
  · intro i hi
    rw [hs]
    exact QuadTree.advance_agree hi

/-- Witness of C11: the two-body tree after `UpdateVelocities`; both particles change
quadrant in the step and are inserted again. -/
theorem integrates_once_witness :
    QuadTree.WellFormed twoBodyVel twoBodyTree ∧
    (QuadTree.bodies twoBodyTree).Pairwise (fun i j =>
      Vector.add (twoBodyVel i).pos (Vector.muls (twoBodyVel i).vel (1 / 1000)) ≠
        Vector.add (twoBodyVel j).pos (Vector.muls (twoBodyVel j).vel (1 / 1000))) ∧
    ∃ fuel t1 s1 escaped v0,
      (∀ g, fuel ≤ g →
        twoBodyTree.UpdatePositions g (1 / 1000) twoBodyVel = some (t1, s1, escaped)) ∧
      twoBodyTree.ToVector = some v0 ∧
      (∀ i ∈ v0,
        (s1 i).pos = Vector.add (twoBodyVel i).pos (Vector.muls (twoBodyVel i).vel (1 / 1000)) ∧
        (s1 i).vel = (twoBodyVel i).vel ∧ (s1 i).mass = (twoBodyVel i).mass) ∧
      (∀ i, i ∉ v0 → s1 i = twoBodyVel i) :=
  ⟨by decide!, by decide!,
    integrates_once (1 / 1000) twoBodyVel twoBodyTree (by decide!) (by decide!)⟩

/-- C14. Barnes-Hut admissibility test: in `UpdateVelocity` on a non-empty internal
node, with `dist_sq = max(|target.pos - centre_of_mass_|², 1e-6)`: when
`width² / dist_sq < theta²` the target's velocity is increased by
`delta_time * mass_ * normalise(centre_of_mass_ - target.pos) / dist_sq` and nothing
else happens (no child is visited); otherwise the call is `UpdateVelocity` on the
four children in the order NW, NE, SW, SE and the node adds nothing itself. -/
theorem admissibility_test (sqrt : ℚ → ℚ) (target : Nat) (delta_time theta : ℚ) (s : Store)
    (d : NodeData) (nw ne sw se : QuadTree) (hp : d.particle_ = none) (hc : d.count_ ≠ 0) :
    (d.bounds_.width * d.bounds_.width /
        max (Vector.sub (s target).pos d.centre_of_mass_).MagnitudeSquared (1 / 1000000) <
          theta * theta →
      QuadTree.UpdateVelocity sqrt target delta_time theta (QuadTree.inner d nw ne sw se) s =
        some (QuadTree.addVel s target
          (Vector.div
            (Vector.smul (delta_time * d.mass_)
              (Vector.Normalise sqrt (Vector.sub d.centre_of_mass_ (s target).pos)))
            (max (Vector.sub (s target).pos d.centre_of_mass_).MagnitudeSquared
              (1 / 1000000))))) ∧
    (¬ d.bounds_.width * d.bounds_.width /
        max (Vector.sub (s target).pos d.centre_of_mass_).MagnitudeSquared (1 / 1000000) <
          theta * theta →
      QuadTree.UpdateVelocity sqrt target delta_time theta (QuadTree.inner d nw ne sw se) s =
        (QuadTree.UpdateVelocity sqrt target delta_time theta nw s).bind fun s1 =>
        (QuadTree.UpdateVelocity sqrt target delta_time theta ne s1).bind fun s2 =>
        (QuadTree.UpdateVelocity sqrt target delta_time theta sw s2).bind fun s3 =>
          QuadTree.UpdateVelocity sqrt target delta_time theta se s3) := by
  have h0 : ¬(some target = d.particle_ ∨ d.count_ = 0) := by simp [hp, hc]
  rw [← QuadTree.clamp_eq_max]
  exact ⟨fun ha => QuadTree.updateVelocity_far h0 hp ha,
    fun ha => QuadTree.updateVelocity_near h0 hp ha⟩

/-- Witness of C14: the root of the two-body tree of `Init`, with target 0 and
theta = 1. -/
theorem admissibility_test_witness :
    (⟨none, 2, 10000, ⟨0, 0⟩, worldBounds⟩ : NodeData).particle_ = none ∧
    (⟨none, 2, 10000, ⟨0, 0⟩, worldBounds⟩ : NodeData).count_ ≠ 0 ∧
    ¬ worldBounds.width * worldBounds.width /
        max (Vector.sub (twoBodyStore 0).pos ⟨0, 0⟩).MagnitudeSquared (1 / 1000000) < 1 * 1 ∧
    QuadTree.UpdateVelocity ratSqrt 0 (1 / 1000) 1 twoBodyTree twoBodyStore =
      (QuadTree.UpdateVelocity ratSqrt 0 (1 / 1000) 1
        (QuadTree.leaf ⟨some 0, 1, 5000, ⟨-1 / 10, 0⟩, ⟨-1, 1, 0, 0⟩⟩) twoBodyStore).bind
      fun s1 =>
      (QuadTree.UpdateVelocity ratSqrt 0 (1 / 1000) 1
        (QuadTree.leaf ⟨some 1, 1, 5000, ⟨1 / 10, 0⟩, ⟨0, 1, 1, 0⟩⟩) s1).bind fun s2 =>
      (QuadTree.UpdateVelocity ratSqrt 0 (1 / 1000) 1 (QuadTree.mk ⟨-1, 0, 0, -1⟩) s2).bind
      fun s3 => QuadTree.UpdateVelocity ratSqrt 0 (1 / 1000) 1 (QuadTree.mk ⟨0, 0, 1, -1⟩) s3 :=
  ⟨rfl, by decide, by decide!,
    (admissibility_test ratSqrt 0 (1 / 1000) 1 twoBodyStore
      ⟨none, 2, 10000, ⟨0, 0⟩, worldBounds⟩ _ _ _ _ rfl (by decide)).2 (by decide!)⟩

/-- C15. Zero-mass subtree default: when `UpdatePositions` returns on a node that is
internal and non-empty at the call, the node's new `mass_` is the total recomputed
from the four children (after the recursive calls and the loop over the escaped
particles), and if its absolute value is below `epsilon = 2^-52` the node's
`centre_of_mass_` is the centre of its region `(l + width/2, b + height/2)`,
whether the node has merged or not. -/
theorem zero_mass_default (fuel : Nat) (delta_time : ℚ) (s s1 : Store) (d : NodeData)
    (nw ne sw se t1 : QuadTree) (escaped : List Nat) (hc : d.count_ ≠ 0)
    (hp : d.particle_ = none)
    (h : (QuadTree.inner d nw ne sw se).UpdatePositions fuel delta_time s =
      some (t1, s1, escaped)) :
    ∃ nw2 ne2 sw2 se2,
      t1 = QuadTree.recompute d nw2 ne2 sw2 se2 escaped ∧
      t1.data.mass_ =
        0 + nw2.data.mass_ + ne2.data.mass_ + sw2.data.mass_ + se2.data.mass_ ∧
      (|t1.data.mass_| < QuadTree.epsilon →
        t1.data.centre_of_mass_ =
          ⟨d.bounds_.l + d.bounds_.width / 2, d.bounds_.b + d.bounds_.height / 2⟩) := by
  rw [QuadTree.updatePositions_inner hc hp] at h
  simp only [Option.bind_eq_some] at h
  obtain ⟨r1, -, r2, -, r3, -, r4, -, c, -, h⟩ := h
  simp only [Option.some.injEq, Prod.mk.injEq] at h
  obtain ⟨rfl, -, rfl⟩ := h
  have k := QuadTree.recompute_data d c.1.1 c.1.2.1 c.1.2.2.1 c.1.2.2.2 c.2
  refine ⟨c.1.1, c.1.2.1, c.1.2.2.1, c.1.2.2.2, rfl, k.1, fun hm => k.2.2 ?_⟩
  rw [← k.1]
  exact hm

/-- Witness of C15: the tree of the two particles of mass `2^-60` after one tick; the
root has mass `2^-59` and the centre of the region `(0, 0)` as centre of mass. -/
theorem zero_mass_default_witness :
    (⟨none, 2, 1 / 2 ^ 59, ⟨1 / 2, 0⟩, worldBounds⟩ : NodeData).count_ ≠ 0 ∧
    tinyTree.UpdatePositions 1 (1 / 1000) tinyVel =
      some (tinyTick.1, tinyTick.2.1, tinyTick.2.2) ∧
    |tinyTick.1.data.mass_| < QuadTree.epsilon ∧
    tinyTick.1.data.centre_of_mass_ = ⟨0, 0⟩ ∧
    ∃ nw2 ne2 sw2 se2,
      tinyTick.1 = QuadTree.recompute ⟨none, 2, 1 / 2 ^ 59, ⟨1 / 2, 0⟩, worldBounds⟩
        nw2 ne2 sw2 se2 tinyTick.2.2 ∧
      tinyTick.1.data.mass_ =
        0 + nw2.data.mass_ + ne2.data.mass_ + sw2.data.mass_ + se2.data.mass_ ∧
      (|tinyTick.1.data.mass_| < QuadTree.epsilon →
        tinyTick.1.data.centre_of_mass_ =
          ⟨worldBounds.l + worldBounds.width / 2, worldBounds.b + worldBounds.height / 2⟩) :=
  ⟨by decide, QuadTree.tinyTick_eq, by decide!, by decide!,
    zero_mass_default 1 (1 / 1000) tinyVel tinyTick.2.1 ⟨none, 2, 1 / 2 ^ 59, ⟨1 / 2, 0⟩, worldBounds⟩
      _ _ _ _ tinyTick.1 tinyTick.2.2 (by decide) rfl QuadTree.tinyTick_eq⟩

/-- C20 (amended). No self-attraction for small theta, over exact arithmetic: in a tree
built by inserts of positive-mass particles into a square root region, when `theta² ≤
1/2`, every internal node whose region contains the target and whose squared distance
from the target to `centre_of_mass_` is at least `1e-6` (not clamped) fails the
admissibility test, `width² / dist_sq ≥ theta²`, and `UpdateVelocity` on it is the
recursion into the four children: the node's aggregate, which would include the target's
own mass, is not added to the target's velocity. -/
theorem no_self_attraction (sqrt : ℚ → ℚ) (s : Store) (R : AABB) (l : List Nat)
    (fuel : Nat) (t : QuadTree) (target : Nat) (delta_time theta : ℚ)
    (hsq : R.width = R.height) (hm : ∀ i, 0 < (s i).mass)
    (hb : QuadTree.insertAll s fuel l (QuadTree.mk R) = some t)
    (ht : theta * theta ≤ 1 / 2) :
    ∀ d nw ne sw se, QuadTree.inner d nw ne sw se ∈ QuadTree.nodes t →
      d.bounds_.Contains (s target).pos = true →
      1 / 1000000 ≤ (Vector.sub (s target).pos d.centre_of_mass_).MagnitudeSquared →
      theta * theta ≤ d.bounds_.width * d.bounds_.width /
        (Vector.sub (s target).pos d.centre_of_mass_).MagnitudeSquared ∧
      ¬ d.bounds_.width * d.bounds_.width /
        QuadTree.clamp (Vector.sub (s target).pos d.centre_of_mass_).MagnitudeSquared <
          theta * theta ∧
      QuadTree.UpdateVelocity sqrt target delta_time theta (QuadTree.inner d nw ne sw se) s =
        (QuadTree.UpdateVelocity sqrt target delta_time theta nw s).bind fun s1 =>
        (QuadTree.UpdateVelocity sqrt target delta_time theta ne s1).bind fun s2 =>
        (QuadTree.UpdateVelocity sqrt target delta_time theta sw s2).bind fun s3 =>
          QuadTree.UpdateVelocity sqrt target delta_time theta se s3 := by
  intro d nw ne sw se hn hin hd
  obtain ⟨w, c⟩ := QuadTree.insertAll_comInv hm l (QuadTree.wf_mk s R)
    (QuadTree.comInv_mk s R) hb
  have hbd : t.data.bounds_ = R := QuadTree.insertAll_bounds l (QuadTree.wf_mk s R) hb
  have key := QuadTree.not_admissible_small_theta hm w c (by rw [hbd]; exact hsq) ht hn hin hd
  have hna : ¬ d.bounds_.width * d.bounds_.width /
      QuadTree.clamp (Vector.sub (s target).pos d.centre_of_mass_).MagnitudeSquared <
        theta * theta := by
    rw [QuadTree.clamp_of_le hd]
    exact not_lt.2 (le_of_lt key)
  have wn := QuadTree.wf_of_mem_nodes w hn
  simp only [QuadTree.WellFormed] at wn
  exact ⟨le_of_lt key, hna,
    QuadTree.updateVelocity_near (by simp [wn.1]; omega) wn.1 hna⟩

/-- Witness of C20 (amended): the two-body tree of `Init` (root `[-1, 1)²`) with theta =
1/2. -/
theorem no_self_attraction_witness :
    worldBounds.width = worldBounds.height ∧ (∀ i, 0 < (twoBodyStore i).mass) ∧
    QuadTree.insertAll twoBodyStore 1 [0, 1] (QuadTree.mk worldBounds) = some twoBodyTree ∧
    (1 / 2 : ℚ) * (1 / 2) ≤ 1 / 2 ∧
    ∀ d nw ne sw se, QuadTree.inner d nw ne sw se ∈ QuadTree.nodes twoBodyTree →
      d.bounds_.Contains (twoBodyStore 0).pos = true →
      1 / 1000000 ≤ (Vector.sub (twoBodyStore 0).pos d.centre_of_mass_).MagnitudeSquared →
      (1 / 2 : ℚ) * (1 / 2) ≤ d.bounds_.width * d.bounds_.width /
        (Vector.sub (twoBodyStore 0).pos d.centre_of_mass_).MagnitudeSquared ∧
      ¬ d.bounds_.width * d.bounds_.width /
        QuadTree.clamp
          (Vector.sub (twoBodyStore 0).pos d.centre_of_mass_).MagnitudeSquared <
          (1 / 2 : ℚ) * (1 / 2) ∧
      QuadTree.UpdateVelocity ratSqrt 0 (1 / 1000) (1 / 2) (QuadTree.inner d nw ne sw se)
          twoBodyStore =
        (QuadTree.UpdateVelocity ratSqrt 0 (1 / 1000) (1 / 2) nw twoBodyStore).bind fun s1 =>
        (QuadTree.UpdateVelocity ratSqrt 0 (1 / 1000) (1 / 2) ne s1).bind fun s2 =>
        (QuadTree.UpdateVelocity ratSqrt 0 (1 / 1000) (1 / 2) sw s2).bind fun s3 =>
          QuadTree.UpdateVelocity ratSqrt 0 (1 / 1000) (1 / 2) se s3 :=
  ⟨by decide!, QuadTree.twoBodyStore_mass_pos, by decide!, by decide!,
    no_self_attraction ratSqrt twoBodyStore worldBounds [0, 1] 1 twoBodyTree 0 (1 / 1000)
      (1 / 2) (by decide!) QuadTree.twoBodyStore_mass_pos (by decide!) (by decide!)⟩

/-- Counterexample to C20 as stated, in `double` arithmetic: the three particles of
`selfStore` have positive masses and are inserted into the empty tree over the
square region `{-1, 0.7, 0.7, -1}`; `theta = 0.7071067811865475` has
`theta² ≤ 1/2`; the root is internal, its region contains the target, particle 0,
and the squared distance from the target to the root's `centre_of_mass_` is above
`1e-6`; but `centre_of_mass_` has been rounded to `0.7 + 2^-53` in both coordinates,
outside the region, `width² / dist_sq` is below `theta²`, and `UpdateVelocity` adds
the root's aggregate term to the target's velocity instead of visiting the
children. -/
theorem self_attraction_counterexample :
    F64.AABB.width selfBounds = F64.AABB.height selfBounds ∧
    (∀ i, 0 < (selfStore i).mass) ∧
    F64.QuadTree.insertAll selfStore 4 [1, 2, 0] (QuadTree.mk selfBounds) = some selfTree ∧
    selfTree.ToVector = some [1, 2, 0] ∧
    selfTheta * selfTheta ≤ 1 / 2 ∧ F64.mul selfTheta selfTheta ≤ 1 / 2 ∧
    selfTree ≠ QuadTree.leaf selfTree.data ∧
    selfTree.data.bounds_.Contains (selfStore 0).pos = true ∧
    F64.round (1 / 1000000) ≤
      F64.Vector.MagnitudeSquared
        (F64.Vector.sub (selfStore 0).pos selfTree.data.centre_of_mass_) ∧
    selfTree.data.centre_of_mass_ =
      ⟨F64.round (7 / 10) + 1 / 2 ^ 53, F64.round (7 / 10) + 1 / 2 ^ 53⟩ ∧
    selfBounds.Contains selfTree.data.centre_of_mass_ = false ∧
    F64.div (F64.mul (F64.AABB.width selfBounds) (F64.AABB.width selfBounds))
        (F64.Vector.MagnitudeSquared
          (F64.Vector.sub (selfStore 0).pos selfTree.data.centre_of_mass_)) <
      F64.mul selfTheta selfTheta ∧
    ∀ (sqrt : ℚ → ℚ) (delta_time : ℚ),
      F64.QuadTree.UpdateVelocity sqrt 0 delta_time selfTheta selfTree selfStore =
        some (F64.QuadTree.addVel selfStore 0
          (F64.Vector.div
            (F64.Vector.smul (F64.mul delta_time selfTree.data.mass_)
              (F64.Vector.Normalise sqrt
                (F64.Vector.sub selfTree.data.centre_of_mass_ (selfStore 0).pos)))
            (F64.QuadTree.clamp
              (F64.Vector.MagnitudeSquared
                (F64.Vector.sub (selfStore 0).pos selfTree.data.centre_of_mass_))))) :=
  ⟨by decide!, QuadTree.selfStore_mass, QuadTree.selfTree_eq, by decide!, by decide!,
    by decide!, by decide!, by decide!, by decide!, by decide!, by decide!, by decide!,
    fun _ _ => QuadTree.f64_updateVelocity_far (by decide!) (by decide!) (by decide!)⟩

/-- Counterexample to C5 as stated: three particles of mass `2^-60` are inserted into
the empty tree over `{-1, 1, 1, -1}` and `UpdatePositions(2^-10)` is run.  The tree
is then well-formed and its particles are at the pairwise distinct positions
`(0.25, 0.25)`, `(-0.5, 0.25)` and `(-0.5, -0.75)`, whose distances `3/4`, `5/4`
and `1` the stand-in `ratSqrt` computes exactly; the leaf over the north-east
quadrant, merged around particle 0 with a mass below `epsilon`, has the centre of
its region `(0.5, 0.5)` as `centre_of_mass_`, and `UpdateVelocities(root, 1, 0)`
leaves particles 1 and 2 with velocities other than the old velocity plus the
brute-force sum. -/
theorem theta_zero_counterexample :
    QuadTree.insertAll lightStore 2 [0, 1, 2] (QuadTree.mk worldBounds) = some lightTree ∧
    lightTree.UpdatePositions 2 (1 / 1024) lightStore =
      some (lightTick.1, lightTick.2.1, lightTick.2.2) ∧
    QuadTree.WellFormed lightTick.2.1 lightTick.1 ∧
    lightTick.1.ToVector = some [1, 0, 2] ∧
    [(lightTick.2.1 1).pos, (lightTick.2.1 0).pos, (lightTick.2.1 2).pos] =
      [⟨-1 / 2, 1 / 4⟩, ⟨1 / 4, 1 / 4⟩, ⟨-1 / 2, -3 / 4⟩] ∧
    [ratSqrt (Vector.sub (lightTick.2.1 0).pos (lightTick.2.1 1).pos).MagnitudeSquared,
      ratSqrt (Vector.sub (lightTick.2.1 0).pos (lightTick.2.1 2).pos).MagnitudeSquared,
      ratSqrt (Vector.sub (lightTick.2.1 1).pos (lightTick.2.1 2).pos).MagnitudeSquared] =
      [3 / 4, 5 / 4, 1] ∧
    QuadTree.leaf ⟨some 0, 1, 1 / 2 ^ 60, ⟨1 / 2, 1 / 2⟩, ⟨0, 1, 1, 0⟩⟩ ∈
      QuadTree.nodes lightTick.1 ∧
    QuadTree.UpdateVelocities ratSqrt lightTick.1 1 0 lightTick.1 lightTick.2.1 =
      some lightVel ∧
    (lightVel 1).vel ≠
      Vector.add (lightTick.2.1 1).vel (bruteForce ratSqrt lightTick.2.1 1 1 [1, 0, 2]) ∧
    (lightVel 2).vel ≠
      Vector.add (lightTick.2.1 2).vel (bruteForce ratSqrt lightTick.2.1 1 2 [1, 0, 2]) :=
  ⟨QuadTree.lightTree_eq, QuadTree.lightTick_eq, by decide!, by decide!, by decide!,
    by decide!, by decide!, QuadTree.lightVel_eq, by decide!, by decide!⟩

end BarnesHut
